import Mathlib

/-!
# VecStream — formal model of the core engine

A shallow embedding of the VecStream vector database core
(`vecstream/vector_store.py`, `vecstream/binary_store.py`,
`vecstream/hnsw_index.py`, `vecstream/index_manager.py`,
`vecstream/query_engine.py`) together with theorems checking the
natural-language specification against it.

Modelling conventions:
* Python `float` arithmetic is modelled by real arithmetic (`ℝ`);
  vectors are `List ℝ`.
* Python `dict`s are insertion-ordered association lists: updating an
  existing key keeps its position, a new key is appended, deletion
  removes the entry.
* Python `set`s of neighbour ids are lists without duplicates; `add`
  appends when absent, `discard` filters.
* `heapq` heaps of `(distance, id)` tuples are kept as lists sorted
  ascending in the lexicographic tuple order (`heappush` = ordered
  insert, `heappop` = head), which realises exactly the observable
  behaviour of a binary heap of distinct tuples.
* The random level drawn by `HNSWIndex._get_random_level` is passed in
  as an explicit argument of `add_item`.
* The unbounded `while candidates:` loop of `_search_layer` is run on
  fuel `|nodes| + 1`, an upper bound on the number of iterations the
  Python loop can perform (each iteration pops one element and every
  id is pushed at most once).
-/

namespace VecStream

/-! ## Insertion-ordered dictionaries (Python `dict`) -/

/-- First value bound to `k`, if any. -/
def alookup {β : Type} (l : List (String × β)) (k : String) : Option β :=
  match l with
  | [] => none
  | (k', v) :: rest => if k' = k then some v else alookup rest k

/-- `d[k] = v`: replace in place when present, append otherwise. -/
def ainsert {β : Type} (l : List (String × β)) (k : String) (v : β) :
    List (String × β) :=
  match l with
  | [] => [(k, v)]
  | (k', v') :: rest =>
    if k' = k then (k, v) :: rest else (k', v') :: ainsert rest k v

/-- `del d[k]`. -/
def aerase {β : Type} (l : List (String × β)) (k : String) :
    List (String × β) :=
  match l with
  | [] => []
  | (k', v') :: rest =>
    if k' = k then rest else (k', v') :: aerase rest k

/-- `k in d`. -/
def amem {β : Type} (l : List (String × β)) (k : String) : Bool :=
  (alookup l k).isSome

/-- Keys of the dictionary, in order. -/
def akeys {β : Type} (l : List (String × β)) : List String :=
  l.map Prod.fst

/-! ## Python `set` of ids as a duplicate-free list -/

/-- `s.add x`: append when absent. -/
def setAdd (s : List String) (x : String) : List String :=
  if x ∈ s then s else s ++ [x]

/-- `s.discard x`. -/
def setDiscard (s : List String) (x : String) : List String :=
  s.filter (fun y => y ≠ x)

/-! ## Vector arithmetic -/

/-- `np.dot` of two equal-length vectors. -/
def dot (a b : List ℝ) : ℝ :=
  (List.zipWith (· * ·) a b).sum

/-- Sum of squares of the entries. -/
def normSq (a : List ℝ) : ℝ := dot a a

/-- `np.linalg.norm`. -/
noncomputable def norm (a : List ℝ) : ℝ := Real.sqrt (normSq a)

/-- `v / np.linalg.norm(v)` guarded by `if norm > 0` as in the sources. -/
noncomputable def normalize (v : List ℝ) : List ℝ :=
  if 0 < norm v then v.map (· / norm v) else v

/-- Descending-by-similarity ordering used by
`similarities.sort(key=lambda x: x[1], reverse=True)`; `insertionSort`
with this relation is the stable descending sort Python performs. -/
def simGE (a b : String × ℝ) : Prop := b.2 ≤ a.2

noncomputable instance : DecidableRel simGE := fun a b =>
  inferInstanceAs (Decidable (b.2 ≤ a.2))

instance : IsTotal (String × ℝ) simGE := ⟨fun a b => le_total b.2 a.2⟩

instance : IsTrans (String × ℝ) simGE := ⟨fun _ _ _ h h' => le_trans h' h⟩

/-! ### Basic arithmetic lemmas -/

theorem dot_nil_right (a : List ℝ) : dot a [] = 0 := by
  cases a <;> simp [dot]

theorem dot_cons (x y : ℝ) (xs ys : List ℝ) :
    dot (x :: xs) (y :: ys) = x * y + dot xs ys := by
  simp [dot]

theorem dot_comm (a b : List ℝ) : dot a b = dot b a := by
  induction a generalizing b with
  | nil => simp [dot]
  | cons x xs ih =>
    cases b with
    | nil => simp [dot]
    | cons y ys => simp [dot_cons, ih, mul_comm]

theorem normSq_nonneg (a : List ℝ) : 0 ≤ normSq a := by
  induction a with
  | nil => simp [normSq, dot]
  | cons x xs ih =>
    have : normSq (x :: xs) = x * x + normSq xs := dot_cons x x xs xs
    rw [this]
    nlinarith [mul_self_nonneg x]

theorem norm_eq_zero_iff (a : List ℝ) : norm a = 0 ↔ normSq a = 0 := by
  unfold norm
  rw [Real.sqrt_eq_zero (normSq_nonneg a)]

/-- A vector of zero norm pairs to zero with anything. -/
theorem dot_eq_zero_of_normSq_eq_zero (a : List ℝ) (h : normSq a = 0) :
    ∀ b : List ℝ, dot a b = 0 := by
  induction a with
  | nil => intro b; simp [dot]
  | cons x xs ih =>
    intro b
    have hsplit : x * x + normSq xs = 0 := by
      have := dot_cons x x xs xs
      rw [normSq] at h ⊢
      rw [this] at h
      exact h
    have hx2 : x * x = 0 ∧ normSq xs = 0 := by
      constructor
      · nlinarith [normSq_nonneg xs, mul_self_nonneg x]
      · nlinarith [normSq_nonneg xs, mul_self_nonneg x]
    have hx : x = 0 := by
      have := hx2.1
      nlinarith
    cases b with
    | nil => simp [dot]
    | cons y ys =>
      rw [dot_cons, hx, ih hx2.2 ys]
      ring

theorem normalize_of_norm_eq_zero {v : List ℝ} (h : norm v = 0) :
    normalize v = v := by
  unfold normalize
  rw [h]
  simp

/-- The similarity the flat store computes for a query/vector pair:
both are normalized on the fly, then the dot product is taken. -/
noncomputable def flatSim (q v : List ℝ) : ℝ := dot (normalize q) (normalize v)

/-- Zero-norm query or stored vector means similarity `0` (the Python
guard leaves the zero vector untouched, so the dot product is `0`). -/
theorem flatSim_zero (q v : List ℝ) (h : norm q = 0 ∨ norm v = 0) :
    flatSim q v = 0 := by
  unfold flatSim
  rcases h with h | h
  · rw [normalize_of_norm_eq_zero h]
    exact dot_eq_zero_of_normSq_eq_zero q ((norm_eq_zero_iff q).mp h) _
  · rw [normalize_of_norm_eq_zero h, dot_comm]
    exact dot_eq_zero_of_normSq_eq_zero v ((norm_eq_zero_iff v).mp h) _

/-! ## `VectorStore` (`vecstream/vector_store.py`) -/

/-- In-memory state of `VectorStore`: the `vectors` dict and the
first-seen `dimension`. -/
structure VStore where
  vectors : List (String × List ℝ)
  dimension : Option ℕ

/-- `VectorStore.__init__`. -/
def VStore.init : VStore := ⟨[], none⟩

/-- `VectorStore.add_vector`: record the first-seen dimension, reject a
mismatch with `ValueError`, store the vector. -/
def VStore.add_vector (s : VStore) (id : String) (v : List ℝ) :
    Except String VStore :=
  match s.dimension with
  | none => .ok ⟨ainsert s.vectors id v, some v.length⟩
  | some d =>
    if v.length ≠ d then .error "InvalidDimension"
    else .ok ⟨ainsert s.vectors id v, some d⟩

/-- `VectorStore.search_similar`: empty store short-circuits to `[]`;
a query of the wrong dimension raises; otherwise every stored vector is
scored with the normalized dot product, filtered by `threshold`,
sorted descending by similarity (stable) and truncated to `k`. -/
noncomputable def VStore.search_similar (s : VStore) (q : List ℝ) (k : ℕ)
    (threshold : ℝ) : Except String (List (String × ℝ)) :=
  if s.vectors.isEmpty then .ok []
  else if some q.length ≠ s.dimension then .error "InvalidDimension"
  else
    let qn := normalize q
    let sims := (s.vectors.map (fun p => (p.1, dot qn (normalize p.2)))).filter
      (fun p => threshold ≤ p.2)
    .ok ((List.insertionSort simGE sims).take k)

end VecStream

namespace VecStream

/-- Store used to instantiate the flat-search theorems. -/
noncomputable def wStore : VStore :=
  ⟨[("a", [(1 : ℝ), 0]), ("b", [(0 : ℝ), 1])], some 2⟩

/-- C5: `VectorStore.search_similar` returns exactly the stored entries
whose cosine similarity to the query is at least `threshold`, capped at
the `k` highest and sorted by similarity descending (any qualifying
entry left out forces a full result of `k` entries, each scoring at
least as high); a zero-norm vector on either side yields similarity
`0`; an empty store returns `[]`; and `k` at least the population
returns every qualifying entry. -/
theorem search_similar_spec (s : VStore) (q : List ℝ) (k : ℕ) (t : ℝ)
    (res : List (String × ℝ)) (h : s.search_similar q k t = .ok res) :
    (s.vectors = [] → res = []) ∧
    List.Sorted simGE res ∧
    (∀ p ∈ res, t ≤ p.2 ∧ ∃ v, (p.1, v) ∈ s.vectors ∧ p.2 = flatSim q v) ∧
    res.length ≤ k ∧
    (s.vectors.length ≤ k → ∀ id v, (id, v) ∈ s.vectors → t ≤ flatSim q v →
      (id, flatSim q v) ∈ res) ∧
    (∀ id v, (id, v) ∈ s.vectors → t ≤ flatSim q v →
      (id, flatSim q v) ∉ res →
      res.length = k ∧ ∀ p ∈ res, flatSim q v ≤ p.2) ∧
    (∀ v : List ℝ, norm q = 0 ∨ norm v = 0 → flatSim q v = 0) := by
  unfold VStore.search_similar at h
  by_cases he : s.vectors.isEmpty
  · rw [if_pos he] at h
    have hres : res = [] := by
      cases h
      rfl
    subst hres
    have hemp : s.vectors = [] := List.isEmpty_iff.mp he
    refine ⟨fun _ => rfl, List.sorted_nil, by simp, by simp, ?_, ?_,
      flatSim_zero q⟩
    · intro _ id v hv _
      rw [hemp] at hv
      simp at hv
    · intro id v hv _ _
      rw [hemp] at hv
      simp at hv
  · rw [if_neg he] at h
    by_cases hd : some q.length ≠ s.dimension
    · rw [if_pos hd] at h
      cases h
    · rw [if_neg hd] at h
      set sims := (s.vectors.map
        (fun p => (p.1, dot (normalize q) (normalize p.2)))).filter
        (fun p => t ≤ p.2) with hsims
      have hres : res = (List.insertionSort simGE sims).take k := by
        cases h
        rfl
      subst hres
      have hmem_sims : ∀ p ∈ sims, t ≤ p.2 ∧
          ∃ v, (p.1, v) ∈ s.vectors ∧ p.2 = flatSim q v := by
        intro p hp
        have hfilt := List.of_mem_filter hp
        have hmap := List.mem_of_mem_filter hp
        rcases List.mem_map.mp hmap with ⟨⟨id, v⟩, hv, hpv⟩
        subst hpv
        exact ⟨by simpa using hfilt, v, by simpa using hv, by simp [flatSim]⟩
      refine ⟨?_, ?_, ?_, ?_, ?_, ?_, flatSim_zero q⟩
      · intro hemp
        rw [List.isEmpty_iff] at he
        exact absurd hemp he
      · exact (List.sorted_insertionSort simGE sims).sublist
          (List.take_sublist k _)
      · intro p hp
        have hp' : p ∈ List.insertionSort simGE sims :=
          List.mem_of_mem_take hp
        exact hmem_sims p ((List.mem_insertionSort simGE).mp hp')
      · rw [List.length_take]
        exact min_le_left _ _
      · intro hk id v hv hq
        have hlen : sims.length ≤ k := by
          have h1 : sims.length ≤ s.vectors.length := by
            calc sims.length
                ≤ ((s.vectors.map
                    (fun p => (p.1, dot (normalize q) (normalize p.2))))).length :=
                  List.length_filter_le _ _
              _ = s.vectors.length := List.length_map _ _
          exact le_trans h1 hk
        have hfull : (List.insertionSort simGE sims).take k
            = List.insertionSort simGE sims := by
          apply List.take_of_length_le
          rw [List.length_insertionSort]
          exact hlen
        rw [hfull, List.mem_insertionSort simGE]
        rw [hsims, List.mem_filter]
        constructor
        · exact List.mem_map.mpr ⟨(id, v), hv, rfl⟩
        · simpa using hq
      · intro id v hv hq hnot
        have hpair : (id, flatSim q v) ∈ sims := by
          rw [hsims, List.mem_filter]
          constructor
          · exact List.mem_map.mpr ⟨(id, v), hv, by simp [flatSim]⟩
          · simpa using hq
        have hsortmem : (id, flatSim q v) ∈ List.insertionSort simGE sims :=
          (List.mem_insertionSort simGE).mpr hpair
        have hdropmem : (id, flatSim q v) ∈
            (List.insertionSort simGE sims).drop k := by
          have hsplit :=
            List.take_append_drop k (List.insertionSort simGE sims)
          rw [← hsplit] at hsortmem
          rcases List.mem_append.mp hsortmem with h1 | h1
          · exact absurd h1 hnot
          · exact h1
        have hklt : k < (List.insertionSort simGE sims).length := by
          have h0 : 0 < ((List.insertionSort simGE sims).drop k).length :=
            List.length_pos.mpr (List.ne_nil_of_mem hdropmem)
          rw [List.length_drop] at h0
          omega
        constructor
        · rw [List.length_take]
          omega
        · intro p hp
          have hsorted : List.Pairwise simGE
              ((List.insertionSort simGE sims).take k ++
               (List.insertionSort simGE sims).drop k) := by
            rw [List.take_append_drop]
            exact List.sorted_insertionSort simGE sims
          have hcross := (List.pairwise_append.mp hsorted).2.2
          exact hcross p hp (id, flatSim q v) hdropmem

/-- Witness for `search_similar_spec` on a concrete two-vector store. -/
theorem search_similar_spec_wit :
    wStore.search_similar [1, 0] 1 0 = .ok [("a", 1)] ∧
    ((wStore.vectors = [] → [(("a" : String), (1 : ℝ))] = []) ∧
      List.Sorted simGE [(("a" : String), (1 : ℝ))] ∧
      (∀ p ∈ [(("a" : String), (1 : ℝ))], (0 : ℝ) ≤ p.2 ∧
        ∃ v, (p.1, v) ∈ wStore.vectors ∧ p.2 = flatSim [1, 0] v) ∧
      [(("a" : String), (1 : ℝ))].length ≤ 1 ∧
      (wStore.vectors.length ≤ 1 → ∀ id v, (id, v) ∈ wStore.vectors →
        (0 : ℝ) ≤ flatSim [1, 0] v → (id, flatSim [1, 0] v) ∈
          [(("a" : String), (1 : ℝ))]) ∧
      (∀ id v, (id, v) ∈ wStore.vectors → (0 : ℝ) ≤ flatSim [1, 0] v →
        (id, flatSim [1, 0] v) ∉ [(("a" : String), (1 : ℝ))] →
        [(("a" : String), (1 : ℝ))].length = 1 ∧
        ∀ p ∈ [(("a" : String), (1 : ℝ))], flatSim [1, 0] v ≤ p.2) ∧
      (∀ v : List ℝ, norm [(1 : ℝ), 0] = 0 ∨ norm v = 0 →
        flatSim [1, 0] v = 0)) := by
  have hEval : wStore.search_similar [1, 0] 1 0 = .ok [("a", 1)] := by
    norm_num [VStore.search_similar, wStore, normalize, norm, normSq, dot,
      simGE, Real.sqrt_one]
  exact ⟨hEval, search_similar_spec wStore [1, 0] 1 0 [("a", 1)] hEval⟩

end VecStream

namespace VecStream

/-! ## Metadata values (JSON-like trees) and the filter evaluator
(`vecstream/query_engine.py`) -/

mutual
/-- JSON-like metadata values: strings, numbers, booleans, null,
arrays, nested objects. -/
inductive JValue where
  | str : String → JValue
  | num : Int → JValue
  | bool : Bool → JValue
  | null : JValue
  | arr : JArr → JValue
  | obj : JObj → JValue
deriving DecidableEq

/-- A JSON array. -/
inductive JArr where
  | nil : JArr
  | cons : JValue → JArr → JArr
deriving DecidableEq

/-- A JSON object: an insertion-ordered dict from string keys to
values; also the shape of a whole metadata record. -/
inductive JObj where
  | nil : JObj
  | cons : String → JValue → JObj → JObj
deriving DecidableEq
end

/-- `k in obj` / `obj[k]` on a JSON object (first binding wins). -/
def JObj.find : JObj → String → Option JValue
  | .nil, _ => none
  | .cons k' v rest, k => if k' = k then some v else rest.find k

/-- Python truthiness of a metadata dict: non-empty. -/
def JObj.nonempty : JObj → Bool
  | .nil => false
  | .cons _ _ _ => true

/-- The key/value pairs of an object, in order. -/
def JObj.toList : JObj → List (String × JValue)
  | .nil => []
  | .cons k v rest => (k, v) :: rest.toList

/-- `key.split(".")`, modelled on the character list (the separator is
the single character `'.'`). -/
def splitDots (key : String) : List String :=
  (key.data.splitOn '.').map List.asString

/-- The `parts` loop of `QueryEngine._matches_filter`: descend
`parts[:-1]` requiring a nested object at every step, then demand the
final key be present and its value equal (`!=` check) to `v`. -/
def matchParts (m : JObj) : List String → JValue → Bool
  | [], _ => false
  | [last], v =>
    match m.find last with
    | some w => decide (w = v)
    | none => false
  | p :: rest, v =>
    match m.find p with
    | some (.obj o) => matchParts o rest v
    | _ => false

/-- One filter key, as `QueryEngine._matches_filter` evaluates it:
dot-joined keys (`"." in key`) go through the descent loop, plain keys
through direct lookup plus equality. -/
def matchesKey (m : JObj) (key : String) (v : JValue) : Bool :=
  if '.' ∈ key.data then matchParts m (splitDots key) v
  else
    match m.find key with
    | some w => decide (w = v)
    | none => false

/-- `QueryEngine._matches_filter`: every filter key must match
(logical AND, with Python's early `return False`). -/
def matchesFilter (m : JObj) (filter : JObj) : Bool :=
  match filter with
  | .nil => true
  | .cons k v rest => matchesKey m k v && matchesFilter m rest

/-- Modelled from the spec's words ("dot-joined key matches by
successive object descent and exact equality at the leaf"): resolve a
dot-path by walking nested objects, returning the leaf value. -/
def resolvePath (m : JObj) : List String → Option JValue
  | [] => none
  | [last] => m.find last
  | p :: rest =>
    match m.find p with
    | some (.obj o) => resolvePath o rest
    | _ => none

theorem matchParts_iff_resolvePath (parts : List String) :
    ∀ (m : JObj) (v : JValue),
      matchParts m parts v = true ↔ resolvePath m parts = some v := by
  induction parts with
  | nil => intro m v; simp [matchParts, resolvePath]
  | cons p rest ih =>
    intro m v
    cases rest with
    | nil =>
      simp only [matchParts, resolvePath]
      cases m.find p with
      | none => simp
      | some w => simp
    | cons p' rest' =>
      simp only [matchParts, resolvePath]
      cases hf : m.find p with
      | none => simp
      | some w =>
        cases w with
        | obj o => exact ih o v
        | str s => simp
        | num n => simp
        | bool b => simp
        | null => simp
        | arr a => simp

/-- When the key holds no dot, the character-list split returns the
whole key as the single part. -/
theorem splitDots_of_no_dot {key : String} (h : ¬ '.' ∈ key.data) :
    splitDots key = [key] := by
  unfold splitDots
  rw [List.splitOn, List.splitOnP_eq_single]
  · simp [List.asString]
  · intro x hx
    simp only [beq_iff_eq]
    intro hxe
    exact h (hxe ▸ hx)

theorem matchesKey_iff_resolvePath (m : JObj) (key : String) (v : JValue) :
    matchesKey m key v = true ↔ resolvePath m (splitDots key) = some v := by
  unfold matchesKey
  by_cases h : '.' ∈ key.data
  · rw [if_pos h]
    exact matchParts_iff_resolvePath _ m v
  · rw [if_neg h, splitDots_of_no_dot h]
    simp only [resolvePath]
    cases m.find key with
    | none => simp
    | some w => simp

/-! ## `HNSWIndex` (`vecstream/hnsw_index.py`) -/

/-- `HNSWIndex._distance`: cosine distance `clamp(1 − cos(a,b), 0, 2)`;
a zero-norm operand yields distance `1`. -/
noncomputable def cosDistance (a b : List ℝ) : ℝ :=
  if norm a = 0 ∨ norm b = 0 then 1
  else max 0 (min 2 (1 - dot a b / (norm a * norm b)))

/-- Python tuple comparison on `(distance, id)` pairs — the order the
`heapq` heaps and `list.sort()` use. -/
def tupLE (x y : ℝ × String) : Prop :=
  x.1 < y.1 ∨ (x.1 = y.1 ∧ x.2 ≤ y.2)

noncomputable instance : DecidableRel tupLE := fun x y =>
  inferInstanceAs (Decidable (x.1 < y.1 ∨ (x.1 = y.1 ∧ x.2 ≤ y.2)))

instance : IsTotal (ℝ × String) tupLE where
  total x y := by
    rcases lt_trichotomy x.1 y.1 with h | h | h
    · exact Or.inl (Or.inl h)
    · rcases le_total x.2 y.2 with h2 | h2
      · exact Or.inl (Or.inr ⟨h, h2⟩)
      · exact Or.inr (Or.inr ⟨h.symm, h2⟩)
    · exact Or.inr (Or.inl h)

instance : IsTrans (ℝ × String) tupLE where
  trans x y z hxy hyz := by
    rcases hxy with h1 | ⟨h1, h1'⟩
    · rcases hyz with h2 | ⟨h2, _⟩
      · exact Or.inl (lt_trans h1 h2)
      · exact Or.inl (h2 ▸ h1)
    · rcases hyz with h2 | ⟨h2, h2'⟩
      · exact Or.inl (h1 ▸ h2)
      · exact Or.inr ⟨h1.trans h2, h1'.trans h2'⟩

/-- State of an `HNSWIndex`: constructor parameters, the `nodes` and
`node_levels` dicts, the per-level adjacency dicts (index = level,
`ml + 1` of them) and the entry point. -/
structure HState where
  dim : ℕ
  M : ℕ
  efConstruction : ℕ
  ml : ℕ
  nodes : List (String × List ℝ)
  node_levels : List (String × ℕ)
  graphs : List (List (String × List String))
  ep : Option String

/-- `HNSWIndex.__init__` (with `ml` given, as the constructor allows). -/
def HState.init (dim M efC ml : ℕ) : HState :=
  ⟨dim, M, efC, ml, [], [], List.replicate (ml + 1) [], none⟩

/-- `self.nodes[id]`.  On an absent id Python raises `KeyError` while
this total model substitutes the empty vector, so the two agree only
on lookups of live ids; every concrete trace proved below performs
live lookups exclusively, and the dangling lookups themselves are what
claim C3 examines. -/
def HState.vecOf (st : HState) (id : String) : List ℝ :=
  (alookup st.nodes id).getD []

/-- The adjacency dict of one level. -/
def HState.adj (st : HState) (level : ℕ) : List (String × List String) :=
  st.graphs.getD level []

/-- `self.graphs[level].get(id, set())`. -/
def HState.neighbors (st : HState) (level : ℕ) (id : String) : List String :=
  (alookup (st.adj level) id).getD []

/-- `self.node_levels[id]`. -/
def HState.levelOf (st : HState) (id : String) : ℕ :=
  (alookup st.node_levels id).getD 0

/-- `self.M_max0 if level == 0 else self.M`. -/
def HState.capAt (st : HState) (level : ℕ) : ℕ :=
  if level = 0 then 2 * st.M else st.M

/-- Replace one level's adjacency dict. -/
def HState.setAdj (st : HState) (level : ℕ)
    (g : List (String × List String)) : HState :=
  { st with graphs := st.graphs.set level g }

/-- `d < furthest_dist` where `none` stands for `float('inf')`. -/
noncomputable def ltFurthest (d : ℝ) : Option ℝ → Bool
  | none => true
  | some f => decide (d < f)

/-- `c_dist > furthest_dist` where `none` stands for `float('inf')`. -/
noncomputable def gtFurthest (c : ℝ) : Option ℝ → Bool
  | none => false
  | some f => decide (f < c)

/-- The body of the `for neighbor_id in ...` loop of `_search_layer`:
skip visited ids, otherwise score the neighbour and push it into both
heaps when the result set is not full or it beats the (loop-constant)
furthest distance, evicting the worst result above `ef`. -/
noncomputable def expandNeighbor (st : HState) (q : List ℝ) (ef : ℕ)
    (furthest : Option ℝ)
    (acc : List (ℝ × String) × List (ℝ × String) × List String)
    (nId : String) : List (ℝ × String) × List (ℝ × String) × List String :=
  let (cands, results, visited) := acc
  if nId ∈ visited then acc
  else
    let visited' := visited ++ [nId]
    let d := cosDistance q (st.vecOf nId)
    if results.length < ef ∨ ltFurthest d furthest = true then
      let cands' := List.orderedInsert tupLE (d, nId) cands
      let results' := List.orderedInsert tupLE (-d, nId) results
      let results'' := if ef < results'.length then results'.tail else results'
      (cands', results'', visited')
    else (cands, results, visited')

/-- `-results[0][0] if results else float('inf')`: the distance of the
current worst result (the max-heap root), `none` for infinity. -/
noncomputable def headFurthest : List (ℝ × String) → Option ℝ
  | [] => none
  | r :: _ => some (-r.1)

/-- The `while candidates:` loop of `_search_layer`, on fuel.  The
candidate min-heap and the `(−distance, id)` result max-heap are lists
sorted ascending in tuple order, so `heappop` is the head. -/
noncomputable def searchLoop (st : HState) (q : List ℝ) (level ef : ℕ) :
    ℕ → List (ℝ × String) → List (ℝ × String) → List String →
    List (ℝ × String)
  | 0, _, results, _ => results
  | fuel + 1, cands, results, visited =>
    match cands with
    | [] => results
    | (cDist, cId) :: rest =>
      let furthest : Option ℝ := headFurthest results
      if gtFurthest cDist furthest = true ∧ ef ≤ results.length then results
      else
        let acc := (st.neighbors level cId).foldl
          (expandNeighbor st q ef furthest) (rest, results, visited)
        searchLoop st q level ef fuel acc.1 acc.2.1 acc.2.2

/-- `HNSWIndex._search_layer`: seed both heaps with the entry point,
run the loop (fuel `|nodes| + 1` bounds its iterations), then return
`sorted(results)` re-scored as `(distance, id)` pairs. -/
noncomputable def searchLayer (st : HState) (q : List ℝ) (ep : String)
    (ef : ℕ) (level : ℕ) : List (ℝ × String) :=
  let d0 := cosDistance q (st.vecOf ep)
  let raw := searchLoop st q level ef (st.nodes.length + 1)
    [(d0, ep)] [(-d0, ep)] [ep]
  (List.insertionSort tupLE raw).map
    (fun p => (cosDistance q (st.vecOf p.2), p.2))

/-- `HNSWIndex._select_neighbors`: sort by distance, keep the first
`M` ids. -/
noncomputable def selectNeighbors (cands : List (ℝ × String)) (M : ℕ) :
    List String :=
  ((List.insertionSort tupLE cands).take M).map Prod.snd

/-- One step of `add_item`'s `for neighbor_id in neighbors` loop:
install the edge both ways (creating the neighbour's set if missing)
and, when the neighbour then exceeds its level's cap, re-select its
closest `cap` neighbours. -/
noncomputable def connect (id : String) (level : ℕ) (st : HState)
    (nId : String) : HState :=
  let g1 := ainsert (st.adj level) id
    (setAdd ((alookup (st.adj level) id).getD []) nId)
  let st1 := st.setAdj level g1
  let g2 := if amem (st1.adj level) nId then st1.adj level
            else ainsert (st1.adj level) nId []
  let g3 := ainsert g2 nId (setAdd ((alookup g2 nId).getD []) id)
  let st2 := st1.setAdj level g3
  let cap := st2.capAt level
  let nbrs := st2.neighbors level nId
  if cap < nbrs.length then
    let cands := nbrs.map (fun x => (cosDistance (st2.vecOf nId) (st2.vecOf x), x))
    let keep := selectNeighbors cands cap
    st2.setAdj level (ainsert (st2.adj level) nId keep)
  else st2

/-- One level of `add_item`'s insertion loop: collect
`ef_construction` candidates, select up to the cap as neighbours,
ensure the new node's set exists, connect, and pass the node on as the
next level's entry point. -/
noncomputable def insertAtLevel (id : String) (v : List ℝ)
    (acc : HState × String) (level : ℕ) : HState × String :=
  let (st, ep) := acc
  let W := searchLayer st v ep st.efConstruction level
  let nbrs := selectNeighbors W (st.capAt level)
  let st1 := if amem (st.adj level) id then st
             else st.setAdj level (ainsert (st.adj level) id [])
  let st2 := nbrs.foldl (connect id level) st1
  (st2, id)

/-- `range(a, b, -1)` for naturals: the levels `a, a−1, …, b+1`. -/
def downRange (a b : ℕ) : List ℕ := (List.range' (b + 1) (a - b)).reverse

/-- The greedy `ef = 1` refinement step shared by `add_item` and
`search`: `res = search_layer(...); if res: ep = res[0][1]`. -/
noncomputable def greedyStep (st : HState) (q : List ℝ) (ep : String)
    (level : ℕ) : String :=
  match searchLayer st q ep 1 level with
  | [] => ep
  | r :: _ => r.2

/-- `HNSWIndex.add_item`.  The level drawn by `_get_random_level` is
the explicit argument `rndLevel`. -/
noncomputable def HState.add_item (st : HState) (id : String) (v : List ℝ)
    (rndLevel : ℕ) : HState :=
  if amem st.nodes id then { st with nodes := ainsert st.nodes id v }
  else
    let st1 := { st with nodes := ainsert st.nodes id v }
    let l := min rndLevel st1.ml
    let st2 := { st1 with node_levels := ainsert st1.node_levels id l }
    match st2.ep with
    | none =>
      let st3 := (List.range (l + 1)).foldl
        (fun s level => s.setAdj level (ainsert (s.adj level) id [])) st2
      { st3 with ep := some id }
    | some ep0 =>
      let epLevel := st2.levelOf ep0
      let ep1 := (downRange (min epLevel st2.ml) l).foldl (greedyStep st2 v) ep0
      let res := ((List.range (min l epLevel + 1)).reverse).foldl
        (insertAtLevel id v) (st2, ep1)
      if epLevel < l then { res.1 with ep := some id } else res.1

/-- One level of `remove_item`'s cleanup: discard `id` from each of its
neighbours' sets (when those sets exist), then delete `id`'s own set. -/
def removeAtLevel (id : String) (st : HState) (level : ℕ) : HState :=
  let nbrs := st.neighbors level id
  let st1 := nbrs.foldl (fun s n =>
    if amem (s.adj level) n then
      s.setAdj level (ainsert (s.adj level) n
        (setDiscard ((alookup (s.adj level) n).getD []) id))
    else s) st
  if amem (st1.adj level) id then st1.setAdj level (aerase (st1.adj level) id)
  else st1

/-- The replacement-entry-point scan of `remove_item`: first id of
maximum level, via `level > max_level` starting from `-1`. -/
def argmaxLevel (levels : List (String × ℕ)) : Option String :=
  (levels.foldl (fun acc p =>
    match acc with
    | none => some p
    | some q => if q.2 < p.2 then some p else some q) none).map Prod.fst

/-- `HNSWIndex.remove_item`. -/
def HState.remove_item (st : HState) (id : String) : Except String HState :=
  if ¬ amem st.nodes id then .error "KeyError"
  else
    let l := st.levelOf id
    let st1 := (List.range (l + 1)).foldl
      (fun s lv => removeAtLevel id s lv) st
    let st2 := { st1 with nodes := aerase st1.nodes id,
                          node_levels := aerase st1.node_levels id }
    let st3 :=
      if st2.ep = some id then
        if st2.nodes.isEmpty then { st2 with ep := none }
        else { st2 with ep := argmaxLevel st2.node_levels }
      else st2
    .ok st3

/-- `HNSWIndex.search`: empty graph gives `[]`; otherwise greedy-refine
from the entry point's top level down to level 1, search level 0 with
`ef = max(k, ef_search ?? ef_construction)` and report the first `k`
candidates as `(id, 1 − distance)`. -/
noncomputable def HState.search (st : HState) (q : List ℝ) (k : ℕ)
    (efSearch : Option ℕ) : List (String × ℝ) :=
  match st.ep with
  | none => []
  | some ep0 =>
    if st.nodes.isEmpty then []
    else
      let ef := max k (efSearch.getD st.efConstruction)
      let L := st.levelOf ep0
      let ep1 := (downRange L 0).foldl (greedyStep st q) ep0
      let cands := searchLayer st q ep1 ef 0
      (cands.take k).map (fun p => (p.2, 1 - p.1))

/-! ## Concrete unit vectors and their cosine distances -/

/-- `[1, 0]`. -/
noncomputable def vA : List ℝ := [1, 0]

/-- `[4/5, 3/5]`. -/
noncomputable def vB : List ℝ := [4/5, 3/5]

/-- `[3/5, 4/5]`. -/
noncomputable def vC : List ℝ := [3/5, 4/5]

/-- `[5/13, 12/13]`. -/
noncomputable def vD : List ℝ := [5/13, 12/13]

/-- `[-1, 0]`. -/
noncomputable def vE : List ℝ := [-1, 0]

/-- `[0, 1]`. -/
noncomputable def vM : List ℝ := [0, 1]

theorem normSq_vA : normSq vA = 1 := by norm_num [vA, normSq, dot]

theorem normSq_vB : normSq vB = 1 := by norm_num [vB, normSq, dot]

theorem normSq_vC : normSq vC = 1 := by norm_num [vC, normSq, dot]

theorem normSq_vD : normSq vD = 1 := by norm_num [vD, normSq, dot]

theorem normSq_vE : normSq vE = 1 := by norm_num [vE, normSq, dot]

theorem normSq_vM : normSq vM = 1 := by norm_num [vM, normSq, dot]

/-- On unit vectors the cosine distance is `1 − ⟨a, b⟩` (the clamp is
inactive for cosines in `[−1, 1]`). -/
theorem cosDistance_unit (a b : List ℝ) (ha : normSq a = 1)
    (hb : normSq b = 1) (c : ℝ) (hd : dot a b = c) (h1 : -1 ≤ c)
    (h2 : c ≤ 1) : cosDistance a b = 1 - c := by
  unfold cosDistance norm
  rw [ha, hb, Real.sqrt_one]
  rw [if_neg (by norm_num)]
  rw [hd, min_eq_right (by linarith), max_eq_right (by linarith)]
  norm_num

/-- Distance to the empty vector is the zero-norm case: `1`.  (This is
the model's value on the default of `vecOf`; no trace theorem below
depends on it, since their lookups are all of live ids.) -/
theorem cosDistance_nil_right (a : List ℝ) : cosDistance a [] = 1 := by
  unfold cosDistance norm
  rw [if_pos]
  right
  simp [normSq, dot, Real.sqrt_zero]

theorem dAA : cosDistance vA vA = 0 := by
  rw [cosDistance_unit vA vA normSq_vA normSq_vA 1
    (by norm_num [vA, dot]) (by norm_num) (by norm_num)]
  norm_num

theorem dAM : cosDistance vA vM = 1 := by
  rw [cosDistance_unit vA vM normSq_vA normSq_vM 0
    (by norm_num [vA, vM, dot]) (by norm_num) (by norm_num)]
  norm_num

theorem dMA : cosDistance vM vA = 1 := by
  rw [cosDistance_unit vM vA normSq_vM normSq_vA 0
    (by norm_num [vA, vM, dot]) (by norm_num) (by norm_num)]
  norm_num

theorem dAE : cosDistance vA vE = 2 := by
  rw [cosDistance_unit vA vE normSq_vA normSq_vE (-1)
    (by norm_num [vA, vE, dot]) (by norm_num) (by norm_num)]
  norm_num

theorem dBA : cosDistance vB vA = 1/5 := by
  rw [cosDistance_unit vB vA normSq_vB normSq_vA (4/5)
    (by norm_num [vA, vB, dot]) (by norm_num) (by norm_num)]
  norm_num

theorem dBC : cosDistance vB vC = 1/25 := by
  rw [cosDistance_unit vB vC normSq_vB normSq_vC (24/25)
    (by norm_num [vB, vC, dot]) (by norm_num) (by norm_num)]
  norm_num

theorem dBD : cosDistance vB vD = 9/65 := by
  rw [cosDistance_unit vB vD normSq_vB normSq_vD (56/65)
    (by norm_num [vB, vD, dot]) (by norm_num) (by norm_num)]
  norm_num

theorem dCA : cosDistance vC vA = 2/5 := by
  rw [cosDistance_unit vC vA normSq_vC normSq_vA (3/5)
    (by norm_num [vA, vC, dot]) (by norm_num) (by norm_num)]
  norm_num

theorem dCB : cosDistance vC vB = 1/25 := by
  rw [cosDistance_unit vC vB normSq_vC normSq_vB (24/25)
    (by norm_num [vB, vC, dot]) (by norm_num) (by norm_num)]
  norm_num

theorem dCC : cosDistance vC vC = 0 := by
  rw [cosDistance_unit vC vC normSq_vC normSq_vC 1
    (by norm_num [vC, dot]) (by norm_num) (by norm_num)]
  norm_num

theorem dCD : cosDistance vC vD = 2/65 := by
  rw [cosDistance_unit vC vD normSq_vC normSq_vD (63/65)
    (by norm_num [vC, vD, dot]) (by norm_num) (by norm_num)]
  norm_num

theorem dCE : cosDistance vC vE = 8/5 := by
  rw [cosDistance_unit vC vE normSq_vC normSq_vE (-3/5)
    (by norm_num [vC, vE, dot]) (by norm_num) (by norm_num)]
  norm_num

theorem dDA : cosDistance vD vA = 8/13 := by
  rw [cosDistance_unit vD vA normSq_vD normSq_vA (5/13)
    (by norm_num [vA, vD, dot]) (by norm_num) (by norm_num)]
  norm_num

theorem dDB : cosDistance vD vB = 9/65 := by
  rw [cosDistance_unit vD vB normSq_vD normSq_vB (56/65)
    (by norm_num [vB, vD, dot]) (by norm_num) (by norm_num)]
  norm_num

theorem dDC : cosDistance vD vC = 2/65 := by
  rw [cosDistance_unit vD vC normSq_vD normSq_vC (63/65)
    (by norm_num [vC, vD, dot]) (by norm_num) (by norm_num)]
  norm_num

theorem dDE : cosDistance vD vE = 18/13 := by
  rw [cosDistance_unit vD vE normSq_vD normSq_vE (-5/13)
    (by norm_num [vD, vE, dot]) (by norm_num) (by norm_num)]
  norm_num

theorem dEA : cosDistance vE vA = 2 := by
  rw [cosDistance_unit vE vA normSq_vE normSq_vA (-1)
    (by norm_num [vA, vE, dot]) (by norm_num) (by norm_num)]
  norm_num

theorem dEB : cosDistance vE vB = 9/5 := by
  rw [cosDistance_unit vE vB normSq_vE normSq_vB (-4/5)
    (by norm_num [vB, vE, dot]) (by norm_num) (by norm_num)]
  norm_num

theorem dED : cosDistance vE vD = 18/13 := by
  rw [cosDistance_unit vE vD normSq_vE normSq_vD (-5/13)
    (by norm_num [vD, vE, dot]) (by norm_num) (by norm_num)]
  norm_num

/-- `[12/13, 5/13]`. -/
noncomputable def vG : List ℝ := [12/13, 5/13]

/-- `[24/25, -7/25]`. -/
noncomputable def vH : List ℝ := [24/25, -7/25]

theorem normSq_vG : normSq vG = 1 := by norm_num [vG, normSq, dot]

theorem normSq_vH : normSq vH = 1 := by norm_num [vH, normSq, dot]

theorem dAB : cosDistance vA vB = 1/5 := by
  rw [cosDistance_unit vA vB normSq_vA normSq_vB (4/5)
    (by norm_num [vA, vB, dot]) (by norm_num) (by norm_num)]
  norm_num

theorem dAD : cosDistance vA vD = 8/13 := by
  rw [cosDistance_unit vA vD normSq_vA normSq_vD (5/13)
    (by norm_num [vA, vD, dot]) (by norm_num) (by norm_num)]
  norm_num

theorem dAG : cosDistance vA vG = 1/13 := by
  rw [cosDistance_unit vA vG normSq_vA normSq_vG (12/13)
    (by norm_num [vA, vG, dot]) (by norm_num) (by norm_num)]
  norm_num

theorem dAH : cosDistance vA vH = 1/25 := by
  rw [cosDistance_unit vA vH normSq_vA normSq_vH (24/25)
    (by norm_num [vA, vH, dot]) (by norm_num) (by norm_num)]
  norm_num

theorem dBB : cosDistance vB vB = 0 := by
  rw [cosDistance_unit vB vB normSq_vB normSq_vB 1
    (by norm_num [vB, dot]) (by norm_num) (by norm_num)]
  norm_num

theorem dDD : cosDistance vD vD = 0 := by
  rw [cosDistance_unit vD vD normSq_vD normSq_vD 1
    (by norm_num [vD, dot]) (by norm_num) (by norm_num)]
  norm_num

theorem dDG : cosDistance vD vG = 49/169 := by
  rw [cosDistance_unit vD vG normSq_vD normSq_vG (120/169)
    (by norm_num [vD, vG, dot]) (by norm_num) (by norm_num)]
  norm_num

theorem dDH : cosDistance vD vH = 289/325 := by
  rw [cosDistance_unit vD vH normSq_vD normSq_vH (36/325)
    (by norm_num [vD, vH, dot]) (by norm_num) (by norm_num)]
  norm_num

theorem dGA : cosDistance vG vA = 1/13 := by
  rw [cosDistance_unit vG vA normSq_vG normSq_vA (12/13)
    (by norm_num [vA, vG, dot]) (by norm_num) (by norm_num)]
  norm_num

theorem dGB : cosDistance vG vB = 2/65 := by
  rw [cosDistance_unit vG vB normSq_vG normSq_vB (63/65)
    (by norm_num [vB, vG, dot]) (by norm_num) (by norm_num)]
  norm_num

theorem dGD : cosDistance vG vD = 49/169 := by
  rw [cosDistance_unit vG vD normSq_vG normSq_vD (120/169)
    (by norm_num [vD, vG, dot]) (by norm_num) (by norm_num)]
  norm_num

theorem dGG : cosDistance vG vG = 0 := by
  rw [cosDistance_unit vG vG normSq_vG normSq_vG 1
    (by norm_num [vG, dot]) (by norm_num) (by norm_num)]
  norm_num

theorem dGH : cosDistance vG vH = 72/325 := by
  rw [cosDistance_unit vG vH normSq_vG normSq_vH (253/325)
    (by norm_num [vG, vH, dot]) (by norm_num) (by norm_num)]
  norm_num

theorem dHA : cosDistance vH vA = 1/25 := by
  rw [cosDistance_unit vH vA normSq_vH normSq_vA (24/25)
    (by norm_num [vA, vH, dot]) (by norm_num) (by norm_num)]
  norm_num

theorem dHB : cosDistance vH vB = 2/5 := by
  rw [cosDistance_unit vH vB normSq_vH normSq_vB (3/5)
    (by norm_num [vB, vH, dot]) (by norm_num) (by norm_num)]
  norm_num

theorem dHG : cosDistance vH vG = 72/325 := by
  rw [cosDistance_unit vH vG normSq_vH normSq_vG (253/325)
    (by norm_num [vG, vH, dot]) (by norm_num) (by norm_num)]
  norm_num

theorem dHH : cosDistance vH vH = 0 := by
  rw [cosDistance_unit vH vH normSq_vH normSq_vH 1
    (by norm_num [vH, dot]) (by norm_num) (by norm_num)]
  norm_num

/-! ### Disequalities between the concrete ids, as rewrite rules -/

theorem str_ab : (("a" : String) = "b") = False := eq_false (by decide)

theorem str_ac : (("a" : String) = "c") = False := eq_false (by decide)

theorem str_ad : (("a" : String) = "d") = False := eq_false (by decide)

theorem str_ae : (("a" : String) = "e") = False := eq_false (by decide)

theorem str_ba : (("b" : String) = "a") = False := eq_false (by decide)

theorem str_bc : (("b" : String) = "c") = False := eq_false (by decide)

theorem str_bd : (("b" : String) = "d") = False := eq_false (by decide)

theorem str_be : (("b" : String) = "e") = False := eq_false (by decide)

theorem str_ca : (("c" : String) = "a") = False := eq_false (by decide)

theorem str_cb : (("c" : String) = "b") = False := eq_false (by decide)

theorem str_cd : (("c" : String) = "d") = False := eq_false (by decide)

theorem str_ce : (("c" : String) = "e") = False := eq_false (by decide)

theorem str_da : (("d" : String) = "a") = False := eq_false (by decide)

theorem str_db : (("d" : String) = "b") = False := eq_false (by decide)

theorem str_dc : (("d" : String) = "c") = False := eq_false (by decide)

theorem str_de : (("d" : String) = "e") = False := eq_false (by decide)

theorem str_ea : (("e" : String) = "a") = False := eq_false (by decide)

theorem str_eb : (("e" : String) = "b") = False := eq_false (by decide)

theorem str_ec : (("e" : String) = "c") = False := eq_false (by decide)

theorem str_ed : (("e" : String) = "d") = False := eq_false (by decide)

/-! ## Concrete trace for claim C1: `search` returns the farthest
candidates, ascending

`HNSWIndex(dim=2, M=16, ef_construction=10, ml=0)` holding
`a = [1,0]` and `b = [0,1]` (both at level 0). -/

/-- After `add_item("a", [1,0])`. -/
noncomputable def hC1a : HState := (HState.init 2 16 10 0).add_item "a" vA 0

/-- After `add_item("b", [0,1])` as well. -/
noncomputable def hC1 : HState := hC1a.add_item "b" vM 0

theorem hC1a_eq : hC1a =
    ⟨2, 16, 10, 0, [("a", vA)], [("a", 0)], [[("a", [])]], some "a"⟩ := by
  norm_num [hC1a, HState.add_item, HState.init, amem, alookup, ainsert,
    HState.adj, HState.setAdj, List.range_succ]

theorem hC1_eq : hC1 =
    ⟨2, 16, 10, 0, [("a", vA), ("b", vM)], [("a", 0), ("b", 0)],
      [[("a", ["b"]), ("b", ["a"])]], some "a"⟩ := by
  rw [hC1, hC1a_eq]
  norm_num [str_ab, str_ba, HState.add_item, amem, alookup, ainsert,
    HState.adj, HState.setAdj, HState.vecOf, HState.neighbors,
    HState.levelOf, HState.capAt, insertAtLevel, connect, greedyStep,
    searchLayer, searchLoop, headFurthest, expandNeighbor, selectNeighbors, downRange,
    setAdd, ltFurthest, gtFurthest, tupLE, List.range_succ, dMA]

/-- C1 (failing-input exhibit): on the two-node graph `a = [1,0]`,
`b = [0,1]`, searching for `[1,0]` with `k = 1` returns `b` — the
orthogonal vector, similarity `0` — although `a` has similarity `1`,
and with `k = 2` the pairs come back sorted by similarity *ascending*.
`_search_layer` sorts the stored `(−distance, id)` tuples, so `search`
truncates a farthest-first list, contradicting its own docstring
("sorted by similarity (highest first)") and the claim. -/
theorem hnsw_search_farthest_first :
    hC1.search vA 1 none = [("b", 0)] ∧
    hC1.search vA 2 none = [("b", 0), ("a", 1)] := by
  rw [hC1_eq]
  constructor <;>
  norm_num [str_ab, str_ba, HState.search, HState.vecOf, HState.neighbors,
    HState.levelOf, amem, alookup, HState.adj, searchLayer, searchLoop, headFurthest,
    expandNeighbor, greedyStep, downRange, ltFurthest, gtFurthest, tupLE,
    dAA, dAM]

/-! ## Concrete trace for claims C2 and C3

`HNSWIndex(dim=2, M=1, ef_construction=10, ml=0)` (so `M_max0 = 2`),
all levels drawn as 0.  Operations: add `a, b, c, d`, then remove `c`.
Degree-cap pruning while adding `d` drops edges one-sidedly; removing
`c` then leaves the dangling id `c` inside `neighbors_0(a)`. -/

/-- After `add_item("a", [1,0])`. -/
noncomputable def hT1 : HState := (HState.init 2 1 10 0).add_item "a" vA 0

/-- After `add_item("b", [4/5,3/5])`. -/
noncomputable def hT2 : HState := hT1.add_item "b" vB 0

/-- After `add_item("c", [3/5,4/5])`. -/
noncomputable def hT3 : HState := hT2.add_item "c" vC 0

/-- After `add_item("d", [5/13,12/13])`. -/
noncomputable def hT4 : HState := hT3.add_item "d" vD 0

/-- After `remove_item("c")` (which succeeds). -/
noncomputable def hT5 : HState :=
  match hT4.remove_item "c" with
  | .ok s => s
  | .error _ => hT4

theorem hT1_eq : hT1 =
    ⟨2, 1, 10, 0, [("a", vA)], [("a", 0)], [[("a", [])]], some "a"⟩ := by
  norm_num [hT1, HState.add_item, HState.init, amem, alookup, ainsert,
    HState.adj, HState.setAdj, List.range_succ]

theorem hT2_eq : hT2 =
    ⟨2, 1, 10, 0, [("a", vA), ("b", vB)], [("a", 0), ("b", 0)],
      [[("a", ["b"]), ("b", ["a"])]], some "a"⟩ := by
  rw [hT2, hT1_eq]
  norm_num [str_ab, str_ba, HState.add_item, amem, alookup, ainsert,
    HState.adj, HState.setAdj, HState.vecOf, HState.neighbors,
    HState.levelOf, HState.capAt, insertAtLevel, connect, greedyStep,
    searchLayer, searchLoop, headFurthest, expandNeighbor, selectNeighbors, downRange,
    setAdd, ltFurthest, gtFurthest, tupLE, List.range_succ, dBA]

theorem hT3_eq : hT3 =
    ⟨2, 1, 10, 0, [("a", vA), ("b", vB), ("c", vC)],
      [("a", 0), ("b", 0), ("c", 0)],
      [[("a", ["b", "c"]), ("b", ["a", "c"]), ("c", ["b", "a"])]],
      some "a"⟩ := by
  rw [hT3, hT2_eq]
  norm_num [str_ab, str_ac, str_ba, str_bc, str_ca, str_cb,
    HState.add_item, amem, alookup, ainsert,
    HState.adj, HState.setAdj, HState.vecOf, HState.neighbors,
    HState.levelOf, HState.capAt, insertAtLevel, connect, greedyStep,
    searchLayer, searchLoop, headFurthest, expandNeighbor, selectNeighbors, downRange,
    setAdd, ltFurthest, gtFurthest, tupLE, List.range_succ, dCA, dCB]

theorem hT4_eq : hT4 =
    ⟨2, 1, 10, 0, [("a", vA), ("b", vB), ("c", vC), ("d", vD)],
      [("a", 0), ("b", 0), ("c", 0), ("d", 0)],
      [[("a", ["b", "c"]), ("b", ["c", "d"]), ("c", ["d", "b"]),
        ("d", ["c", "b"])]],
      some "a"⟩ := by
  rw [hT4, hT3_eq]
  norm_num [str_ab, str_ac, str_ad, str_ba, str_bc, str_bd, str_ca,
    str_cb, str_cd, str_da, str_db, str_dc,
    HState.add_item, amem, alookup, ainsert,
    HState.adj, HState.setAdj, HState.vecOf, HState.neighbors,
    HState.levelOf, HState.capAt, insertAtLevel, connect, greedyStep,
    searchLayer, searchLoop, headFurthest, expandNeighbor, selectNeighbors, downRange,
    setAdd, ltFurthest, gtFurthest, tupLE, List.range_succ,
    dDA, dDB, dDC, dCA, dCB, dCD, dBA, dBC, dBD]

theorem hT5_eq : hT5 =
    ⟨2, 1, 10, 0, [("a", vA), ("b", vB), ("d", vD)],
      [("a", 0), ("b", 0), ("d", 0)],
      [[("a", ["b", "c"]), ("b", ["d"]), ("d", ["b"])]],
      some "a"⟩ := by
  rw [hT5, hT4_eq]
  norm_num [str_ab, str_ac, str_ad, str_ba, str_bc, str_bd, str_ca,
    str_cb, str_cd, str_da, str_db, str_dc,
    HState.remove_item, removeAtLevel, argmaxLevel, amem, alookup,
    ainsert, aerase, setDiscard, HState.adj, HState.setAdj,
    HState.neighbors, HState.levelOf, List.range_succ]

/-- C2 (counterexample): after the four `add_item`s of the trace,
degree-cap pruning has dropped `a` from `neighbors_0(b)` while `b`
stays inside `neighbors_0(a)` — edges are not bidirectional. -/
theorem hnsw_edges_not_bidirectional :
    "b" ∈ hT4.neighbors 0 "a" ∧ "a" ∉ hT4.neighbors 0 "b" := by
  rw [hT4_eq]
  constructor <;>
    simp [HState.neighbors, HState.adj, alookup, str_ab, str_ba, str_bc,
      str_cb, str_ca, str_ac]

/-- C3 (counterexample): after additionally removing `c`, the id `c`
is still a member of `neighbors_0(a)` although `c` has been deleted
from the node table — `self.nodes[neighbor_id]` would fail for it. -/
theorem hnsw_dangling_neighbor_after_remove :
    "c" ∈ hT5.neighbors 0 "a" ∧ alookup hT5.nodes "c" = none := by
  rw [hT5_eq]
  constructor <;>
    simp [HState.neighbors, HState.adj, alookup, str_ab, str_ba, str_ac,
      str_ca, str_bc, str_cb, str_dc, str_cd, str_ad, str_da]

/-! ## Concrete trace for claim C4: a ghost row above the recorded level

`HNSWIndex(dim=2, M=2, ef_construction=10, ml=1)`.  Operations: add
`a, b, c, d` at level 1, remove `c`, re-add `c` at level 0, add `e` at
level 1, remove `c` again, re-add `c` at level 1.  Pruning while
adding `d` drops `d` from `neighbors_1(c)` one-sidedly, so after the
first removal `d` still lists `c` at level 1; the first re-add gives
`c` the recorded level 0; adding `e` then finds `c` through `d`'s row
and `connect` creates a fresh level-1 row for `c` — one *above* `c`'s
recorded level 0.  The second `remove_item("c")` cleans levels
`0..node_levels[c] = 0` only, so that level-1 row `{e}` survives as a
ghost; the second re-add (level 1) finds the row already present,
skips the `if id not in self.graphs[level]` reset, and tops the
inherited row up to `{e, c, a}` — three neighbours at level 1, above
the cap `M = 2`.  Unlike a trace that walks a dangling edge while its
target is deleted, every `self.nodes[...]` lookup in this trace hits a
live id (`c` is back in `nodes` before each search that meets it), so
the Python program runs it without a `KeyError` and reaches the same
states. -/

/-- After `add_item("a", [1,0])` at level 1. -/
noncomputable def hU1 : HState := (HState.init 2 2 10 1).add_item "a" vA 1

/-- After `add_item("b", [4/5,3/5])` at level 1. -/
noncomputable def hU2 : HState := hU1.add_item "b" vB 1

/-- After `add_item("c", [12/13,5/13])` at level 1. -/
noncomputable def hU3 : HState := hU2.add_item "c" vG 1

/-- After `add_item("d", [24/25,-7/25])` at level 1. -/
noncomputable def hU4 : HState := hU3.add_item "d" vH 1

/-- After `remove_item("c")` (which succeeds). -/
noncomputable def hU5 : HState :=
  match hU4.remove_item "c" with
  | .ok s => s
  | .error _ => hU4

/-- After re-adding `c` at level 0. -/
noncomputable def hU6 : HState := hU5.add_item "c" vG 0

/-- After `add_item("e", [5/13,12/13])` at level 1. -/
noncomputable def hU7 : HState := hU6.add_item "e" vD 1

/-- After the second `remove_item("c")` (which succeeds). -/
noncomputable def hU8 : HState :=
  match hU7.remove_item "c" with
  | .ok s => s
  | .error _ => hU7

/-- After the second re-add of `c`, at level 1. -/
noncomputable def hU9 : HState := hU8.add_item "c" vG 1

theorem hU1_eq : hU1 =
    ⟨2, 2, 10, 1, [("a", vA)], [("a", 1)],
      [[("a", [])], [("a", [])]], some "a"⟩ := by
  norm_num [hU1, HState.add_item, HState.init, amem, alookup, ainsert,
    HState.adj, HState.setAdj, List.range_succ, List.replicate_succ]

theorem hU2_eq : hU2 =
    ⟨2, 2, 10, 1, [("a", vA), ("b", vB)], [("a", 1), ("b", 1)],
      [[("a", []), ("b", ["b"])], [("a", ["b"]), ("b", ["a"])]],
      some "a"⟩ := by
  rw [hU2, hU1_eq]
  norm_num [str_ab, str_ba, HState.add_item, amem, alookup, ainsert,
    HState.adj, HState.setAdj, HState.vecOf, HState.neighbors,
    HState.levelOf, HState.capAt, insertAtLevel, connect, greedyStep,
    searchLayer, searchLoop, headFurthest, expandNeighbor, selectNeighbors, downRange,
    setAdd, ltFurthest, gtFurthest, tupLE, List.range_succ, List.range',
    dBA, dBB]

theorem hU3_eq : hU3 =
    ⟨2, 2, 10, 1, [("a", vA), ("b", vB), ("c", vG)],
      [("a", 1), ("b", 1), ("c", 1)],
      [[("a", []), ("b", ["b"]), ("c", ["c"])],
       [("a", ["b", "c"]), ("b", ["a", "c"]), ("c", ["b", "a"])]],
      some "a"⟩ := by
  rw [hU3, hU2_eq]
  norm_num [str_ab, str_ac, str_ba, str_bc, str_ca, str_cb,
    HState.add_item, amem, alookup, ainsert,
    HState.adj, HState.setAdj, HState.vecOf, HState.neighbors,
    HState.levelOf, HState.capAt, insertAtLevel, connect, greedyStep,
    searchLayer, searchLoop, headFurthest, expandNeighbor, selectNeighbors, downRange,
    setAdd, ltFurthest, gtFurthest, tupLE, List.range_succ, List.range',
    dGA, dGB, dGG]

theorem hU4_eq : hU4 =
    ⟨2, 2, 10, 1, [("a", vA), ("b", vB), ("c", vG), ("d", vH)],
      [("a", 1), ("b", 1), ("c", 1), ("d", 1)],
      [[("a", []), ("b", ["b"]), ("c", ["c"]), ("d", ["d"])],
       [("a", ["d", "c"]), ("b", ["a", "c"]), ("c", ["b", "a"]),
        ("d", ["a", "c"])]],
      some "a"⟩ := by
  rw [hU4, hU3_eq]
  norm_num [str_ab, str_ac, str_ad, str_ba, str_bc, str_bd, str_ca,
    str_cb, str_cd, str_da, str_db, str_dc,
    HState.add_item, amem, alookup, ainsert,
    HState.adj, HState.setAdj, HState.vecOf, HState.neighbors,
    HState.levelOf, HState.capAt, insertAtLevel, connect, greedyStep,
    searchLayer, searchLoop, headFurthest, expandNeighbor, selectNeighbors, downRange,
    setAdd, ltFurthest, gtFurthest, tupLE, List.range_succ, List.range',
    dHA, dHB, dHG, dHH, dAB, dAG, dAH, dGA, dGB, dGH]

theorem hU5_eq : hU5 =
    ⟨2, 2, 10, 1, [("a", vA), ("b", vB), ("d", vH)],
      [("a", 1), ("b", 1), ("d", 1)],
      [[("a", []), ("b", ["b"]), ("d", ["d"])],
       [("a", ["d"]), ("b", ["a"]), ("d", ["a", "c"])]],
      some "a"⟩ := by
  rw [hU5, hU4_eq]
  norm_num [str_ab, str_ac, str_ad, str_ba, str_bc, str_bd, str_ca,
    str_cb, str_cd, str_da, str_db, str_dc,
    HState.remove_item, removeAtLevel, argmaxLevel, amem, alookup,
    ainsert, aerase, setDiscard, HState.adj, HState.setAdj,
    HState.neighbors, HState.levelOf, List.range_succ]

theorem hU6_eq : hU6 =
    ⟨2, 2, 10, 1, [("a", vA), ("b", vB), ("d", vH), ("c", vG)],
      [("a", 1), ("b", 1), ("d", 1), ("c", 0)],
      [[("a", ["c"]), ("b", ["b"]), ("d", ["d"]), ("c", ["a"])],
       [("a", ["d"]), ("b", ["a"]), ("d", ["a", "c"])]],
      some "a"⟩ := by
  rw [hU6, hU5_eq]
  norm_num [str_ab, str_ac, str_ad, str_ba, str_bc, str_bd, str_ca,
    str_cb, str_cd, str_da, str_db, str_dc,
    HState.add_item, amem, alookup, ainsert,
    HState.adj, HState.setAdj, HState.vecOf, HState.neighbors,
    HState.levelOf, HState.capAt, insertAtLevel, connect, greedyStep,
    searchLayer, searchLoop, headFurthest, expandNeighbor, selectNeighbors, downRange,
    setAdd, ltFurthest, gtFurthest, tupLE, List.range_succ, List.range',
    dGA, dGB, dGH, dGG]

theorem hU7_eq : hU7 =
    ⟨2, 2, 10, 1,
      [("a", vA), ("b", vB), ("d", vH), ("c", vG), ("e", vD)],
      [("a", 1), ("b", 1), ("d", 1), ("c", 0), ("e", 1)],
      [[("a", ["c"]), ("b", ["b"]), ("d", ["d"]), ("c", ["a"]),
        ("e", ["e"])],
       [("a", ["d", "e"]), ("b", ["a"]), ("d", ["a", "c"]),
        ("e", ["c", "a"]), ("c", ["e"])]],
      some "a"⟩ := by
  rw [hU7, hU6_eq]
  norm_num [str_ab, str_ac, str_ad, str_ae, str_ba, str_bc, str_bd,
    str_be, str_ca, str_cb, str_cd, str_ce, str_da, str_db, str_dc,
    str_de, str_ea, str_eb, str_ec, str_ed,
    HState.add_item, amem, alookup, ainsert,
    HState.adj, HState.setAdj, HState.vecOf, HState.neighbors,
    HState.levelOf, HState.capAt, insertAtLevel, connect, greedyStep,
    searchLayer, searchLoop, headFurthest, expandNeighbor, selectNeighbors, downRange,
    setAdd, ltFurthest, gtFurthest, tupLE, List.range_succ, List.range',
    dDA, dDB, dDG, dDH, dDD, dAB, dAD, dAG, dAH]

theorem hU8_eq : hU8 =
    ⟨2, 2, 10, 1, [("a", vA), ("b", vB), ("d", vH), ("e", vD)],
      [("a", 1), ("b", 1), ("d", 1), ("e", 1)],
      [[("a", []), ("b", ["b"]), ("d", ["d"]), ("e", ["e"])],
       [("a", ["d", "e"]), ("b", ["a"]), ("d", ["a", "c"]),
        ("e", ["c", "a"]), ("c", ["e"])]],
      some "a"⟩ := by
  rw [hU8, hU7_eq]
  norm_num [str_ab, str_ac, str_ad, str_ae, str_ba, str_bc, str_bd,
    str_be, str_ca, str_cb, str_cd, str_ce, str_da, str_db, str_dc,
    str_de, str_ea, str_eb, str_ec, str_ed,
    HState.remove_item, removeAtLevel, argmaxLevel, amem, alookup,
    ainsert, aerase, setDiscard, HState.adj, HState.setAdj,
    HState.neighbors, HState.levelOf, List.range_succ]

theorem hU9_eq : hU9 =
    ⟨2, 2, 10, 1,
      [("a", vA), ("b", vB), ("d", vH), ("e", vD), ("c", vG)],
      [("a", 1), ("b", 1), ("d", 1), ("e", 1), ("c", 1)],
      [[("a", []), ("b", ["b"]), ("d", ["d"]), ("e", ["e"]),
        ("c", ["c"])],
       [("a", ["d", "c"]), ("b", ["a"]), ("d", ["a", "c"]),
        ("e", ["c", "a"]), ("c", ["e", "c", "a"])]],
      some "a"⟩ := by
  rw [hU9, hU8_eq]
  norm_num [str_ab, str_ac, str_ad, str_ae, str_ba, str_bc, str_bd,
    str_be, str_ca, str_cb, str_cd, str_ce, str_da, str_db, str_dc,
    str_de, str_ea, str_eb, str_ec, str_ed,
    HState.add_item, amem, alookup, ainsert,
    HState.adj, HState.setAdj, HState.vecOf, HState.neighbors,
    HState.levelOf, HState.capAt, insertAtLevel, connect, greedyStep,
    searchLayer, searchLoop, headFurthest, expandNeighbor, selectNeighbors, downRange,
    setAdd, ltFurthest, gtFurthest, tupLE, List.range_succ, List.range',
    dGA, dGB, dGD, dGG, dGH, dAB, dAD, dAG, dAH]

/-! ### Association-list lemmas -/

theorem alookup_ainsert_self {β : Type} (l : List (String × β)) (k : String)
    (v : β) : alookup (ainsert l k v) k = some v := by
  induction l with
  | nil => simp [ainsert, alookup]
  | cons p rest ih =>
    by_cases h : p.1 = k
    · simp [ainsert, alookup, h]
    · simp only [ainsert, alookup]
      rw [if_neg (by exact h), alookup, if_neg (by exact h)]
      exact ih

theorem length_ainsert_of_amem {β : Type} (l : List (String × β))
    (k : String) (v : β) (h : amem l k = true) :
    (ainsert l k v).length = l.length := by
  induction l with
  | nil => simp [amem, alookup] at h
  | cons p rest ih =>
    by_cases hk : p.1 = k
    · simp [ainsert, hk]
    · simp only [ainsert]
      rw [if_neg (by exact hk)]
      simp only [List.length_cons]
      rw [ih]
      simp only [amem, alookup] at h
      rw [if_neg (by exact hk)] at h
      exact h

theorem amem_ainsert {β : Type} (l : List (String × β)) (k x : String)
    (v : β) : amem (ainsert l k v) x = true ↔ x = k ∨ amem l x = true := by
  induction l with
  | nil =>
    simp only [ainsert, amem, alookup]
    by_cases h : k = x
    · subst h; simp
    · rw [if_neg h]
      simp [Option.isSome]
      exact fun hx => absurd hx.symm h
  | cons p rest ih =>
    simp only [ainsert]
    by_cases h : p.1 = k
    · rw [if_pos h]
      simp only [amem, alookup]
      by_cases hx : k = x
      · subst hx; simp [h]
      · rw [if_neg hx, if_neg (h ▸ hx)]
        simp only [amem] at ih ⊢
        constructor
        · intro hh
          right
          exact hh
        · rintro (hh | hh)
          · exact absurd hh.symm hx
          · exact hh
    · rw [if_neg h]
      simp only [amem, alookup]
      by_cases hx : p.1 = x
      · simp [hx]
      · rw [if_neg hx, if_neg hx]
        exact ih

theorem alookup_ainsert_ne {β : Type} (l : List (String × β))
    (k x : String) (v : β) (h : k ≠ x) :
    alookup (ainsert l k v) x = alookup l x := by
  induction l with
  | nil => simp [ainsert, alookup, h]
  | cons p rest ih =>
    simp only [ainsert]
    by_cases hp : p.1 = k
    · rw [if_pos hp]
      simp only [alookup]
      rw [if_neg h, if_neg (hp ▸ h)]
    · rw [if_neg hp]
      simp only [alookup]
      by_cases hx : p.1 = x
      · rw [if_pos hx, if_pos hx]
      · rw [if_neg hx, if_neg hx]
        exact ih

theorem amem_aerase {β : Type} (l : List (String × β)) (k x : String)
    (h : amem (aerase l k) x = true) : amem l x = true := by
  induction l with
  | nil => simpa [aerase] using h
  | cons p rest ih =>
    simp only [aerase] at h
    by_cases hp : p.1 = k
    · rw [if_pos hp] at h
      simp only [amem, alookup]
      by_cases hx : p.1 = x
      · simp [hx]
      · rw [if_neg hx]
        exact h
    · rw [if_neg hp] at h
      simp only [amem, alookup] at h ⊢
      by_cases hx : p.1 = x
      · simp [hx]
      · rw [if_neg hx] at h ⊢
        exact ih h

theorem amem_of_alookup_eq_some {β : Type} {l : List (String × β)}
    {k : String} {v : β} (h : alookup l k = some v) : amem l k = true := by
  unfold amem
  rw [h]
  rfl

theorem mem_setAdd {s : List String} {x y : String} :
    y ∈ setAdd s x ↔ y = x ∨ y ∈ s := by
  unfold setAdd
  by_cases h : x ∈ s
  · rw [if_pos h]
    constructor
    · exact Or.inr
    · rintro (rfl | hy)
      · exact h
      · exact hy
  · rw [if_neg h]
    simp [or_comm]

theorem setAdd_nodup {s : List String} (h : s.Nodup) (x : String) :
    (setAdd s x).Nodup := by
  unfold setAdd
  by_cases hx : x ∈ s
  · rwa [if_pos hx]
  · rw [if_neg hx]
    rw [List.nodup_append]
    refine ⟨h, List.nodup_singleton x, ?_⟩
    intro y hy hyx
    rw [List.mem_singleton] at hyx
    exact hx (hyx ▸ hy)

theorem length_setAdd_le (s : List String) (x : String) :
    (setAdd s x).length ≤ s.length + 1 := by
  unfold setAdd
  by_cases hx : x ∈ s
  · rw [if_pos hx]; omega
  · rw [if_neg hx]; simp

theorem length_setAdd_ge (s : List String) (x : String) :
    s.length ≤ (setAdd s x).length := by
  unfold setAdd
  by_cases hx : x ∈ s
  · rw [if_pos hx]
  · rw [if_neg hx]; simp

theorem mem_setDiscard {s : List String} {x y : String} :
    y ∈ setDiscard s x ↔ y ∈ s ∧ y ≠ x := by
  unfold setDiscard
  simp [List.mem_filter]

theorem setDiscard_nodup {s : List String} (h : s.Nodup) (x : String) :
    (setDiscard s x).Nodup := List.Nodup.filter _ h

theorem length_setDiscard_le (s : List String) (x : String) :
    (setDiscard s x).length ≤ s.length := List.length_filter_le _ _

/-- A duplicate-free list contained in another list is no longer. -/
theorem nodup_subset_length {l₁ l₂ : List String} (h1 : l₁.Nodup)
    (h2 : l₁ ⊆ l₂) : l₁.length ≤ l₂.length := by
  classical
  calc l₁.length = l₁.toFinset.card := (List.toFinset_card_of_nodup h1).symm
    _ ≤ l₂.toFinset.card := Finset.card_le_card (by
        intro x hx
        rw [List.mem_toFinset] at hx ⊢
        exact h2 hx)
    _ ≤ l₂.length := l₂.toFinset_card_le

/-! ### `HState` accessor lemmas -/

theorem setAdj_nodes (st : HState) (level : ℕ) (g) :
    (st.setAdj level g).nodes = st.nodes := rfl

theorem setAdj_node_levels (st : HState) (level : ℕ) (g) :
    (st.setAdj level g).node_levels = st.node_levels := rfl

theorem setAdj_ep (st : HState) (level : ℕ) (g) :
    (st.setAdj level g).ep = st.ep := rfl

theorem setAdj_M (st : HState) (level : ℕ) (g) :
    (st.setAdj level g).M = st.M := rfl

theorem setAdj_graphs_length (st : HState) (level : ℕ) (g) :
    (st.setAdj level g).graphs.length = st.graphs.length := by
  unfold HState.setAdj
  simp

theorem setAdj_capAt (st : HState) (level l' : ℕ) (g) :
    (st.setAdj level g).capAt l' = st.capAt l' := rfl

theorem adj_setAdj_self (st : HState) (level : ℕ) (g)
    (h : level < st.graphs.length) :
    (st.setAdj level g).adj level = g := by
  unfold HState.setAdj HState.adj
  simp only []
  rw [List.getD_eq_getElem?_getD, List.getElem?_set_self' ]
  simp [List.getElem?_eq_getElem h]

theorem adj_setAdj_ne (st : HState) (level l' : ℕ) (g) (h : l' ≠ level) :
    (st.setAdj level g).adj l' = st.adj l' := by
  unfold HState.setAdj HState.adj
  simp only []
  rw [List.getD_eq_getElem?_getD, List.getElem?_set_ne (by omega),
    ← List.getD_eq_getElem?_getD]

/-- Full characterization of lookup after insert. -/
theorem alookup_ainsert {β : Type} (l : List (String × β)) (k x : String)
    (v : β) : alookup (ainsert l k v) x =
      if k = x then some v else alookup l x := by
  by_cases h : k = x
  · rw [if_pos h, h, alookup_ainsert_self]
  · rw [if_neg h, alookup_ainsert_ne _ _ _ _ h]

/-- `List.set` out of range is the identity, so a level update either
hits exactly its level or changes nothing. -/
theorem adj_setAdj_cases (st : HState) (level : ℕ) (g) (l' : ℕ) :
    (st.setAdj level g).adj l' = st.adj l' ∨
      (st.setAdj level g).adj l' = g := by
  by_cases h : l' = level
  · subst h
    by_cases hl : l' < st.graphs.length
    · exact Or.inr (adj_setAdj_self st l' g hl)
    · left
      unfold HState.setAdj HState.adj
      simp only []
      rw [List.set_eq_of_length_le (by omega)]
  · exact Or.inl (adj_setAdj_ne st level l' g h)

/-! ### What `_search_layer` can return

Every id in the result set is the entry point or reachable through the
level's neighbour lists; formalised through an arbitrary predicate `P`
closed under neighbour steps. -/

theorem expandFold_subset (st : HState) (q : List ℝ) (ef : ℕ)
    (furthest : Option ℝ) (P : String → Prop) :
    ∀ (ns : List String) (acc : List (ℝ × String) × List (ℝ × String) × List String),
      (∀ p ∈ acc.1, P p.2) → (∀ p ∈ acc.2.1, P p.2) → (∀ n ∈ ns, P n) →
      (∀ p ∈ (ns.foldl (expandNeighbor st q ef furthest) acc).1, P p.2) ∧
      (∀ p ∈ (ns.foldl (expandNeighbor st q ef furthest) acc).2.1, P p.2) := by
  intro ns
  induction ns with
  | nil => intro acc h1 h2 _; exact ⟨h1, h2⟩
  | cons n rest ih =>
    intro acc h1 h2 hns
    simp only [List.foldl_cons]
    apply ih
    · intro p hp
      unfold expandNeighbor at hp
      obtain ⟨cands, results, visited⟩ := acc
      simp only [] at hp h1 h2
      by_cases hv : n ∈ visited
      · rw [if_pos hv] at hp
        exact h1 p hp
      · rw [if_neg hv] at hp
        by_cases hc : results.length < ef ∨
            ltFurthest (cosDistance q (st.vecOf n)) furthest = true
        · rw [if_pos hc] at hp
          simp only [] at hp
          rcases (List.mem_orderedInsert tupLE).mp hp with h | h
          · rw [h]
            exact hns n (List.mem_cons_self n rest)
          · exact h1 p h
        · rw [if_neg hc] at hp
          exact h1 p hp
    · intro p hp
      unfold expandNeighbor at hp
      obtain ⟨cands, results, visited⟩ := acc
      simp only [] at hp h1 h2
      by_cases hv : n ∈ visited
      · rw [if_pos hv] at hp
        exact h2 p hp
      · rw [if_neg hv] at hp
        by_cases hc : results.length < ef ∨
            ltFurthest (cosDistance q (st.vecOf n)) furthest = true
        · rw [if_pos hc] at hp
          simp only [] at hp
          have hins : p ∈ List.orderedInsert tupLE
              (-cosDistance q (st.vecOf n), n) results := by
            by_cases hover : ef < (List.orderedInsert tupLE
                (-cosDistance q (st.vecOf n), n) results).length
            · rw [if_pos hover] at hp
              exact List.mem_of_mem_tail hp
            · rwa [if_neg hover] at hp
          rcases (List.mem_orderedInsert tupLE).mp hins with h | h
          · rw [h]
            exact hns n (List.mem_cons_self n rest)
          · exact h2 p h
        · rw [if_neg hc] at hp
          exact h2 p hp
    · intro m hm
      exact hns m (List.mem_cons_of_mem n hm)

theorem searchLoop_subset (st : HState) (q : List ℝ) (level ef : ℕ)
    (P : String → Prop)
    (hP : ∀ x y, P x → y ∈ st.neighbors level x → P y) :
    ∀ (fuel : ℕ) (cands results : List (ℝ × String)) (visited : List String),
      (∀ p ∈ cands, P p.2) → (∀ p ∈ results, P p.2) →
      ∀ p ∈ searchLoop st q level ef fuel cands results visited, P p.2 := by
  intro fuel
  induction fuel with
  | zero => intro cands results visited _ h2 p hp; exact h2 p hp
  | succ fuel ih =>
    intro cands results visited h1 h2 p hp
    rw [searchLoop.eq_def] at hp
    cases cands with
    | nil => exact h2 p hp
    | cons c rest =>
      obtain ⟨cDist, cId⟩ := c
      simp only [] at hp
      split at hp
      · exact h2 p hp
      · have hcId : P cId := h1 (cDist, cId) (List.mem_cons_self _ _)
        have hfold := expandFold_subset st q ef (headFurthest results)
          P (st.neighbors level cId) (rest, results, visited)
          (fun p hp => h1 p (List.mem_cons_of_mem _ hp)) h2
          (fun n hn => hP cId n hcId hn)
        exact ih _ _ _ hfold.1 hfold.2 p hp

theorem searchLayer_subset (st : HState) (q : List ℝ) (ep : String)
    (ef level : ℕ) (P : String → Prop)
    (hP : ∀ x y, P x → y ∈ st.neighbors level x → P y) (hep : P ep) :
    ∀ p ∈ searchLayer st q ep ef level, P p.2 := by
  intro p hp
  unfold searchLayer at hp
  simp only [] at hp
  rcases List.mem_map.mp hp with ⟨r, hr, hrp⟩
  have hr' := (List.mem_insertionSort tupLE).mp hr
  have := searchLoop_subset st q level ef P hP (st.nodes.length + 1)
    _ _ _ (by
      intro p' hp'
      rw [List.mem_singleton] at hp'
      rw [hp']
      exact hep)
    (by
      intro p' hp'
      rw [List.mem_singleton] at hp'
      rw [hp']
      exact hep) r hr'
  rw [← hrp]
  exact this

theorem selectNeighbors_subset (cands : List (ℝ × String)) (M : ℕ)
    (n : String) (hn : n ∈ selectNeighbors cands M) :
    ∃ p ∈ cands, p.2 = n := by
  unfold selectNeighbors at hn
  rcases List.mem_map.mp hn with ⟨p, hp, hpn⟩
  have hp1 : p ∈ List.insertionSort tupLE cands := List.mem_of_mem_take hp
  exact ⟨p, (List.mem_insertionSort tupLE).mp hp1, hpn⟩

theorem selectNeighbors_length (cands : List (ℝ × String)) (M : ℕ) :
    (selectNeighbors cands M).length ≤ M := by
  unfold selectNeighbors
  rw [List.length_map, List.length_take]
  exact min_le_left _ _

theorem greedyStep_P (st : HState) (q : List ℝ) (ep : String) (level : ℕ)
    (P : String → Prop)
    (hP : ∀ x y, P x → y ∈ st.neighbors level x → P y) (hep : P ep) :
    P (greedyStep st q ep level) := by
  unfold greedyStep
  cases hres : searchLayer st q ep 1 level with
  | nil => exact hep
  | cons r rest =>
    have := searchLayer_subset st q ep 1 level P hP hep r
      (hres ▸ List.mem_cons_self r rest)
    exact this

/-! ### Structure of one `connect` step -/

theorem connect_nodes (st : HState) (id : String) (level : ℕ)
    (nId : String) : (connect id level st nId).nodes = st.nodes := by
  unfold connect
  simp only []
  split <;> split <;> rfl

theorem connect_node_levels (st : HState) (id : String) (level : ℕ)
    (nId : String) :
    (connect id level st nId).node_levels = st.node_levels := by
  unfold connect
  simp only []
  split <;> split <;> rfl

theorem connect_ep (st : HState) (id : String) (level : ℕ)
    (nId : String) : (connect id level st nId).ep = st.ep := by
  unfold connect
  simp only []
  split <;> split <;> rfl

theorem connect_M (st : HState) (id : String) (level : ℕ)
    (nId : String) : (connect id level st nId).M = st.M := by
  unfold connect
  simp only []
  split <;> split <;> rfl

theorem connect_graphs_length (st : HState) (id : String) (level : ℕ)
    (nId : String) :
    (connect id level st nId).graphs.length = st.graphs.length := by
  unfold connect HState.setAdj
  simp only []
  split <;> split <;> simp

theorem connect_adj_ne (st : HState) (id : String) (level l' : ℕ)
    (nId : String) (h : l' ≠ level) :
    (connect id level st nId).adj l' = st.adj l' := by
  unfold connect
  simp only []
  split <;> split <;>
    simp only [adj_setAdj_ne _ level l' _ h]

theorem neighbors_setAdj_self (st : HState) (level : ℕ) (g)
    (h : level < st.graphs.length) (z : String) :
    (st.setAdj level g).neighbors level z = (alookup g z).getD [] := by
  unfold HState.neighbors
  rw [adj_setAdj_self st level g h]

/-- All graph updates go off the end of `graphs`: the state is
untouched. -/
theorem setAdj_out (st : HState) (level : ℕ) (g)
    (h : ¬ level < st.graphs.length) : st.setAdj level g = st := by
  unfold HState.setAdj
  rw [List.set_eq_of_length_le (by omega)]

/-- Coarse membership: a `connect` adds only `id` and `nId` to
neighbour lists (pruning keeps subsets of an existing row). -/
theorem connect_mem_coarse (st : HState) (id : String) (level : ℕ)
    (nId : String) (l' : ℕ) (x y : String)
    (hy : y ∈ (connect id level st nId).neighbors l' x) :
    y ∈ st.neighbors l' x ∨ y = nId ∨ y = id := by
  by_cases hll : l' = level
  swap
  · left
    unfold HState.neighbors at hy ⊢
    rw [connect_adj_ne st id level l' nId hll] at hy
    exact hy
  subst hll
  by_cases hL : l' < st.graphs.length
  swap
  · left
    have hout : ∀ (s : HState) g, s.graphs.length = st.graphs.length →
        s.setAdj l' g = s := by
      intro s g hlen
      exact setAdj_out s l' g (by omega)
    unfold connect at hy
    simp only [] at hy
    rw [hout st _ rfl] at hy
    rw [hout st _ rfl] at hy
    split at hy
    · rw [hout st _ rfl] at hy
      exact hy
    · exact hy
  -- the in-range case: name the three intermediate graphs
  unfold connect at hy
  simp only [] at hy
  rw [adj_setAdj_self st l' _ hL] at hy
  set row0 := (alookup (st.adj l') id).getD [] with hrow0
  set g1 := ainsert (st.adj l') id (setAdd row0 nId) with hg1
  have hL1 : l' < (st.setAdj l' g1).graphs.length := by
    rw [setAdj_graphs_length]
    exact hL
  set st1 := st.setAdj l' g1 with hst1
  -- membership in a `g1` row
  have row1 : ∀ z w, w ∈ (alookup g1 z).getD [] →
      w ∈ st.neighbors l' z ∨ w = nId := by
    intro z w hw
    rw [hg1, alookup_ainsert] at hw
    by_cases hz : id = z
    · rw [if_pos hz] at hw
      simp only [Option.getD_some] at hw
      rcases mem_setAdd.mp hw with h | h
      · exact Or.inr h
      · left
        unfold HState.neighbors
        rw [← hz]
        exact h
    · rw [if_neg hz] at hw
      exact Or.inl hw
  rw [adj_setAdj_self st1 l' _ hL1] at hy
  set g2 := if amem g1 nId = true then g1 else ainsert g1 nId [] with hg2
  -- lookups in `g2` are lookups in `g1` (or a fresh empty row)
  have row2 : ∀ z w, w ∈ (alookup g2 z).getD [] →
      w ∈ (alookup g1 z).getD [] := by
    intro z w hw
    rw [hg2] at hw
    by_cases hmem : amem g1 nId = true
    · rw [if_pos hmem] at hw
      exact hw
    · rw [if_neg hmem, alookup_ainsert] at hw
      by_cases hz : nId = z
      · rw [if_pos hz] at hw
        simp at hw
      · rw [if_neg hz] at hw
        exact hw
  set g3 := ainsert g2 nId (setAdd ((alookup g2 nId).getD []) id) with hg3
  -- membership in a `g3` row
  have row3 : ∀ z w, w ∈ (alookup g3 z).getD [] →
      w ∈ st.neighbors l' z ∨ w = nId ∨ w = id := by
    intro z w hw
    rw [hg3, alookup_ainsert] at hw
    by_cases hz : nId = z
    · rw [if_pos hz] at hw
      simp only [Option.getD_some] at hw
      rcases mem_setAdd.mp hw with h | h
      · exact Or.inr (Or.inr h)
      · rcases row1 nId w (row2 nId w h) with h' | h'
        · left
          unfold HState.neighbors at h' ⊢
          rw [← hz]
          exact h'
        · exact Or.inr (Or.inl h')
    · rw [if_neg hz] at hw
      rcases row1 z w (row2 z w hw) with h' | h'
      · exact Or.inl h'
      · exact Or.inr (Or.inl h')
  have hL2 : l' < (st1.setAdj l' g3).graphs.length := by
    rw [setAdj_graphs_length, setAdj_graphs_length]
    exact hL
  set st2 := st1.setAdj l' g3 with hst2
  have hadj2 : st2.adj l' = g3 := by
    rw [hst2]
    exact adj_setAdj_self st1 l' g3 hL1
  split at hy
  · -- prune branch: the kept list is drawn from `g3`'s row of `nId`
    rw [neighbors_setAdj_self st2 l' _ hL2] at hy
    rw [alookup_ainsert] at hy
    by_cases hx : nId = x
    · rw [if_pos hx] at hy
      simp only [Option.getD_some] at hy
      rcases selectNeighbors_subset _ _ y hy with ⟨p, hp, hpy⟩
      rcases List.mem_map.mp hp with ⟨z, hz, hzp⟩
      have hzy : z = y := by rw [← hpy, ← hzp]
      rw [← hzy]
      have : z ∈ (alookup g3 nId).getD [] := by
        unfold HState.neighbors at hz
        rw [hadj2] at hz
        exact hz
      rcases row3 nId z this with h' | h'
      · left
        unfold HState.neighbors at h' ⊢
        rw [← hx]
        exact h'
      · exact Or.inr h'
    · rw [if_neg hx] at hy
      exact row3 x y hy
  · -- no pruning: just a `g3` row
    rw [neighbors_setAdj_self st1 l' _ hL1] at hy
    exact row3 x y hy

/-- Coarse key membership: a `connect` adds at most the keys `id` and
`nId` to a level's adjacency dict. -/
theorem connect_keys_coarse (st : HState) (id : String) (level : ℕ)
    (nId : String) (l' : ℕ) (x : String)
    (hx : amem ((connect id level st nId).adj l') x = true) :
    amem (st.adj l') x = true ∨ x = nId ∨ x = id := by
  by_cases hll : l' = level
  swap
  · left
    rw [connect_adj_ne st id level l' nId hll] at hx
    exact hx
  subst hll
  by_cases hL : l' < st.graphs.length
  swap
  · left
    have hout : ∀ (s : HState) g, s.graphs.length = st.graphs.length →
        s.setAdj l' g = s := by
      intro s g hlen
      exact setAdj_out s l' g (by omega)
    unfold connect at hx
    simp only [] at hx
    rw [hout st _ rfl] at hx
    rw [hout st _ rfl] at hx
    split at hx
    · rw [hout st _ rfl] at hx
      exact hx
    · exact hx
  unfold connect at hx
  simp only [] at hx
  rw [adj_setAdj_self st l' _ hL] at hx
  set g1 := ainsert (st.adj l') id
    (setAdd ((alookup (st.adj l') id).getD []) nId) with hg1
  have key1 : ∀ z, amem g1 z = true →
      amem (st.adj l') z = true ∨ z = id := by
    intro z hz
    rw [hg1] at hz
    rcases (amem_ainsert _ _ _ _).mp hz with h | h
    · exact Or.inr h
    · exact Or.inl h
  have hL1 : l' < (st.setAdj l' g1).graphs.length := by
    rw [setAdj_graphs_length]
    exact hL
  set st1 := st.setAdj l' g1 with hst1
  rw [adj_setAdj_self st1 l' _ hL1] at hx
  set g2 := if amem g1 nId = true then g1 else ainsert g1 nId [] with hg2
  have key2 : ∀ z, amem g2 z = true →
      amem g1 z = true ∨ z = nId := by
    intro z hz
    rw [hg2] at hz
    by_cases hmem : amem g1 nId = true
    · rw [if_pos hmem] at hz
      exact Or.inl hz
    · rw [if_neg hmem] at hz
      rcases (amem_ainsert _ _ _ _).mp hz with h | h
      · exact Or.inr h
      · exact Or.inl h
  set g3 := ainsert g2 nId (setAdd ((alookup g2 nId).getD []) id) with hg3
  have key3 : ∀ z, amem g3 z = true →
      amem (st.adj l') z = true ∨ z = nId ∨ z = id := by
    intro z hz
    rw [hg3] at hz
    rcases (amem_ainsert _ _ _ _).mp hz with h | h
    · exact Or.inr (Or.inl h)
    · rcases key2 z h with h' | h'
      · rcases key1 z h' with h'' | h''
        · exact Or.inl h''
        · exact Or.inr (Or.inr h'')
      · exact Or.inr (Or.inl h')
  have hL2 : l' < (st1.setAdj l' g3).graphs.length := by
    rw [setAdj_graphs_length, setAdj_graphs_length]
    exact hL
  set st2 := st1.setAdj l' g3 with hst2
  have hadj2 : st2.adj l' = g3 := by
    rw [hst2]
    exact adj_setAdj_self st1 l' g3 hL1
  split at hx
  · rw [adj_setAdj_self _ l' _ (by
      rw [setAdj_graphs_length, setAdj_graphs_length]
      exact hL)] at hx
    rcases (amem_ainsert _ _ _ _).mp hx with h | h
    · exact Or.inr (Or.inl h)
    · exact key3 x h
  · rw [hadj2] at hx
    exact key3 x hx

theorem mem_ainsert_bindings {β : Type} {l : List (String × β)}
    {k : String} {v : β} {p : String × β} (hp : p ∈ ainsert l k v) :
    p ∈ l ∨ p = (k, v) := by
  induction l with
  | nil => simpa [ainsert] using hp
  | cons q rest ih =>
    simp only [ainsert] at hp
    by_cases hq : q.1 = k
    · rw [if_pos hq] at hp
      rcases List.mem_cons.mp hp with h | h
      · exact Or.inr h
      · exact Or.inl (List.mem_cons_of_mem q h)
    · rw [if_neg hq] at hp
      rcases List.mem_cons.mp hp with h | h
      · exact Or.inl (h ▸ List.mem_cons_self q rest)
      · rcases ih h with h' | h'
        · exact Or.inl (List.mem_cons_of_mem q h')
        · exact Or.inr h'

theorem mem_aerase_bindings {β : Type} {l : List (String × β)}
    {k : String} {p : String × β} (hp : p ∈ aerase l k) : p ∈ l := by
  induction l with
  | nil => simp [aerase] at hp
  | cons q rest ih =>
    simp only [aerase] at hp
    by_cases hq : q.1 = k
    · rw [if_pos hq] at hp
      exact List.mem_cons_of_mem q hp
    · rw [if_neg hq] at hp
      rcases List.mem_cons.mp hp with h | h
      · exact h ▸ List.mem_cons_self q rest
      · exact List.mem_cons_of_mem q (ih h)

theorem alookup_mem {β : Type} {l : List (String × β)} {k : String}
    {v : β} (h : alookup l k = some v) : (k, v) ∈ l := by
  induction l with
  | nil => simp [alookup] at h
  | cons q rest ih =>
    simp only [alookup] at h
    by_cases hq : q.1 = k
    · rw [if_pos hq] at h
      have hv : q.2 = v := by injection h
      have : q = (k, v) := by
        rcases q with ⟨a, b⟩
        simp only [] at hq hv
        rw [hq, hv]
      exact this ▸ List.mem_cons_self q rest
    · rw [if_neg hq] at h
      exact List.mem_cons_of_mem q (ih h)

theorem aerase_sublist {β : Type} (l : List (String × β)) (k : String) :
    List.Sublist (aerase l k) l := by
  induction l with
  | nil => simp [aerase]
  | cons q rest ih =>
    simp only [aerase]
    by_cases hq : q.1 = k
    · rw [if_pos hq]
      exact List.sublist_cons_self q rest
    · rw [if_neg hq]
      exact List.Sublist.cons₂ q ih

theorem akeys_nodup_aerase {β : Type} {l : List (String × β)} (k : String)
    (h : (akeys l).Nodup) : (akeys (aerase l k)).Nodup :=
  List.Nodup.sublist ((aerase_sublist l k).map Prod.fst) h

theorem mem_akeys_ainsert {β : Type} {l : List (String × β)} {k x : String}
    {v : β} (h : x ∈ akeys (ainsert l k v)) : x = k ∨ x ∈ akeys l := by
  rcases List.mem_map.mp h with ⟨p, hp, hpx⟩
  rcases mem_ainsert_bindings hp with h' | h'
  · exact Or.inr (hpx ▸ List.mem_map_of_mem Prod.fst h')
  · rw [h'] at hpx
    exact Or.inl hpx.symm

theorem akeys_nodup_ainsert {β : Type} {l : List (String × β)} (k : String)
    (v : β) (h : (akeys l).Nodup) : (akeys (ainsert l k v)).Nodup := by
  induction l with
  | nil => simp [ainsert, akeys]
  | cons q rest ih =>
    simp only [ainsert]
    by_cases hq : q.1 = k
    · rw [if_pos hq]
      simp only [akeys, List.map_cons] at h ⊢
      rw [← hq]
      exact h
    · rw [if_neg hq]
      simp only [akeys, List.map_cons] at h ⊢
      rcases List.nodup_cons.mp h with ⟨hq1, hrest⟩
      refine List.nodup_cons.mpr ⟨?_, ih hrest⟩
      intro hmem
      rcases mem_akeys_ainsert hmem with h' | h'
      · exact hq h'
      · exact hq1 h'

/-- In a dict with distinct keys, `ainsert` really replaces: every
binding of the result is the new one or an old one with another key. -/
theorem mem_ainsert_nodup {β : Type} {l : List (String × β)} {k : String}
    {v : β} {p : String × β} (hn : (akeys l).Nodup)
    (hp : p ∈ ainsert l k v) : p = (k, v) ∨ (p ∈ l ∧ p.1 ≠ k) := by
  induction l with
  | nil =>
    simp [ainsert] at hp
    exact Or.inl hp
  | cons q rest ih =>
    simp only [akeys, List.map_cons, List.nodup_cons] at hn
    rcases hn with ⟨hq_not, hrest⟩
    simp only [ainsert] at hp
    by_cases hq : q.1 = k
    · rw [if_pos hq] at hp
      rcases List.mem_cons.mp hp with h | h
      · exact Or.inl h
      · right
        refine ⟨List.mem_cons_of_mem q h, ?_⟩
        intro hpk
        apply hq_not
        rw [hq, ← hpk]
        exact List.mem_map_of_mem Prod.fst h
    · rw [if_neg hq] at hp
      rcases List.mem_cons.mp hp with h | h
      · subst h
        exact Or.inr ⟨List.mem_cons_self q rest, hq⟩
      · rcases ih hrest h with h' | h'
        · exact Or.inl h'
        · exact Or.inr ⟨List.mem_cons_of_mem q h'.1, h'.2⟩

theorem alookup_eq_of_mem_nodup {β : Type} {l : List (String × β)}
    {p : String × β} (hn : (akeys l).Nodup) (hp : p ∈ l) :
    alookup l p.1 = some p.2 := by
  induction l with
  | nil => simp at hp
  | cons q rest ih =>
    simp only [akeys, List.map_cons, List.nodup_cons] at hn
    rcases hn with ⟨hq_not, hrest⟩
    simp only [alookup]
    rcases List.mem_cons.mp hp with h | h
    · subst h
      rw [if_pos rfl]
    · by_cases hq : q.1 = p.1
      · exfalso
        apply hq_not
        rw [hq]
        exact List.mem_map_of_mem Prod.fst h
      · rw [if_neg hq]
        exact ih hrest h

theorem alookup_aerase_ne {β : Type} (l : List (String × β)) (k x : String)
    (hx : x ≠ k) : alookup (aerase l k) x = alookup l x := by
  induction l with
  | nil => rfl
  | cons q rest ih =>
    simp only [aerase]
    by_cases hq : q.1 = k
    · rw [if_pos hq]
      simp only [alookup]
      have hne : q.1 ≠ x := by
        rw [hq]
        exact fun h => hx h.symm
      rw [if_neg hne]
    · rw [if_neg hq]
      simp only [alookup]
      by_cases hqx : q.1 = x
      · rw [if_pos hqx, if_pos hqx]
      · rw [if_neg hqx, if_neg hqx]
        exact ih

theorem amem_aerase_ne {β : Type} (l : List (String × β)) (k x : String)
    (hx : x ≠ k) : amem (aerase l k) x = amem l x := by
  unfold amem
  rw [alookup_aerase_ne l k x hx]

theorem setAdd_of_mem {s : List String} {x : String} (h : x ∈ s) :
    setAdd s x = s := by
  unfold setAdd
  rw [if_pos h]

theorem capAt_eq_of_M {st st' : HState} (h : st'.M = st.M) (lv : ℕ) :
    st'.capAt lv = st.capAt lv := by
  unfold HState.capAt
  rw [h]

/-- The values an adjacency dict mentions (over all bindings,
including shadowed ones). -/
def adjHasVal (g : List (String × List String)) (y : String) : Prop :=
  ∃ p ∈ g, y ∈ p.2

theorem adjHasVal_of_neighbors {st : HState} {lv : ℕ} {x y : String}
    (hy : y ∈ st.neighbors lv x) : adjHasVal (st.adj lv) y := by
  unfold HState.neighbors at hy
  cases hl : alookup (st.adj lv) x with
  | none => rw [hl] at hy; simp at hy
  | some row =>
    rw [hl] at hy
    exact ⟨(x, row), alookup_mem hl, hy⟩

theorem adj_out (st : HState) (level : ℕ)
    (hL : ¬ level < st.graphs.length) : st.adj level = [] := by
  unfold HState.adj
  rw [List.getD_eq_default]
  omega

/-- A `connect` at a level beyond the graph list is a no-op. -/
theorem connect_out (st : HState) (id : String) (level : ℕ) (nId : String)
    (hL : ¬ level < st.graphs.length) : connect id level st nId = st := by
  unfold connect
  simp only []
  rw [setAdj_out st level _ hL, setAdj_out st level _ hL]
  have hcond : ¬ st.capAt level < (st.neighbors level nId).length := by
    unfold HState.neighbors
    rw [adj_out st level hL]
    simp [alookup]
  rw [if_neg hcond]

theorem connectFold_out (id : String) (level : ℕ) :
    ∀ (nbrs : List String) (st : HState),
      ¬ level < st.graphs.length →
      nbrs.foldl (connect id level) st = st := by
  intro nbrs
  induction nbrs with
  | nil => intro st _; rfl
  | cons n rest ih =>
    intro st hL
    simp only [List.foldl_cons]
    rw [connect_out st id level n hL]
    exact ih st hL

/-- Coarse value containment for one `connect`: only `id` and `nId`
are new values. -/
theorem connect_vals_coarse (st : HState) (id : String) (level : ℕ)
    (nId : String) (l' : ℕ) (y : String)
    (hy : adjHasVal ((connect id level st nId).adj l') y) :
    adjHasVal (st.adj l') y ∨ y = nId ∨ y = id := by
  by_cases hll : l' = level
  swap
  · left
    rwa [connect_adj_ne st id level l' nId hll] at hy
  subst hll
  by_cases hL : l' < st.graphs.length
  swap
  · left
    have hout : ∀ (s : HState) g, s.graphs.length = st.graphs.length →
        s.setAdj l' g = s := fun s g hlen => setAdj_out s l' g (by omega)
    unfold connect at hy
    simp only [] at hy
    rw [hout st _ rfl] at hy
    rw [hout st _ rfl] at hy
    split at hy
    · rwa [hout st _ rfl] at hy
    · exact hy
  unfold connect at hy
  simp only [] at hy
  rw [adj_setAdj_self st l' _ hL] at hy
  set g1 := ainsert (st.adj l') id
    (setAdd ((alookup (st.adj l') id).getD []) nId) with hg1
  have val1 : ∀ z, adjHasVal g1 z →
      adjHasVal (st.adj l') z ∨ z = nId := by
    intro z hz
    rcases hz with ⟨p, hp, hzp⟩
    rcases mem_ainsert_bindings hp with h | h
    · exact Or.inl ⟨p, h, hzp⟩
    · rw [h] at hzp
      simp only [] at hzp
      rcases mem_setAdd.mp hzp with h' | h'
      · exact Or.inr h'
      · cases hl0 : alookup (st.adj l') id with
        | none => rw [hl0] at h'; simp at h'
        | some row =>
          rw [hl0] at h'
          exact Or.inl ⟨(id, row), alookup_mem hl0, h'⟩
  have hL1 : l' < (st.setAdj l' g1).graphs.length := by
    rw [setAdj_graphs_length]; exact hL
  set st1 := st.setAdj l' g1 with hst1
  rw [adj_setAdj_self st1 l' _ hL1] at hy
  set g2 := if amem g1 nId = true then g1 else ainsert g1 nId [] with hg2
  have val2 : ∀ z, adjHasVal g2 z → adjHasVal g1 z := by
    intro z hz
    rw [hg2] at hz
    by_cases hmem : amem g1 nId = true
    · rwa [if_pos hmem] at hz
    · rw [if_neg hmem] at hz
      rcases hz with ⟨p, hp, hzp⟩
      rcases mem_ainsert_bindings hp with h | h
      · exact ⟨p, h, hzp⟩
      · rw [h] at hzp
        simp at hzp
  set g3 := ainsert g2 nId (setAdd ((alookup g2 nId).getD []) id) with hg3
  have val3 : ∀ z, adjHasVal g3 z →
      adjHasVal (st.adj l') z ∨ z = nId ∨ z = id := by
    intro z hz
    rcases hz with ⟨p, hp, hzp⟩
    rcases mem_ainsert_bindings hp with h | h
    · rcases val1 z (val2 z ⟨p, h, hzp⟩) with h' | h'
      · exact Or.inl h'
      · exact Or.inr (Or.inl h')
    · rw [h] at hzp
      simp only [] at hzp
      rcases mem_setAdd.mp hzp with h' | h'
      · exact Or.inr (Or.inr h')
      · cases hl0 : alookup g2 nId with
        | none => rw [hl0] at h'; simp at h'
        | some row =>
          rw [hl0] at h'
          rcases val1 z (val2 z ⟨(nId, row), alookup_mem hl0, h'⟩) with
            h'' | h''
          · exact Or.inl h''
          · exact Or.inr (Or.inl h'')
  have hL2 : l' < (st1.setAdj l' g3).graphs.length := by
    rw [setAdj_graphs_length, setAdj_graphs_length]; exact hL
  set st2 := st1.setAdj l' g3 with hst2
  have hadj2 : st2.adj l' = g3 := by
    rw [hst2]; exact adj_setAdj_self st1 l' g3 hL1
  split at hy
  · rw [hst2] at hy
    rw [adj_setAdj_self _ l' _ (by
      rw [setAdj_graphs_length, setAdj_graphs_length]; exact hL)] at hy
    rcases hy with ⟨p, hp, hyp⟩
    rcases mem_ainsert_bindings hp with h | h
    · apply val3 y
      rw [← hadj2, hst2]
      rw [adj_setAdj_self st1 l' g3 hL1]
      exact ⟨p, h, hyp⟩
    · rw [h] at hyp
      simp only [] at hyp
      rcases selectNeighbors_subset _ _ y hyp with ⟨q, hq, hqy⟩
      rcases List.mem_map.mp hq with ⟨z, hz, hzq⟩
      have hzy : z = y := by rw [← hqy, ← hzq]
      subst hzy
      have : z ∈ (alookup g3 nId).getD [] := by
        unfold HState.neighbors at hz
        rw [← hst2, hadj2] at hz
        exact hz
      cases hl0 : alookup g3 nId with
      | none => rw [hl0] at this; simp at this
      | some row =>
        rw [hl0] at this
        exact val3 z ⟨(nId, row), alookup_mem hl0, this⟩
  · rw [hadj2] at hy
    exact val3 y hy

/-- The graph update performed by `connect` at its level, as a pure
function of that level's adjacency dict (proof helper; `connect_adj_self`
proves it matches `connect`). -/
noncomputable def connectG (nodes : List (String × List ℝ)) (cap : ℕ)
    (id nId : String) (g : List (String × List String)) :
    List (String × List String) :=
  let g1 := ainsert g id (setAdd ((alookup g id).getD []) nId)
  let g2 := if amem g1 nId then g1 else ainsert g1 nId []
  let g3 := ainsert g2 nId (setAdd ((alookup g2 nId).getD []) id)
  let nbrs := (alookup g3 nId).getD []
  if cap < nbrs.length then
    let cands := nbrs.map (fun x =>
      (cosDistance ((alookup nodes nId).getD [])
        ((alookup nodes x).getD []), x))
    ainsert g3 nId (selectNeighbors cands cap)
  else g3

theorem connect_adj_self (st : HState) (id : String) (level : ℕ)
    (nId : String) (hL : level < st.graphs.length) :
    (connect id level st nId).adj level =
      connectG st.nodes (st.capAt level) id nId (st.adj level) := by
  have h2 : level < (st.setAdj level
      (ainsert (st.adj level) id
        (setAdd ((alookup (st.adj level) id).getD []) nId))).graphs.length := by
    rw [setAdj_graphs_length]
    exact hL
  unfold connect connectG
  simp only [HState.neighbors, HState.vecOf, setAdj_capAt, setAdj_nodes]
  rw [adj_setAdj_self st level _ hL]
  rw [adj_setAdj_self _ level _ h2]
  rw [apply_ite (fun s : HState => s.adj level)]
  rw [adj_setAdj_self _ level _ (by
    rw [setAdj_graphs_length, setAdj_graphs_length]; exact hL)]
  rw [adj_setAdj_self _ level _ h2]

/-- Degree bookkeeping for one `connect`-style graph update: the
inserted node's row grows by at most one, every other row ends within
the cap (the prune is self-correcting), and keys stay distinct. -/
theorem connectG_deg (nodes : List (String × List ℝ)) (cap : ℕ)
    (id nId : String) (g : List (String × List String)) (k : ℕ)
    (ng : (akeys g).Nodup)
    (hid : ∀ p ∈ g, p.1 = id → p.2.length ≤ k)
    (hother : ∀ p ∈ g, p.1 ≠ id → p.2.length ≤ cap) :
    (akeys (connectG nodes cap id nId g)).Nodup ∧
    (∀ p ∈ connectG nodes cap id nId g, p.1 = id →
      p.2.length ≤ k + 1) ∧
    (∀ p ∈ connectG nodes cap id nId g, p.1 ≠ id →
      p.2.length ≤ cap) := by
  unfold connectG
  simp only []
  set row0 := (alookup g id).getD [] with hrow0
  have hrow0_len : row0.length ≤ k := by
    rw [hrow0]
    cases hl0 : alookup g id with
    | none => simp
    | some row =>
      simp only [Option.getD_some]
      exact hid (id, row) (alookup_mem hl0) rfl
  set g1 := ainsert g id (setAdd row0 nId) with hg1
  have ng1 : (akeys g1).Nodup := by
    rw [hg1]
    exact akeys_nodup_ainsert _ _ ng
  have deg1_id : ∀ p ∈ g1, p.1 = id → p.2.length ≤ k + 1 := by
    intro p hp hpid
    rw [hg1] at hp
    rcases mem_ainsert_nodup ng hp with h | h
    · rw [h]
      exact (length_setAdd_le _ _).trans (by omega)
    · exact absurd hpid h.2
  have deg1_other : ∀ p ∈ g1, p.1 ≠ id → p.2.length ≤ cap := by
    intro p hp hpid
    rw [hg1] at hp
    rcases mem_ainsert_nodup ng hp with h | h
    · rw [h] at hpid
      simp at hpid
    · exact hother p h.1 hpid
  set g2 := if amem g1 nId = true then g1 else ainsert g1 nId [] with hg2
  have ng2 : (akeys g2).Nodup := by
    rw [hg2]
    split
    · exact ng1
    · exact akeys_nodup_ainsert _ _ ng1
  have deg2_id : ∀ p ∈ g2, p.1 = id → p.2.length ≤ k + 1 := by
    intro p hp hpid
    rw [hg2] at hp
    split at hp
    · exact deg1_id p hp hpid
    · rcases mem_ainsert_nodup ng1 hp with h | h
      · rw [h]
        exact Nat.zero_le _
      · exact deg1_id p h.1 hpid
  have deg2_other : ∀ p ∈ g2, p.1 ≠ id → p.2.length ≤ cap := by
    intro p hp hpid
    rw [hg2] at hp
    split at hp
    · exact deg1_other p hp hpid
    · rcases mem_ainsert_nodup ng1 hp with h | h
      · rw [h]
        exact Nat.zero_le _
      · exact deg1_other p h.1 hpid
  set row1 := (alookup g2 nId).getD [] with hrow1
  set g3 := ainsert g2 nId (setAdd row1 id) with hg3
  have ng3 : (akeys g3).Nodup := by
    rw [hg3]
    exact akeys_nodup_ainsert _ _ ng2
  have hg3_nId : alookup g3 nId = some (setAdd row1 id) := by
    rw [hg3]
    exact alookup_ainsert_self _ _ _
  have deg3_id : ∀ p ∈ g3, p.1 = id → p.2.length ≤ k + 1 := by
    intro p hp hpid
    rw [hg3] at hp
    rcases mem_ainsert_nodup ng2 hp with h | h
    · have hnid : nId = id := by
        rw [h] at hpid
        exact hpid
      subst hnid
      have hmem1 : amem g1 nId = true := by
        rw [hg1]
        exact (amem_ainsert _ _ _ _).mpr (Or.inl rfl)
      have hg2eq : g2 = g1 := by
        rw [hg2, if_pos hmem1]
      have hrow1eq : row1 = setAdd row0 nId := by
        rw [hrow1, hg2eq, hg1, alookup_ainsert_self]
        rfl
      rw [h]
      simp only []
      rw [hrow1eq, setAdd_of_mem (mem_setAdd.mpr (Or.inl rfl))]
      exact (length_setAdd_le _ _).trans (by omega)
    · exact deg2_id p h.1 hpid
  have deg3_other : ∀ p ∈ g3, p.1 ≠ id → p.1 ≠ nId → p.2.length ≤ cap := by
    intro p hp hpid hpnid
    rw [hg3] at hp
    rcases mem_ainsert_nodup ng2 hp with h | h
    · rw [h] at hpnid
      simp at hpnid
    · exact deg2_other p h.1 hpid
  rw [hg3_nId]
  simp only [Option.getD_some]
  by_cases hc : cap < (setAdd row1 id).length
  · rw [if_pos hc]
    have hkeep : (selectNeighbors ((setAdd row1 id).map (fun x =>
        (cosDistance ((alookup nodes nId).getD [])
          ((alookup nodes x).getD []), x))) cap).length ≤ cap :=
      selectNeighbors_length _ _
    refine ⟨akeys_nodup_ainsert _ _ ng3, ?_, ?_⟩
    · intro p hp hpid
      rcases mem_ainsert_nodup ng3 hp with h | h
      · have hnid : nId = id := by
          rw [h] at hpid
          exact hpid
        have hb : (setAdd row1 id).length ≤ k + 1 :=
          deg3_id (nId, setAdd row1 id) (alookup_mem hg3_nId) hnid
        rw [h]
        simp only []
        omega
      · exact deg3_id p h.1 hpid
    · intro p hp hpid
      rcases mem_ainsert_nodup ng3 hp with h | h
      · rw [h]
        exact hkeep
      · exact deg3_other p h.1 hpid h.2
  · rw [if_neg hc]
    refine ⟨ng3, deg3_id, ?_⟩
    intro p hp hpid
    by_cases hpnid : p.1 = nId
    · have hlk := alookup_eq_of_mem_nodup ng3 hp
      rw [hpnid, hg3_nId] at hlk
      have hp2 : p.2 = setAdd row1 id := (Option.some.inj hlk).symm
      rw [hp2]
      omega
    · exact deg3_other p hp hpid hpnid

/-- Degree bookkeeping for one `connect` (both in- and out-of-range
levels). -/
theorem connect_deg (st : HState) (id : String) (level : ℕ) (nId : String)
    (k : ℕ)
    (hnodup : ∀ lv, (akeys (st.adj lv)).Nodup)
    (hid : ∀ p ∈ st.adj level, p.1 = id → p.2.length ≤ k)
    (hother : ∀ p ∈ st.adj level, p.1 ≠ id →
      p.2.length ≤ st.capAt level) :
    (∀ lv, (akeys ((connect id level st nId).adj lv)).Nodup) ∧
    (∀ p ∈ (connect id level st nId).adj level, p.1 = id →
      p.2.length ≤ k + 1) ∧
    (∀ p ∈ (connect id level st nId).adj level, p.1 ≠ id →
      p.2.length ≤ st.capAt level) := by
  by_cases hL : level < st.graphs.length
  · have hadj := connect_adj_self st id level nId hL
    rcases connectG_deg st.nodes (st.capAt level) id nId (st.adj level) k
      (hnodup level) hid hother with ⟨n1, d1, d2⟩
    refine ⟨?_, ?_, ?_⟩
    · intro lv
      by_cases hlv : lv = level
      · rw [hlv, hadj]
        exact n1
      · rw [connect_adj_ne st id level lv nId hlv]
        exact hnodup lv
    · rw [hadj]
      exact d1
    · rw [hadj]
      exact d2
  · rw [connect_out st id level nId hL]
    exact ⟨hnodup, fun p hp hpid => (hid p hp hpid).trans (Nat.le_succ k),
      hother⟩

/-! ### The parametric containment invariant

`SubInv st P`: every id the state mentions satisfies `P`.  It is
preserved by `add_item id …` whenever `P id`, and by `remove_item`. -/

structure SubInv (st : HState) (P : String → Prop) : Prop where
  nodes_P : ∀ x, amem st.nodes x = true → P x
  lvl_P : ∀ x, amem st.node_levels x = true → P x
  keys_P : ∀ lv x, amem (st.adj lv) x = true → P x
  mem_P : ∀ lv y, adjHasVal (st.adj lv) y → P y
  ep_P : ∀ e, st.ep = some e → P e

/-- Neighbour-list form of `mem_P`. -/
theorem SubInv.nbr_P {st : HState} {P : String → Prop} (hs : SubInv st P) :
    ∀ lv x y, y ∈ st.neighbors lv x → P y :=
  fun lv _ y hy => hs.mem_P lv y (adjHasVal_of_neighbors hy)

theorem SubInv.mono {st : HState} {P Q : String → Prop}
    (h : ∀ x, P x → Q x) (hs : SubInv st P) : SubInv st Q :=
  ⟨fun x hx => h x (hs.nodes_P x hx),
    fun x hx => h x (hs.lvl_P x hx),
    fun lv x hx => h x (hs.keys_P lv x hx),
    fun lv y hy => h y (hs.mem_P lv y hy),
    fun e he => h e (hs.ep_P e he)⟩

theorem SubInv_true (st : HState) : SubInv st (fun _ => True) :=
  ⟨fun _ _ => trivial, fun _ _ => trivial, fun _ _ _ => trivial,
    fun _ _ _ => trivial, fun _ _ => trivial⟩

theorem connect_SubInv {st : HState} {P : String → Prop}
    (hs : SubInv st P) (id : String) (level : ℕ) (nId : String)
    (hid : P id) (hnId : P nId) :
    SubInv (connect id level st nId) P := by
  refine ⟨?_, ?_, ?_, ?_, ?_⟩
  · intro x hx
    rw [connect_nodes] at hx
    exact hs.nodes_P x hx
  · intro x hx
    rw [connect_node_levels] at hx
    exact hs.lvl_P x hx
  · intro lv x hx
    rcases connect_keys_coarse st id level nId lv x hx with h | h | h
    · exact hs.keys_P lv x h
    · exact h ▸ hnId
    · exact h ▸ hid
  · intro lv y hy
    rcases connect_vals_coarse st id level nId lv y hy with h | h | h
    · exact hs.mem_P lv y h
    · exact h ▸ hnId
    · exact h ▸ hid
  · intro e he
    rw [connect_ep] at he
    exact hs.ep_P e he

theorem connectFold_SubInv {P : String → Prop} (id : String) (level : ℕ) :
    ∀ (nbrs : List String) (st : HState), SubInv st P → P id →
      (∀ n ∈ nbrs, P n) → SubInv (nbrs.foldl (connect id level) st) P := by
  intro nbrs
  induction nbrs with
  | nil => intro st hs _ _; exact hs
  | cons n rest ih =>
    intro st hs hid hns
    simp only [List.foldl_cons]
    exact ih _ (connect_SubInv hs id level n hid
        (hns n (List.mem_cons_self n rest))) hid
      (fun m hm => hns m (List.mem_cons_of_mem n hm))

theorem connectFold_nodes (id : String) (level : ℕ) :
    ∀ (nbrs : List String) (st : HState),
      (nbrs.foldl (connect id level) st).nodes = st.nodes ∧
      (nbrs.foldl (connect id level) st).node_levels = st.node_levels ∧
      (nbrs.foldl (connect id level) st).ep = st.ep ∧
      (nbrs.foldl (connect id level) st).M = st.M ∧
      (nbrs.foldl (connect id level) st).graphs.length
        = st.graphs.length := by
  intro nbrs
  induction nbrs with
  | nil => intro st; exact ⟨rfl, rfl, rfl, rfl, rfl⟩
  | cons n rest ih =>
    intro st
    simp only [List.foldl_cons]
    rcases ih (connect id level st n) with ⟨h1, h2, h3, h4, h5⟩
    exact ⟨h1.trans (connect_nodes _ _ _ _),
      h2.trans (connect_node_levels _ _ _ _),
      h3.trans (connect_ep _ _ _ _),
      h4.trans (connect_M _ _ _ _),
      h5.trans (connect_graphs_length _ _ _ _)⟩

/-- Creating an empty adjacency row for `id`. -/
theorem ensure_SubInv {P : String → Prop} {s : HState} (hs : SubInv s P)
    (id : String) (lv : ℕ) (hid : P id) :
    SubInv (s.setAdj lv (ainsert (s.adj lv) id [])) P := by
  refine ⟨hs.nodes_P, hs.lvl_P, ?_, ?_, hs.ep_P⟩
  · intro l' x hx
    rcases adj_setAdj_cases s lv _ l' with hc | hc
    · rw [hc] at hx
      exact hs.keys_P l' x hx
    · rw [hc] at hx
      rcases (amem_ainsert _ _ _ _).mp hx with h | h
      · exact h ▸ hid
      · exact hs.keys_P lv x h
  · intro l' y hy
    rcases adj_setAdj_cases s lv _ l' with hc | hc
    · rw [hc] at hy
      exact hs.mem_P l' y hy
    · rw [hc] at hy
      rcases hy with ⟨p, hp, hyp⟩
      rcases mem_ainsert_bindings hp with h | h
      · exact hs.mem_P lv y ⟨p, h, hyp⟩
      · rw [h] at hyp
        simp at hyp

theorem insertAtLevel_SubInv {P : String → Prop} (id : String)
    (v : List ℝ) (st : HState) (ep : String) (lv : ℕ)
    (hs : SubInv st P) (hid : P id) (hep : P ep) :
    SubInv (insertAtLevel id v (st, ep) lv).1 P ∧
    (insertAtLevel id v (st, ep) lv).1.nodes = st.nodes ∧
    (insertAtLevel id v (st, ep) lv).1.node_levels = st.node_levels ∧
    (insertAtLevel id v (st, ep) lv).1.ep = st.ep ∧
    (insertAtLevel id v (st, ep) lv).1.M = st.M ∧
    (insertAtLevel id v (st, ep) lv).1.graphs.length = st.graphs.length ∧
    (insertAtLevel id v (st, ep) lv).2 = id := by
  unfold insertAtLevel
  simp only []
  set W := searchLayer st v ep st.efConstruction lv with hW
  set nbrs := selectNeighbors W (st.capAt lv) with hnbrs
  have hnbrsP : ∀ n ∈ nbrs, P n := by
    intro n hn
    rcases selectNeighbors_subset _ _ n hn with ⟨p, hp, hpn⟩
    have := searchLayer_subset st v ep st.efConstruction lv P
      (fun x y hx hy => hs.nbr_P lv x y hy) hep p hp
    exact hpn ▸ this
  set st1 := if amem (st.adj lv) id = true then st
             else st.setAdj lv (ainsert (st.adj lv) id []) with hst1
  have hs1 : SubInv st1 P := by
    rw [hst1]
    by_cases hmem : amem (st.adj lv) id = true
    · rwa [if_pos hmem]
    · rw [if_neg hmem]
      exact ensure_SubInv hs id lv hid
  have hfields1 : st1.nodes = st.nodes ∧ st1.node_levels = st.node_levels ∧
      st1.ep = st.ep ∧ st1.M = st.M ∧
      st1.graphs.length = st.graphs.length := by
    rw [hst1]
    by_cases hmem : amem (st.adj lv) id = true
    · rw [if_pos hmem]
      exact ⟨rfl, rfl, rfl, rfl, rfl⟩
    · rw [if_neg hmem]
      exact ⟨rfl, rfl, rfl, rfl, setAdj_graphs_length _ _ _⟩
  rcases connectFold_nodes id lv nbrs st1 with ⟨f1, f2, f3, f4, f5⟩
  refine ⟨connectFold_SubInv id lv nbrs st1 hs1 hid hnbrsP, ?_, ?_, ?_, ?_,
    ?_, ?_⟩
  · rw [f1, hfields1.1]
  · rw [f2, hfields1.2.1]
  · rw [f3, hfields1.2.2.1]
  · rw [f4, hfields1.2.2.2.1]
  · rw [f5, hfields1.2.2.2.2]
  · trivial

theorem levelsFold_SubInv {P : String → Prop} (id : String) (v : List ℝ) :
    ∀ (ls : List ℕ) (st : HState) (ep : String), SubInv st P → P id →
      P ep →
      SubInv (ls.foldl (insertAtLevel id v) (st, ep)).1 P ∧
      (ls.foldl (insertAtLevel id v) (st, ep)).1.nodes = st.nodes ∧
      (ls.foldl (insertAtLevel id v) (st, ep)).1.node_levels
        = st.node_levels ∧
      (ls.foldl (insertAtLevel id v) (st, ep)).1.ep = st.ep ∧
      (ls.foldl (insertAtLevel id v) (st, ep)).1.M = st.M ∧
      (ls.foldl (insertAtLevel id v) (st, ep)).1.graphs.length
        = st.graphs.length := by
  intro ls
  induction ls with
  | nil =>
    intro st ep hs _ _
    exact ⟨hs, rfl, rfl, rfl, rfl, rfl⟩
  | cons lv rest ih =>
    intro st ep hs hid hep
    simp only [List.foldl_cons]
    rcases insertAtLevel_SubInv id v st ep lv hs hid hep with
      ⟨hi, g1, g2, g3, g4, g5, g6⟩
    rcases hacc : insertAtLevel id v (st, ep) lv with ⟨st', ep'⟩
    rw [hacc] at hi g1 g2 g3 g4 g5 g6
    simp only [] at hi g1 g2 g3 g4 g5 g6
    rcases ih st' ep' hi hid (g6 ▸ hid) with ⟨h1, h2, h3, h4, h5, h6⟩
    exact ⟨h1, h2.trans g1, h3.trans g2, h4.trans g3, h5.trans g4,
      h6.trans g5⟩

/-- The first-node branch: create an empty row for `id` at every level
up to `l`. -/
theorem ensureFold_SubInv {P : String → Prop} (id : String) :
    ∀ (ls : List ℕ) (st : HState), SubInv st P → P id →
      SubInv (ls.foldl
        (fun s level => s.setAdj level (ainsert (s.adj level) id [])) st) P ∧
      (ls.foldl
        (fun s level => s.setAdj level (ainsert (s.adj level) id [])) st).nodes = st.nodes ∧
      (ls.foldl
        (fun s level => s.setAdj level (ainsert (s.adj level) id [])) st).node_levels = st.node_levels ∧
      (ls.foldl
        (fun s level => s.setAdj level (ainsert (s.adj level) id [])) st).M = st.M ∧
      (ls.foldl
        (fun s level => s.setAdj level (ainsert (s.adj level) id [])) st).graphs.length = st.graphs.length := by
  intro ls
  induction ls with
  | nil => intro st hs _; exact ⟨hs, rfl, rfl, rfl, rfl⟩
  | cons lv rest ih =>
    intro st hs hid
    simp only [List.foldl_cons]
    rcases ih _ (ensure_SubInv hs id lv hid) hid with ⟨h1, h2, h3, h4, h5⟩
    exact ⟨h1, h2, h3, h4, h5.trans (setAdj_graphs_length _ _ _)⟩

theorem greedyFold_P (st : HState) (q : List ℝ) (P : String → Prop)
    (hP : ∀ lv x y, P x → y ∈ st.neighbors lv x → P y) :
    ∀ (ls : List ℕ) (ep : String), P ep →
      P (ls.foldl (greedyStep st q) ep) := by
  intro ls
  induction ls with
  | nil => intro ep hep; exact hep
  | cons lv rest ih =>
    intro ep hep
    simp only [List.foldl_cons]
    exact ih _ (greedyStep_P st q ep lv P (fun x y hx hy => hP lv x y hx hy)
      hep)

theorem add_item_SubInv (st : HState) (id : String) (v : List ℝ)
    (rnd : ℕ) (P : String → Prop) (hs : SubInv st P) (hid : P id) :
    SubInv (st.add_item id v rnd) P ∧
    (st.add_item id v rnd).M = st.M ∧
    (st.add_item id v rnd).graphs.length = st.graphs.length := by
  unfold HState.add_item
  by_cases hmem : amem st.nodes id = true
  · rw [if_pos hmem]
    refine ⟨⟨?_, hs.lvl_P, hs.keys_P, hs.mem_P, hs.ep_P⟩, rfl, rfl⟩
    intro x hx
    simp only [] at hx
    rcases (amem_ainsert _ _ _ _).mp hx with h | h
    · exact h ▸ hid
    · exact hs.nodes_P x h
  · rw [if_neg hmem]
    simp only []
    cases hep0 : st.ep with
    | none =>
      simp only []
      have hs2 : SubInv ⟨st.dim, st.M, st.efConstruction, st.ml,
          ainsert st.nodes id v,
          ainsert st.node_levels id (min rnd st.ml), st.graphs, none⟩ P := by
        refine ⟨?_, ?_, hs.keys_P, hs.mem_P, ?_⟩
        · intro x hx
          simp only [] at hx
          rcases (amem_ainsert _ _ _ _).mp hx with h | h
          · exact h ▸ hid
          · exact hs.nodes_P x h
        · intro x hx
          simp only [] at hx
          rcases (amem_ainsert _ _ _ _).mp hx with h | h
          · exact h ▸ hid
          · exact hs.lvl_P x h
        · intro e he
          cases he
      rcases ensureFold_SubInv id (List.range (min rnd st.ml + 1)) _ hs2 hid
        with ⟨h1, _, _, h4, h5⟩
      refine ⟨⟨h1.nodes_P, h1.lvl_P, h1.keys_P, h1.mem_P, ?_⟩, h4, h5⟩
      intro e he
      simp only [] at he
      cases he
      exact hid
    | some ep0 =>
      simp only []
      have hs2 : SubInv ⟨st.dim, st.M, st.efConstruction, st.ml,
          ainsert st.nodes id v,
          ainsert st.node_levels id (min rnd st.ml), st.graphs,
          some ep0⟩ P := by
        refine ⟨?_, ?_, hs.keys_P, hs.mem_P, ?_⟩
        · intro x hx
          simp only [] at hx
          rcases (amem_ainsert _ _ _ _).mp hx with h | h
          · exact h ▸ hid
          · exact hs.nodes_P x h
        · intro x hx
          simp only [] at hx
          rcases (amem_ainsert _ _ _ _).mp hx with h | h
          · exact h ▸ hid
          · exact hs.lvl_P x h
        · intro e he
          cases he
          exact hs.ep_P ep0 hep0
      have hep1 : ∀ ls : List ℕ, P (ls.foldl
          (greedyStep ⟨st.dim, st.M, st.efConstruction, st.ml,
            ainsert st.nodes id v,
            ainsert st.node_levels id (min rnd st.ml), st.graphs,
            some ep0⟩ v) ep0) := by
        intro ls
        exact greedyFold_P _ v P
          (fun lv x y _ hy => hs2.nbr_P lv x y hy) ls ep0
          (hs.ep_P ep0 hep0)
      rcases levelsFold_SubInv id v
        ((List.range (min (min rnd st.ml)
          (HState.levelOf ⟨st.dim, st.M, st.efConstruction, st.ml,
            ainsert st.nodes id v,
            ainsert st.node_levels id (min rnd st.ml), st.graphs,
            some ep0⟩ ep0) + 1)).reverse) _ _ hs2 hid (hep1 _) with
        ⟨h1, _, _, h4, h5, h6⟩
      split
      · refine ⟨⟨h1.nodes_P, h1.lvl_P, h1.keys_P, h1.mem_P, ?_⟩, ?_, ?_⟩
        · intro e he
          simp only [] at he
          cases he
          exact hid
        · simpa using h5
        · simpa using h6
      · exact ⟨h1, by simpa using h5, by simpa using h6⟩

theorem amem_of_mem_bindings {β : Type} {l : List (String × β)}
    {k : String} {v : β} (h : (k, v) ∈ l) : amem l k = true := by
  induction l with
  | nil => simp at h
  | cons q rest ih =>
    simp only [amem, alookup]
    by_cases hq : q.1 = k
    · rw [if_pos hq]; rfl
    · rw [if_neg hq]
      rcases List.mem_cons.mp h with h' | h'
      · rw [← h'] at hq; simp at hq
      · exact ih h'

/-- One discard step of `removeAtLevel` preserves the invariant. -/
theorem discard_SubInv {P : String → Prop} {s : HState} (hs : SubInv s P)
    (level : ℕ) (id n : String) :
    SubInv (if amem (s.adj level) n then
      s.setAdj level (ainsert (s.adj level) n
        (setDiscard ((alookup (s.adj level) n).getD []) id))
    else s) P := by
  by_cases hmem : amem (s.adj level) n = true
  · rw [if_pos hmem]
    refine ⟨hs.nodes_P, hs.lvl_P, ?_, ?_, hs.ep_P⟩
    · intro l' x hx
      rcases adj_setAdj_cases s level _ l' with hc | hc
      · rw [hc] at hx
        exact hs.keys_P l' x hx
      · rw [hc] at hx
        rcases (amem_ainsert _ _ _ _).mp hx with h | h
        · subst h
          exact hs.keys_P level x hmem
        · exact hs.keys_P level x h
    · intro l' y hy
      rcases adj_setAdj_cases s level _ l' with hc | hc
      · rw [hc] at hy
        exact hs.mem_P l' y hy
      · rw [hc] at hy
        rcases hy with ⟨p, hp, hyp⟩
        rcases mem_ainsert_bindings hp with h | h
        · exact hs.mem_P level y ⟨p, h, hyp⟩
        · rw [h] at hyp
          simp only [] at hyp
          have hy' : y ∈ (alookup (s.adj level) n).getD [] :=
            (mem_setDiscard.mp hyp).1
          cases hl0 : alookup (s.adj level) n with
          | none => rw [hl0] at hy'; simp at hy'
          | some row =>
            rw [hl0] at hy'
            exact hs.mem_P level y ⟨(n, row), alookup_mem hl0, hy'⟩
  · rw [if_neg hmem]
    exact hs

/-- The neighbour-cleanup fold of `removeAtLevel` preserves the
invariant and every non-adjacency field. -/
theorem discardFold_SubInv {P : String → Prop} (level : ℕ) (id : String) :
    ∀ (nbrs : List String) (st : HState), SubInv st P →
      SubInv (nbrs.foldl (fun s n =>
        if amem (s.adj level) n then
          s.setAdj level (ainsert (s.adj level) n
            (setDiscard ((alookup (s.adj level) n).getD []) id))
        else s) st) P ∧
      (nbrs.foldl (fun s n =>
        if amem (s.adj level) n then
          s.setAdj level (ainsert (s.adj level) n
            (setDiscard ((alookup (s.adj level) n).getD []) id))
        else s) st).nodes = st.nodes ∧
      (nbrs.foldl (fun s n =>
        if amem (s.adj level) n then
          s.setAdj level (ainsert (s.adj level) n
            (setDiscard ((alookup (s.adj level) n).getD []) id))
        else s) st).node_levels = st.node_levels ∧
      (nbrs.foldl (fun s n =>
        if amem (s.adj level) n then
          s.setAdj level (ainsert (s.adj level) n
            (setDiscard ((alookup (s.adj level) n).getD []) id))
        else s) st).ep = st.ep ∧
      (nbrs.foldl (fun s n =>
        if amem (s.adj level) n then
          s.setAdj level (ainsert (s.adj level) n
            (setDiscard ((alookup (s.adj level) n).getD []) id))
        else s) st).M = st.M ∧
      (nbrs.foldl (fun s n =>
        if amem (s.adj level) n then
          s.setAdj level (ainsert (s.adj level) n
            (setDiscard ((alookup (s.adj level) n).getD []) id))
        else s) st).graphs.length = st.graphs.length := by
  intro nbrs
  induction nbrs with
  | nil => intro st hs; exact ⟨hs, rfl, rfl, rfl, rfl, rfl⟩
  | cons n rest ih =>
    intro st hs
    simp only [List.foldl_cons]
    rcases ih _ (discard_SubInv hs level id n) with ⟨h1, f1, f2, f3, f4, f5⟩
    have step : ∀ (g : HState → HState), g = (fun s =>
        if amem (s.adj level) n then
          s.setAdj level (ainsert (s.adj level) n
            (setDiscard ((alookup (s.adj level) n).getD []) id))
        else s) →
        (g st).nodes = st.nodes ∧ (g st).node_levels = st.node_levels ∧
        (g st).ep = st.ep ∧ (g st).M = st.M ∧
        (g st).graphs.length = st.graphs.length := by
      intro g hg
      subst hg
      simp only []
      by_cases hmem : amem (st.adj level) n = true
      · rw [if_pos hmem]
        exact ⟨rfl, rfl, rfl, rfl, setAdj_graphs_length _ _ _⟩
      · rw [if_neg hmem]
        exact ⟨rfl, rfl, rfl, rfl, rfl⟩
    rcases step _ rfl with ⟨g1, g2, g3, g4, g5⟩
    exact ⟨h1, f1.trans g1, f2.trans g2, f3.trans g3, f4.trans g4,
      f5.trans g5⟩

/-- `removeAtLevel` preserves the invariant and every non-adjacency
field. -/
theorem removeAtLevel_SubInv {P : String → Prop} (id : String)
    (st : HState) (level : ℕ) (hs : SubInv st P) :
    SubInv (removeAtLevel id st level) P ∧
    (removeAtLevel id st level).nodes = st.nodes ∧
    (removeAtLevel id st level).node_levels = st.node_levels ∧
    (removeAtLevel id st level).ep = st.ep ∧
    (removeAtLevel id st level).M = st.M ∧
    (removeAtLevel id st level).graphs.length = st.graphs.length := by
  unfold removeAtLevel
  simp only []
  rcases discardFold_SubInv level id (st.neighbors level id) st hs with
    ⟨h1, f1, f2, f3, f4, f5⟩
  split
  · refine ⟨⟨h1.nodes_P, h1.lvl_P, ?_, ?_, h1.ep_P⟩, f1, f2, f3, f4,
      (setAdj_graphs_length _ _ _).trans f5⟩
    · intro l' x hx
      rcases adj_setAdj_cases _ level _ l' with hc | hc
      · rw [hc] at hx
        exact h1.keys_P l' x hx
      · rw [hc] at hx
        exact h1.keys_P level x (amem_aerase _ _ _ hx)
    · intro l' y hy
      rcases adj_setAdj_cases _ level _ l' with hc | hc
      · rw [hc] at hy
        exact h1.mem_P l' y hy
      · rw [hc] at hy
        rcases hy with ⟨p, hp, hyp⟩
        exact h1.mem_P level y ⟨p, mem_aerase_bindings hp, hyp⟩
  · exact ⟨h1, f1, f2, f3, f4, f5⟩

/-- The per-level cleanup fold of `remove_item`. -/
theorem removeLevelsFold_SubInv {P : String → Prop} (id : String) :
    ∀ (ls : List ℕ) (st : HState), SubInv st P →
      SubInv (ls.foldl (fun s lv => removeAtLevel id s lv) st) P ∧
      (ls.foldl (fun s lv => removeAtLevel id s lv) st).nodes = st.nodes ∧
      (ls.foldl (fun s lv => removeAtLevel id s lv) st).node_levels
        = st.node_levels ∧
      (ls.foldl (fun s lv => removeAtLevel id s lv) st).ep = st.ep ∧
      (ls.foldl (fun s lv => removeAtLevel id s lv) st).M = st.M ∧
      (ls.foldl (fun s lv => removeAtLevel id s lv) st).graphs.length
        = st.graphs.length := by
  intro ls
  induction ls with
  | nil => intro st hs; exact ⟨hs, rfl, rfl, rfl, rfl, rfl⟩
  | cons lv rest ih =>
    intro st hs
    simp only [List.foldl_cons]
    rcases removeAtLevel_SubInv id st lv hs with ⟨h1, g1, g2, g3, g4, g5⟩
    rcases ih _ h1 with ⟨h2, f1, f2, f3, f4, f5⟩
    exact ⟨h2, f1.trans g1, f2.trans g2, f3.trans g3, f4.trans g4,
      f5.trans g5⟩

theorem argmaxAux_mem :
    ∀ (levels : List (String × ℕ)) (acc : Option (String × ℕ))
      (r : String × ℕ),
      levels.foldl (fun acc p =>
        match acc with
        | none => some p
        | some q => if q.2 < p.2 then some p else some q) acc = some r →
      r ∈ levels ∨ acc = some r := by
  intro levels
  induction levels with
  | nil => intro acc r h; exact Or.inr h
  | cons p rest ih =>
    intro acc r h
    simp only [List.foldl_cons] at h
    rcases ih _ r h with h' | h'
    · exact Or.inl (List.mem_cons_of_mem p h')
    · cases acc with
      | none =>
        simp only [] at h'
        cases h'
        exact Or.inl (List.mem_cons_self p rest)
      | some q =>
        simp only [] at h'
        by_cases hlt : q.2 < p.2
        · rw [if_pos hlt] at h'
          cases h'
          exact Or.inl (List.mem_cons_self p rest)
        · rw [if_neg hlt] at h'
          exact Or.inr h'

/-- The replacement entry point chosen by `remove_item` is a key of the
level table. -/
theorem argmaxLevel_amem {levels : List (String × ℕ)} {x : String}
    (h : argmaxLevel levels = some x) : amem levels x = true := by
  unfold argmaxLevel at h
  cases hfold : levels.foldl (fun acc p =>
      match acc with
      | none => some p
      | some q => if q.2 < p.2 then some p else some q) none with
  | none => rw [hfold] at h; simp at h
  | some r =>
    rw [hfold] at h
    have hx : r.1 = x := Option.some.inj h
    rcases argmaxAux_mem levels none r hfold with h' | h'
    · rcases r with ⟨a, b⟩
      simp only [] at hx
      subst hx
      exact amem_of_mem_bindings h'
    · cases h'

/-- `remove_item` preserves the invariant, M and the number of
levels. -/
theorem remove_item_SubInv {P : String → Prop} (st : HState)
    (id : String) (st' : HState) (hs : SubInv st P)
    (h : st.remove_item id = .ok st') :
    SubInv st' P ∧ st'.M = st.M ∧ st'.graphs.length = st.graphs.length := by
  unfold HState.remove_item at h
  by_cases hmem : amem st.nodes id = true
  swap
  · rw [if_pos (by simpa using hmem)] at h
    cases h
  rw [if_neg (by simpa using hmem)] at h
  simp only [] at h
  rcases removeLevelsFold_SubInv id (List.range (st.levelOf id + 1)) st hs
    with ⟨h1, f1, f2, f3, f4, f5⟩
  set st1 := (List.range (st.levelOf id + 1)).foldl
    (fun s lv => removeAtLevel id s lv) st with hst1
  have hs2 : SubInv ⟨st1.dim, st1.M, st1.efConstruction, st1.ml,
      aerase st1.nodes id, aerase st1.node_levels id, st1.graphs,
      st1.ep⟩ P := by
    refine ⟨?_, ?_, h1.keys_P, h1.mem_P, h1.ep_P⟩
    · intro x hx
      exact h1.nodes_P x (amem_aerase _ _ _ hx)
    · intro x hx
      exact h1.lvl_P x (amem_aerase _ _ _ hx)
  split at h
  · split at h
    · cases h
      exact ⟨⟨hs2.nodes_P, hs2.lvl_P, hs2.keys_P, hs2.mem_P,
        fun e he => by cases he⟩, f4, f5⟩
    · cases h
      refine ⟨⟨hs2.nodes_P, hs2.lvl_P, hs2.keys_P, hs2.mem_P, ?_⟩, f4, f5⟩
      intro e he
      simp only [] at he
      exact hs2.lvl_P e (argmaxLevel_amem he)
  · cases h
    exact ⟨hs2, f4, f5⟩

/-- `add_item` always stores the vector: the node table becomes
`ainsert nodes id v` on every branch. -/
theorem add_item_nodes (st : HState) (id : String) (v : List ℝ)
    (rnd : ℕ) : (st.add_item id v rnd).nodes = ainsert st.nodes id v := by
  unfold HState.add_item
  by_cases hmem : amem st.nodes id = true
  · rw [if_pos hmem]
  · rw [if_neg hmem]
    simp only []
    cases hep0 : st.ep with
    | none =>
      simp only []
      rcases ensureFold_SubInv (P := fun _ => True) id
        (List.range (min rnd st.ml + 1)) _ (SubInv_true _) trivial with
        ⟨_, h2, _, _, _⟩
      exact h2
    | some ep0 =>
      simp only []
      rcases levelsFold_SubInv (P := fun _ => True) id v
        ((List.range (min (min rnd st.ml)
          (HState.levelOf ⟨st.dim, st.M, st.efConstruction, st.ml,
            ainsert st.nodes id v,
            ainsert st.node_levels id (min rnd st.ml), st.graphs,
            some ep0⟩ ep0) + 1)).reverse) _ _ (SubInv_true _) trivial
        trivial with ⟨_, h2, _, _, _, _⟩
      split
      · exact h2
      · exact h2

/-! ### Degree caps along the add path (claim C4) -/

theorem connectFold_adj_ne (id : String) (level : ℕ) :
    ∀ (nbrs : List String) (st : HState) (l' : ℕ), l' ≠ level →
      (nbrs.foldl (connect id level) st).adj l' = st.adj l' := by
  intro nbrs
  induction nbrs with
  | nil => intro st l' _; rfl
  | cons n rest ih =>
    intro st l' h
    simp only [List.foldl_cons]
    rw [ih _ l' h, connect_adj_ne st id level l' n h]

/-- Degree bookkeeping for `add_item`'s `for neighbor_id in neighbors`
loop: the new node's row gains at most one entry per iteration, every
other row ends within the cap. -/
theorem connectFold_deg (id : String) (level : ℕ) :
    ∀ (nbrs : List String) (st : HState) (k : ℕ),
      (∀ lv, (akeys (st.adj lv)).Nodup) →
      (∀ p ∈ st.adj level, p.1 = id → p.2.length ≤ k) →
      (∀ p ∈ st.adj level, p.1 ≠ id → p.2.length ≤ st.capAt level) →
      (∀ lv, (akeys ((nbrs.foldl (connect id level) st).adj lv)).Nodup) ∧
      (∀ p ∈ (nbrs.foldl (connect id level) st).adj level, p.1 = id →
        p.2.length ≤ k + nbrs.length) ∧
      (∀ p ∈ (nbrs.foldl (connect id level) st).adj level, p.1 ≠ id →
        p.2.length ≤ st.capAt level) := by
  intro nbrs
  induction nbrs with
  | nil =>
    intro st k h1 h2 h3
    exact ⟨h1, fun p hp hpid => (h2 p hp hpid).trans (by omega), h3⟩
  | cons n rest ih =>
    intro st k h1 h2 h3
    simp only [List.foldl_cons]
    rcases connect_deg st id level n k h1 h2 h3 with ⟨n1, d1, d2⟩
    have hcap : (connect id level st n).capAt level = st.capAt level :=
      capAt_eq_of_M (connect_M st id level n) level
    rcases ih (connect id level st n) (k + 1) n1 d1
      (by rw [hcap]; exact d2) with ⟨m1, m2, m3⟩
    refine ⟨m1, ?_, ?_⟩
    · intro p hp hpid
      have := m2 p hp hpid
      simp only [List.length_cons]
      omega
    · intro p hp hpid
      have := m3 p hp hpid
      rwa [hcap] at this

/-- Degree bookkeeping for one level of the insertion loop: starting
from a state where the new node has no row at this level, every row of
the result is within the cap. -/
theorem insertAtLevel_deg (id : String) (v : List ℝ) (st : HState)
    (ep : String) (lv : ℕ)
    (hfresh : amem (st.adj lv) id = false)
    (hnodup : ∀ l', (akeys (st.adj l')).Nodup)
    (hdeg : ∀ l' p, p ∈ st.adj l' → p.2.length ≤ st.capAt l') :
    (∀ l', (akeys ((insertAtLevel id v (st, ep) lv).1.adj l')).Nodup) ∧
    (∀ l' p, p ∈ (insertAtLevel id v (st, ep) lv).1.adj l' →
      p.2.length ≤ st.capAt l') ∧
    (∀ l', l' ≠ lv →
      (insertAtLevel id v (st, ep) lv).1.adj l' = st.adj l') := by
  unfold insertAtLevel
  simp only []
  rw [if_neg (by rw [hfresh]; exact Bool.false_ne_true)]
  by_cases hL : lv < st.graphs.length
  swap
  · rw [setAdj_out st lv _ hL]
    rw [connectFold_out id lv _ st hL]
    exact ⟨hnodup, hdeg, fun _ _ => rfl⟩
  have hst1adj : (st.setAdj lv (ainsert (st.adj lv) id [])).adj lv =
      ainsert (st.adj lv) id [] := adj_setAdj_self st lv _ hL
  have n1 : ∀ l', (akeys ((st.setAdj lv
      (ainsert (st.adj lv) id [])).adj l')).Nodup := by
    intro l'
    by_cases hll : l' = lv
    · rw [hll, hst1adj]
      exact akeys_nodup_ainsert _ _ (hnodup lv)
    · rw [adj_setAdj_ne st lv l' _ hll]
      exact hnodup l'
  have d1_id : ∀ p ∈ (st.setAdj lv (ainsert (st.adj lv) id [])).adj lv,
      p.1 = id → p.2.length ≤ 0 := by
    intro p hp hpid
    rw [hst1adj] at hp
    rcases mem_ainsert_nodup (hnodup lv) hp with h | h
    · rw [h]
      exact Nat.le_refl _
    · exact absurd hpid h.2
  have d1_other : ∀ p ∈ (st.setAdj lv (ainsert (st.adj lv) id [])).adj lv,
      p.1 ≠ id → p.2.length ≤ st.capAt lv := by
    intro p hp hpid
    rw [hst1adj] at hp
    rcases mem_ainsert_nodup (hnodup lv) hp with h | h
    · rw [h] at hpid
      simp at hpid
    · exact hdeg lv p h.1
  rcases connectFold_deg id lv
    (selectNeighbors (searchLayer st v ep st.efConstruction lv)
      (st.capAt lv))
    (st.setAdj lv (ainsert (st.adj lv) id [])) 0 n1 d1_id d1_other with
    ⟨m1, m2, m3⟩
  refine ⟨m1, ?_, ?_⟩
  · intro l' p hp
    by_cases hll : l' = lv
    · subst hll
      by_cases hpid : p.1 = id
      · have := m2 p hp hpid
        have hlen := selectNeighbors_length
          (searchLayer st v ep st.efConstruction l') (st.capAt l')
        omega
      · exact m3 p hp hpid
    · rw [connectFold_adj_ne id lv _ _ l' hll,
        adj_setAdj_ne st lv l' _ hll] at hp
      exact hdeg l' p hp
  · intro l' hll
    rw [connectFold_adj_ne id lv _ _ l' hll, adj_setAdj_ne st lv l' _ hll]

/-- Degree bookkeeping for the whole insertion loop over a duplicate-free
list of levels at which the new node has no row yet. -/
theorem levelsFold_deg (id : String) (v : List ℝ) :
    ∀ (ls : List ℕ) (st : HState) (ep : String),
      ls.Nodup →
      (∀ lv ∈ ls, amem (st.adj lv) id = false) →
      (∀ l', (akeys (st.adj l')).Nodup) →
      (∀ l' p, p ∈ st.adj l' → p.2.length ≤ st.capAt l') →
      (∀ l', (akeys
        (((ls.foldl (insertAtLevel id v) (st, ep)).1.adj l'))).Nodup) ∧
      (∀ l' p, p ∈ (ls.foldl (insertAtLevel id v) (st, ep)).1.adj l' →
        p.2.length ≤ st.capAt l') := by
  intro ls
  induction ls with
  | nil => intro st ep _ _ h1 h2; exact ⟨h1, h2⟩
  | cons lv rest ih =>
    intro st ep hnd hfr h1 h2
    simp only [List.foldl_cons]
    rcases List.nodup_cons.mp hnd with ⟨hlvnotin, hndrest⟩
    rcases insertAtLevel_deg id v st ep lv
      (hfr lv (List.mem_cons_self lv rest)) h1 h2 with ⟨n1, d1, adjne⟩
    have hM : (insertAtLevel id v (st, ep) lv).1.M = st.M := by
      rcases insertAtLevel_SubInv (P := fun _ => True) id v st ep lv
        (SubInv_true st) trivial trivial with ⟨_, _, _, _, hM', _, _⟩
      exact hM'
    rcases hacc : insertAtLevel id v (st, ep) lv with ⟨st', ep'⟩
    rw [hacc] at n1 d1 adjne hM
    simp only [] at n1 d1 adjne hM
    have hcap : ∀ l', st'.capAt l' = st.capAt l' := capAt_eq_of_M hM
    have hfr' : ∀ l' ∈ rest, amem (st'.adj l') id = false := by
      intro l' hl'
      have hne : l' ≠ lv := fun he => hlvnotin (he ▸ hl')
      rw [adjne l' hne]
      exact hfr l' (List.mem_cons_of_mem _ hl')
    rcases ih st' ep' hndrest hfr' n1
      (fun l' p hp => by rw [hcap l']; exact d1 l' p hp) with ⟨m1, m2⟩
    refine ⟨m1, ?_⟩
    intro l' p hp
    rw [← hcap l']
    exact m2 l' p hp

/-- Degree bookkeeping for the first-node branch: creating empty rows
keeps all rows within the caps. -/
theorem ensureFold_deg (id : String) :
    ∀ (ls : List ℕ) (st : HState),
      (∀ l', (akeys (st.adj l')).Nodup) →
      (∀ l' p, p ∈ st.adj l' → p.2.length ≤ st.capAt l') →
      (∀ l', (akeys ((ls.foldl (fun s level =>
        s.setAdj level (ainsert (s.adj level) id [])) st).adj l')).Nodup) ∧
      (∀ l' p, p ∈ (ls.foldl (fun s level =>
        s.setAdj level (ainsert (s.adj level) id [])) st).adj l' →
        p.2.length ≤ st.capAt l') := by
  intro ls
  induction ls with
  | nil => intro st h1 h2; exact ⟨h1, h2⟩
  | cons lv rest ih =>
    intro st h1 h2
    simp only [List.foldl_cons]
    have n1 : ∀ l', (akeys ((st.setAdj lv
        (ainsert (st.adj lv) id [])).adj l')).Nodup := by
      intro l'
      rcases adj_setAdj_cases st lv _ l' with hc | hc
      · rw [hc]
        exact h1 l'
      · rw [hc]
        exact akeys_nodup_ainsert _ _ (h1 lv)
    have d1 : ∀ l' p, p ∈ (st.setAdj lv
        (ainsert (st.adj lv) id [])).adj l' →
        p.2.length ≤ st.capAt l' := by
      intro l' p hp
      by_cases hll : l' = lv
      · subst hll
        rcases adj_setAdj_cases st l' _ l' with hc | hc
        · rw [hc] at hp
          exact h2 l' p hp
        · rw [hc] at hp
          rcases mem_ainsert_bindings hp with h | h
          · exact h2 l' p h
          · rw [h]
            exact Nat.zero_le _
      · rw [adj_setAdj_ne st lv l' _ hll] at hp
        exact h2 l' p hp
    rcases ih _ n1 d1 with ⟨m1, m2⟩
    exact ⟨m1, m2⟩

/-- Degree bookkeeping for one `add_item` whose id has no adjacency
row anywhere (in particular any id that was never removed): all rows
stay within the caps and keys stay distinct. -/
theorem add_item_deg (st : HState) (id : String) (v : List ℝ) (rnd : ℕ)
    (hfresh : ∀ lv, amem (st.adj lv) id = false)
    (hnodup : ∀ lv, (akeys (st.adj lv)).Nodup)
    (hdeg : ∀ lv p, p ∈ st.adj lv → p.2.length ≤ st.capAt lv) :
    (∀ lv, (akeys ((st.add_item id v rnd).adj lv)).Nodup) ∧
    (∀ lv p, p ∈ (st.add_item id v rnd).adj lv →
      p.2.length ≤ st.capAt lv) := by
  unfold HState.add_item
  by_cases hmem : amem st.nodes id = true
  · rw [if_pos hmem]
    exact ⟨hnodup, hdeg⟩
  · rw [if_neg hmem]
    simp only []
    cases hep0 : st.ep with
    | none =>
      simp only []
      rcases ensureFold_deg id (List.range (min rnd st.ml + 1))
        ⟨st.dim, st.M, st.efConstruction, st.ml, ainsert st.nodes id v,
          ainsert st.node_levels id (min rnd st.ml), st.graphs, none⟩
        hnodup hdeg with ⟨m1, m2⟩
      exact ⟨m1, m2⟩
    | some ep0 =>
      simp only []
      rcases levelsFold_deg id v
        ((List.range (min (min rnd st.ml)
          (HState.levelOf ⟨st.dim, st.M, st.efConstruction, st.ml,
            ainsert st.nodes id v,
            ainsert st.node_levels id (min rnd st.ml), st.graphs,
            some ep0⟩ ep0) + 1)).reverse)
        ⟨st.dim, st.M, st.efConstruction, st.ml, ainsert st.nodes id v,
          ainsert st.node_levels id (min rnd st.ml), st.graphs,
          some ep0⟩
        ((downRange (min (HState.levelOf ⟨st.dim, st.M, st.efConstruction,
            st.ml, ainsert st.nodes id v,
            ainsert st.node_levels id (min rnd st.ml), st.graphs,
            some ep0⟩ ep0) st.ml) (min rnd st.ml)).foldl
          (greedyStep ⟨st.dim, st.M, st.efConstruction, st.ml,
            ainsert st.nodes id v,
            ainsert st.node_levels id (min rnd st.ml), st.graphs,
            some ep0⟩ v) ep0)
        (List.nodup_reverse.mpr (List.nodup_range _))
        (fun lv _ => hfresh lv) hnodup hdeg with ⟨m1, m2⟩
      split
      · exact ⟨m1, m2⟩
      · exact ⟨m1, m2⟩

/-- Degree bookkeeping for one discard step of `removeAtLevel`. -/
theorem discard_deg {s : HState} (level : ℕ) (id n : String)
    (h1 : ∀ lv, (akeys (s.adj lv)).Nodup)
    (h2 : ∀ lv p, p ∈ s.adj lv → p.2.length ≤ s.capAt lv) :
    (∀ lv, (akeys ((if amem (s.adj level) n then
      s.setAdj level (ainsert (s.adj level) n
        (setDiscard ((alookup (s.adj level) n).getD []) id))
    else s).adj lv)).Nodup) ∧
    (∀ lv p, p ∈ (if amem (s.adj level) n then
      s.setAdj level (ainsert (s.adj level) n
        (setDiscard ((alookup (s.adj level) n).getD []) id))
    else s).adj lv → p.2.length ≤ s.capAt lv) := by
  by_cases hmem : amem (s.adj level) n = true
  · rw [if_pos hmem]
    constructor
    · intro lv
      rcases adj_setAdj_cases s level _ lv with hc | hc
      · rw [hc]
        exact h1 lv
      · rw [hc]
        exact akeys_nodup_ainsert _ _ (h1 level)
    · intro lv p hp
      by_cases hll : lv = level
      · subst hll
        rcases adj_setAdj_cases s lv _ lv with hc | hc
        · rw [hc] at hp
          exact h2 lv p hp
        · rw [hc] at hp
          rcases mem_ainsert_bindings hp with h | h
          · exact h2 lv p h
          · rw [h]
            simp only []
            cases hl0 : alookup (s.adj lv) n with
            | none => simp [setDiscard]
            | some row =>
              simp only [Option.getD_some]
              exact (length_setDiscard_le _ _).trans
                (h2 lv (n, row) (alookup_mem hl0))
      · rw [adj_setAdj_ne s level lv _ hll] at hp
        exact h2 lv p hp
  · rw [if_neg hmem]
    exact ⟨h1, h2⟩

theorem discardFold_deg (level : ℕ) (id : String) :
    ∀ (nbrs : List String) (st : HState),
      (∀ lv, (akeys (st.adj lv)).Nodup) →
      (∀ lv p, p ∈ st.adj lv → p.2.length ≤ st.capAt lv) →
      (∀ lv, (akeys ((nbrs.foldl (fun s n =>
        if amem (s.adj level) n then
          s.setAdj level (ainsert (s.adj level) n
            (setDiscard ((alookup (s.adj level) n).getD []) id))
        else s) st).adj lv)).Nodup) ∧
      (∀ lv p, p ∈ (nbrs.foldl (fun s n =>
        if amem (s.adj level) n then
          s.setAdj level (ainsert (s.adj level) n
            (setDiscard ((alookup (s.adj level) n).getD []) id))
        else s) st).adj lv → p.2.length ≤ st.capAt lv) := by
  intro nbrs
  induction nbrs with
  | nil => intro st h1 h2; exact ⟨h1, h2⟩
  | cons n rest ih =>
    intro st h1 h2
    simp only [List.foldl_cons]
    rcases discard_deg level id n h1 h2 with ⟨n1, d1⟩
    have hM : (if amem (st.adj level) n then
        st.setAdj level (ainsert (st.adj level) n
          (setDiscard ((alookup (st.adj level) n).getD []) id))
      else st).M = st.M := by
      split <;> rfl
    have hcap := capAt_eq_of_M hM
    rcases ih _ n1 (fun lv p hp => by rw [hcap lv]; exact d1 lv p hp) with
      ⟨m1, m2⟩
    exact ⟨m1, fun lv p hp => by rw [← hcap lv]; exact m2 lv p hp⟩

theorem removeAtLevel_deg (id : String) (st : HState) (level : ℕ)
    (h1 : ∀ lv, (akeys (st.adj lv)).Nodup)
    (h2 : ∀ lv p, p ∈ st.adj lv → p.2.length ≤ st.capAt lv) :
    (∀ lv, (akeys ((removeAtLevel id st level).adj lv)).Nodup) ∧
    (∀ lv p, p ∈ (removeAtLevel id st level).adj lv →
      p.2.length ≤ st.capAt lv) := by
  unfold removeAtLevel
  simp only []
  rcases discardFold_deg level id (st.neighbors level id) st h1 h2 with
    ⟨m1, m2⟩
  split
  · constructor
    · intro lv
      rcases adj_setAdj_cases _ level _ lv with hc | hc
      · rw [hc]
        exact m1 lv
      · rw [hc]
        exact akeys_nodup_aerase _ (m1 level)
    · intro lv p hp
      by_cases hll : lv = level
      · subst hll
        rcases adj_setAdj_cases _ lv _ lv with hc | hc
        · rw [hc] at hp
          exact m2 lv p hp
        · rw [hc] at hp
          exact m2 lv p (mem_aerase_bindings hp)
      · rw [adj_setAdj_ne _ level lv _ hll] at hp
        exact m2 lv p hp
  · exact ⟨m1, m2⟩

theorem removeLevelsFold_deg (id : String) :
    ∀ (ls : List ℕ) (st : HState),
      (∀ lv, (akeys (st.adj lv)).Nodup) →
      (∀ lv p, p ∈ st.adj lv → p.2.length ≤ st.capAt lv) →
      (∀ lv, (akeys ((ls.foldl (fun s lv => removeAtLevel id s lv)
        st).adj lv)).Nodup) ∧
      (∀ lv p, p ∈ (ls.foldl (fun s lv => removeAtLevel id s lv)
        st).adj lv → p.2.length ≤ st.capAt lv) := by
  intro ls
  induction ls with
  | nil => intro st h1 h2; exact ⟨h1, h2⟩
  | cons lv rest ih =>
    intro st h1 h2
    simp only [List.foldl_cons]
    rcases removeAtLevel_deg id st lv h1 h2 with ⟨n1, d1⟩
    have hM : (removeAtLevel id st lv).M = st.M := by
      rcases removeAtLevel_SubInv (P := fun _ => True) id st lv
        (SubInv_true st) with ⟨_, _, _, _, hM', _⟩
      exact hM'
    have hcap := capAt_eq_of_M hM
    rcases ih _ n1 (fun l' p hp => by rw [hcap l']; exact d1 l' p hp) with
      ⟨m1, m2⟩
    exact ⟨m1, fun l' p hp => by rw [← hcap l']; exact m2 l' p hp⟩

/-- What a successful `remove_item` does to the three tables. -/
theorem remove_item_parts (st : HState) (id : String) (st' : HState)
    (h : st.remove_item id = .ok st') :
    st'.nodes = aerase st.nodes id ∧
    st'.node_levels = aerase st.node_levels id ∧
    (∀ lv, st'.adj lv = ((List.range (st.levelOf id + 1)).foldl
      (fun s lv => removeAtLevel id s lv) st).adj lv) := by
  unfold HState.remove_item at h
  by_cases hmem : amem st.nodes id = true
  swap
  · rw [if_pos (by simpa using hmem)] at h
    cases h
  rw [if_neg (by simpa using hmem)] at h
  simp only [] at h
  rcases removeLevelsFold_SubInv (P := fun _ => True) id
    (List.range (st.levelOf id + 1)) st (SubInv_true st) with
    ⟨_, f1, f2, _, _, _⟩
  split at h
  · split at h
    · cases h
      exact ⟨congrArg (fun l => aerase l id) f1,
        congrArg (fun l => aerase l id) f2, fun lv => rfl⟩
    · cases h
      exact ⟨congrArg (fun l => aerase l id) f1,
        congrArg (fun l => aerase l id) f2, fun lv => rfl⟩
  · cases h
    exact ⟨congrArg (fun l => aerase l id) f1,
      congrArg (fun l => aerase l id) f2, fun lv => rfl⟩

theorem remove_item_deg (st : HState) (id : String) (st' : HState)
    (h : st.remove_item id = .ok st')
    (h1 : ∀ lv, (akeys (st.adj lv)).Nodup)
    (h2 : ∀ lv p, p ∈ st.adj lv → p.2.length ≤ st.capAt lv) :
    (∀ lv, (akeys (st'.adj lv)).Nodup) ∧
    (∀ lv p, p ∈ st'.adj lv → p.2.length ≤ st.capAt lv) := by
  rcases remove_item_parts st id st' h with ⟨_, _, ha⟩
  rcases removeLevelsFold_deg id (List.range (st.levelOf id + 1)) st h1 h2
    with ⟨m1, m2⟩
  constructor
  · intro lv
    rw [ha lv]
    exact m1 lv
  · intro lv p hp
    rw [ha lv] at hp
    exact m2 lv p hp

/-! ### The full C4 invariant

`R` over-approximates the set of ids ever removed: every key or value
of the adjacency dicts and every id in the level table or entry point
is either a live node or a removed id, keys are distinct, and every
row respects its level's cap. -/

structure C4Inv (st : HState) (R : List String) : Prop where
  nodup_keys : ∀ lv, (akeys (st.adj lv)).Nodup
  deg : ∀ lv p, p ∈ st.adj lv → p.2.length ≤ st.capAt lv
  keys_cl : ∀ lv x, amem (st.adj lv) x = true →
    amem st.nodes x = true ∨ x ∈ R
  vals_cl : ∀ lv y, adjHasVal (st.adj lv) y →
    amem st.nodes y = true ∨ y ∈ R
  lvl_cl : ∀ x, amem st.node_levels x = true →
    amem st.nodes x = true ∨ x ∈ R
  ep_cl : ∀ e, st.ep = some e → amem st.nodes e = true ∨ e ∈ R

theorem C4Inv.mono_R {st : HState} {R R' : List String}
    (h : C4Inv st R) (hsub : ∀ x ∈ R, x ∈ R') : C4Inv st R' :=
  ⟨h.nodup_keys, h.deg,
    fun lv x hx => (h.keys_cl lv x hx).imp id (hsub x),
    fun lv y hy => (h.vals_cl lv y hy).imp id (hsub y),
    fun x hx => (h.lvl_cl x hx).imp id (hsub x),
    fun e he => (h.ep_cl e he).imp id (hsub e)⟩

theorem add_item_node_levels_fresh (st : HState) (id : String)
    (v : List ℝ) (rnd : ℕ) (hmem : ¬ amem st.nodes id = true) :
    (st.add_item id v rnd).node_levels =
      ainsert st.node_levels id (min rnd st.ml) := by
  unfold HState.add_item
  rw [if_neg hmem]
  simp only []
  cases hep0 : st.ep with
  | none =>
    simp only []
    rcases ensureFold_SubInv (P := fun _ => True) id
      (List.range (min rnd st.ml + 1)) _ (SubInv_true _) trivial with
      ⟨_, _, h3, _, _⟩
    exact h3
  | some ep0 =>
    simp only []
    rcases levelsFold_SubInv (P := fun _ => True) id v
      ((List.range (min (min rnd st.ml)
        (HState.levelOf ⟨st.dim, st.M, st.efConstruction, st.ml,
          ainsert st.nodes id v,
          ainsert st.node_levels id (min rnd st.ml), st.graphs,
          some ep0⟩ ep0) + 1)).reverse) _ _ (SubInv_true _) trivial
      trivial with ⟨_, _, h3, _, _, _⟩
    split
    · exact h3
    · exact h3

/-- An `add_item` whose id is not a previously removed id preserves
the C4 invariant. -/
theorem C4Inv_add (st : HState) (R : List String) (id : String)
    (v : List ℝ) (rnd : ℕ) (hR : id ∉ R) (hinv : C4Inv st R) :
    C4Inv (st.add_item id v rnd) R := by
  have hs : SubInv st
      (fun x => amem (ainsert st.nodes id v) x = true ∨ x ∈ R) := by
    refine ⟨?_, ?_, ?_, ?_, ?_⟩
    · intro x hx
      exact Or.inl ((amem_ainsert _ _ _ _).mpr (Or.inr hx))
    · intro x hx
      rcases hinv.lvl_cl x hx with h | h
      · exact Or.inl ((amem_ainsert _ _ _ _).mpr (Or.inr h))
      · exact Or.inr h
    · intro lv x hx
      rcases hinv.keys_cl lv x hx with h | h
      · exact Or.inl ((amem_ainsert _ _ _ _).mpr (Or.inr h))
      · exact Or.inr h
    · intro lv y hy
      rcases hinv.vals_cl lv y hy with h | h
      · exact Or.inl ((amem_ainsert _ _ _ _).mpr (Or.inr h))
      · exact Or.inr h
    · intro e he
      rcases hinv.ep_cl e he with h | h
      · exact Or.inl ((amem_ainsert _ _ _ _).mpr (Or.inr h))
      · exact Or.inr h
  have hid : amem (ainsert st.nodes id v) id = true ∨ id ∈ R :=
    Or.inl ((amem_ainsert _ _ _ _).mpr (Or.inl rfl))
  rcases add_item_SubInv st id v rnd _ hs hid with ⟨hs', hM, _⟩
  have hnodes := add_item_nodes st id v rnd
  have hdeg : (∀ lv, (akeys ((st.add_item id v rnd).adj lv)).Nodup) ∧
      (∀ lv p, p ∈ (st.add_item id v rnd).adj lv →
        p.2.length ≤ st.capAt lv) := by
    by_cases hmem : amem st.nodes id = true
    · have hg : (st.add_item id v rnd).graphs = st.graphs := by
        unfold HState.add_item
        rw [if_pos hmem]
      have hadj : ∀ lv, (st.add_item id v rnd).adj lv = st.adj lv := by
        intro lv
        unfold HState.adj
        rw [hg]
      constructor
      · intro lv
        rw [hadj lv]
        exact hinv.nodup_keys lv
      · intro lv p hp
        rw [hadj lv] at hp
        exact hinv.deg lv p hp
    · have hfresh : ∀ lv, amem (st.adj lv) id = false := by
        intro lv
        by_cases hx : amem (st.adj lv) id = true
        · rcases hinv.keys_cl lv id hx with h | h
          · exact absurd h hmem
          · exact absurd h hR
        · exact Bool.not_eq_true _ ▸ hx
      exact add_item_deg st id v rnd hfresh hinv.nodup_keys hinv.deg
  have hlvl : ∀ x, amem ((st.add_item id v rnd)).node_levels x = true →
      amem (st.add_item id v rnd).nodes x = true ∨ x ∈ R := by
    intro x hx
    by_cases hmem : amem st.nodes id = true
    · have hnl : (st.add_item id v rnd).node_levels = st.node_levels := by
        unfold HState.add_item
        rw [if_pos hmem]
      rw [hnl] at hx
      rcases hinv.lvl_cl x hx with h | h
      · refine Or.inl ?_
        rw [hnodes]
        exact (amem_ainsert _ _ _ _).mpr (Or.inr h)
      · exact Or.inr h
    · rw [add_item_node_levels_fresh st id v rnd hmem] at hx
      rcases (amem_ainsert _ _ _ _).mp hx with h | h
      · subst h
        refine Or.inl ?_
        rw [hnodes]
        exact (amem_ainsert _ _ _ _).mpr (Or.inl rfl)
      · rcases hinv.lvl_cl x h with h' | h'
        · refine Or.inl ?_
          rw [hnodes]
          exact (amem_ainsert _ _ _ _).mpr (Or.inr h')
        · exact Or.inr h'
  refine ⟨hdeg.1, ?_, ?_, ?_, hlvl, ?_⟩
  · intro lv p hp
    rw [capAt_eq_of_M hM lv]
    exact hdeg.2 lv p hp
  · intro lv x hx
    rcases hs'.keys_P lv x hx with h | h
    · refine Or.inl ?_
      rw [hnodes]
      exact h
    · exact Or.inr h
  · intro lv y hy
    rcases hs'.mem_P lv y hy with h | h
    · refine Or.inl ?_
      rw [hnodes]
      exact h
    · exact Or.inr h
  · intro e he
    rcases hs'.ep_P e he with h | h
    · refine Or.inl ?_
      rw [hnodes]
      exact h
    · exact Or.inr h

/-! ### Scripted operation sequences on an index -/

/-- One scripted call on the index: `add_item` (with the drawn random
level as explicit data) or `remove_item` (whose `KeyError` outcome
leaves the state unchanged). -/
inductive HOp where
  | add (id : String) (v : List ℝ) (rnd : ℕ)
  | remove (id : String)

/-- Apply one call. -/
noncomputable def applyOp (st : HState) : HOp → HState
  | .add id v rnd => st.add_item id v rnd
  | .remove id =>
    match st.remove_item id with
    | .ok st' => st'
    | .error _ => st

/-- Run a sequence of calls from a starting state. -/
noncomputable def runOps (st : HState) (ops : List HOp) : HState :=
  ops.foldl applyOp st

/-- Is this an `add_item` call? -/
def HOp.isAdd : HOp → Bool
  | .add _ _ _ => true
  | .remove _ => false

theorem runOps_cons (st : HState) (op : HOp) (ops : List HOp) :
    runOps st (op :: ops) = runOps (applyOp st op) ops := rfl

theorem getD_replicate_nil :
    ∀ (n i : ℕ),
      (List.replicate n ([] : List (String × List String))).getD i [] = [] := by
  intro n
  induction n with
  | zero =>
    intro i
    rfl
  | succ m ih =>
    intro i
    cases i with
    | zero => rfl
    | succ j =>
      rw [List.replicate_succ]
      exact ih j

theorem init_adj (d M efc ml lv : ℕ) :
    (HState.init d M efc ml).adj lv = [] := by
  unfold HState.init HState.adj
  exact getD_replicate_nil (ml + 1) lv

/-- The empty index satisfies every containment invariant. -/
theorem SubInv_init (d M efc ml : ℕ) (P : String → Prop) :
    SubInv (HState.init d M efc ml) P := by
  refine ⟨?_, ?_, ?_, ?_, ?_⟩
  · intro x hx
    simp [HState.init, amem, alookup] at hx
  · intro x hx
    simp [HState.init, amem, alookup] at hx
  · intro lv x hx
    rw [init_adj] at hx
    simp [amem, alookup] at hx
  · intro lv y hy
    rw [init_adj] at hy
    rcases hy with ⟨p, hp, _⟩
    simp at hp
  · intro e he
    cases he

theorem add_item_nodes_mono {st : HState} {x : String}
    (id : String) (v : List ℝ) (rnd : ℕ)
    (hx : amem st.nodes x = true) :
    amem (st.add_item id v rnd).nodes x = true := by
  rw [add_item_nodes]
  exact (amem_ainsert _ _ _ _).mpr (Or.inr hx)

theorem add_item_nodes_self (st : HState) (id : String) (v : List ℝ)
    (rnd : ℕ) : amem (st.add_item id v rnd).nodes id = true := by
  rw [add_item_nodes]
  exact (amem_ainsert _ _ _ _).mpr (Or.inl rfl)

/-- Along an add-only script the node table only grows. -/
theorem runOps_addOnly_nodes_mono :
    ∀ (ops : List HOp) (st : HState) (x : String),
      (∀ op ∈ ops, op.isAdd = true) → amem st.nodes x = true →
      amem (runOps st ops).nodes x = true := by
  intro ops
  induction ops with
  | nil => intro st x _ hx; exact hx
  | cons op rest ih =>
    intro st x hadds hx
    rw [runOps_cons]
    cases op with
    | add id v rnd =>
      exact ih _ x (fun o ho => hadds o (List.mem_cons_of_mem _ ho))
        (add_item_nodes_mono id v rnd hx)
    | remove id =>
      have := hadds (.remove id) (List.mem_cons_self _ rest)
      simp [HOp.isAdd] at this

/-- Core induction for C3: on an add-only script, the final state's
node table is a containment invariant of the whole run. -/
theorem addOnly_SubInv :
    ∀ (ops : List HOp) (st : HState),
      (∀ op ∈ ops, op.isAdd = true) →
      SubInv st (fun x => amem (runOps st ops).nodes x = true) →
      SubInv (runOps st ops)
        (fun x => amem (runOps st ops).nodes x = true) := by
  intro ops
  induction ops with
  | nil => intro st _ hs; exact hs
  | cons op rest ih =>
    intro st hadds hs
    rw [runOps_cons] at hs ⊢
    cases op with
    | add id v rnd =>
      have htail : ∀ o ∈ rest, o.isAdd = true :=
        fun o ho => hadds o (List.mem_cons_of_mem _ ho)
      have hid : amem (runOps (applyOp st (.add id v rnd)) rest).nodes id
          = true :=
        runOps_addOnly_nodes_mono rest _ id htail
          (add_item_nodes_self st id v rnd)
      exact ih _ htail ((add_item_SubInv st id v rnd _ hs hid).1)
    | remove id =>
      have := hadds (.remove id) (List.mem_cons_self _ rest)
      simp [HOp.isAdd] at this

/-- C3 (amended): after every add-only script run from a fresh index,
every id found in any level's neighbour set is a key of the node
table, so searches never look up a missing vector. -/
theorem hnsw_closure_of_add_only (d M efc ml : ℕ) (ops : List HOp)
    (hadds : ∀ op ∈ ops, op.isAdd = true) (lv : ℕ) (x y : String)
    (hy : y ∈ (runOps (HState.init d M efc ml) ops).neighbors lv x) :
    amem (runOps (HState.init d M efc ml) ops).nodes y = true :=
  (addOnly_SubInv ops (HState.init d M efc ml) hadds
    (SubInv_init d M efc ml _)).nbr_P lv x y hy

/-- C3 witness: on the two-node add-only script of the C1 trace,
`b ∈ neighbors_0(a)` and indeed `b` is a stored node. -/
theorem hnsw_closure_of_add_only_wit :
    amem (runOps (HState.init 2 16 10 0)
      [.add "a" vA 0, .add "b" vM 0]).nodes "b" = true := by
  refine hnsw_closure_of_add_only 2 16 10 0
    [.add "a" vA 0, .add "b" vM 0] ?_ 0 "a" "b" ?_
  · intro op hop
    rcases List.mem_cons.mp hop with h | h
    · rw [h]; rfl
    · rcases List.mem_cons.mp h with h' | h'
      · rw [h']; rfl
      · simp at h'
  · show "b" ∈ hC1.neighbors 0 "a"
    rw [hC1_eq]
    simp [HState.neighbors, HState.adj, alookup]

/-- A `remove_item` call (successful or not) preserves the C4
invariant once its id joins the removed set. -/
theorem C4Inv_remove (st : HState) (R : List String) (r : String)
    (hinv : C4Inv st R) : C4Inv (applyOp st (.remove r)) (R ++ [r]) := by
  unfold applyOp
  simp only []
  cases hrem : st.remove_item r with
  | error e =>
    simp only []
    exact hinv.mono_R (fun x hx => List.mem_append_left _ hx)
  | ok st' =>
    simp only []
    rcases remove_item_parts st r st' hrem with ⟨hn, _, _⟩
    have hs : SubInv st (fun x => amem st.nodes x = true ∨ x ∈ R) :=
      ⟨fun x hx => Or.inl hx, hinv.lvl_cl, hinv.keys_cl, hinv.vals_cl,
        hinv.ep_cl⟩
    rcases remove_item_SubInv st r st' hs hrem with ⟨hs', hM, _⟩
    rcases remove_item_deg st r st' hrem hinv.nodup_keys hinv.deg with
      ⟨m1, m2⟩
    have hconv : ∀ x, (amem st.nodes x = true ∨ x ∈ R) →
        amem st'.nodes x = true ∨ x ∈ R ++ [r] := by
      intro x hx
      rcases hx with h | h
      · by_cases hxr : x = r
        · refine Or.inr (List.mem_append_right _ ?_)
          rw [hxr]
          exact List.mem_singleton_self r
        · refine Or.inl ?_
          rw [hn, amem_aerase_ne _ _ _ hxr]
          exact h
      · exact Or.inr (List.mem_append_left _ h)
    exact ⟨m1,
      fun lv p hp => by rw [capAt_eq_of_M hM lv]; exact m2 lv p hp,
      fun lv x hx => hconv x (hs'.keys_P lv x hx),
      fun lv y hy => hconv y (hs'.mem_P lv y hy),
      fun x hx => hconv x (hs'.lvl_P x hx),
      fun e he => hconv e (hs'.ep_P e he)⟩

/-- The ids of the `remove_item` calls of a script. -/
def remIds : List HOp → List String
  | [] => []
  | .add _ _ _ :: rest => remIds rest
  | .remove r :: rest => r :: remIds rest

/-- No removed id is later re-added. -/
def noReAdd : List HOp → Prop
  | [] => True
  | .add _ _ _ :: rest => noReAdd rest
  | .remove r :: rest => (∀ v rnd, HOp.add r v rnd ∉ rest) ∧ noReAdd rest

/-- Master induction for C4: running a no-re-add script preserves the
C4 invariant, accumulating the removed ids. -/
theorem noReAdd_C4Inv :
    ∀ (ops : List HOp) (st : HState) (R : List String),
      C4Inv st R → noReAdd ops →
      (∀ id v rnd, HOp.add id v rnd ∈ ops → id ∉ R) →
      C4Inv (runOps st ops) (R ++ remIds ops) := by
  intro ops
  induction ops with
  | nil =>
    intro st R hinv _ _
    simp only [remIds, List.append_nil]
    exact hinv
  | cons op rest ih =>
    intro st R hinv hnra hfresh
    rw [runOps_cons]
    cases op with
    | add id v rnd =>
      have hidR : id ∉ R := hfresh id v rnd (List.mem_cons_self _ _)
      have h1 : C4Inv (applyOp st (.add id v rnd)) R :=
        C4Inv_add st R id v rnd hidR hinv
      have h2 := ih (applyOp st (.add id v rnd)) R h1 hnra
        (fun i vv rr hi => hfresh i vv rr (List.mem_cons_of_mem _ hi))
      simp only [remIds]
      exact h2
    | remove r =>
      rcases hnra with ⟨hnoadd, hnrarest⟩
      have h1 : C4Inv (applyOp st (.remove r)) (R ++ [r]) :=
        C4Inv_remove st R r hinv
      have hfr : ∀ id v rnd, HOp.add id v rnd ∈ rest →
          id ∉ R ++ [r] := by
        intro i vv rr hi hiR
        rcases List.mem_append.mp hiR with h | h
        · exact hfresh i vv rr (List.mem_cons_of_mem _ hi) h
        · have h' : i = r := List.mem_singleton.mp h
          exact hnoadd vv rr (h' ▸ hi)
      have h2 := ih (applyOp st (.remove r)) (R ++ [r]) h1 hnrarest hfr
      have hre : R ++ remIds (.remove r :: rest) =
          (R ++ [r]) ++ remIds rest := by
        simp [remIds]
      rw [hre]
      exact h2

/-- The fresh index satisfies the C4 invariant. -/
theorem C4Inv_init (d M efc ml : ℕ) :
    C4Inv (HState.init d M efc ml) [] := by
  refine ⟨?_, ?_, ?_, ?_, ?_, ?_⟩
  · intro lv
    rw [init_adj]
    exact List.nodup_nil
  · intro lv p hp
    rw [init_adj] at hp
    simp at hp
  · intro lv x hx
    rw [init_adj] at hx
    simp [amem, alookup] at hx
  · intro lv y hy
    rw [init_adj] at hy
    rcases hy with ⟨p, hp, _⟩
    simp at hp
  · intro x hx
    simp [HState.init, amem, alookup] at hx
  · intro e he
    cases he

theorem applyOp_M (st : HState) (op : HOp) : (applyOp st op).M = st.M := by
  cases op with
  | add id v rnd =>
    exact (add_item_SubInv st id v rnd _ (SubInv_true st) trivial).2.1
  | remove r =>
    unfold applyOp
    simp only []
    cases hrem : st.remove_item r with
    | error e => rfl
    | ok st' =>
      exact (remove_item_SubInv st r st' (SubInv_true st) hrem).2.1

theorem runOps_M : ∀ (ops : List HOp) (st : HState),
    (runOps st ops).M = st.M := by
  intro ops
  induction ops with
  | nil => intro st; rfl
  | cons op rest ih =>
    intro st
    rw [runOps_cons]
    exact (ih _).trans (applyOp_M st op)

/-- C4 (amended): after every script of `add_item` and `remove_item`
calls in which no removed id is later re-added, every node of the
index built with parameter `M` has at most `2·M` neighbours at level 0
and at most `M` neighbours at every level `l ≥ 1`. -/
theorem hnsw_degree_caps_of_no_readd (d M efc ml : ℕ) (ops : List HOp)
    (hnra : noReAdd ops) (x : String) :
    ((runOps (HState.init d M efc ml) ops).neighbors 0 x).length
      ≤ 2 * M ∧
    ∀ lv, 1 ≤ lv →
      ((runOps (HState.init d M efc ml) ops).neighbors lv x).length
        ≤ M := by
  have hrun := noReAdd_C4Inv ops (HState.init d M efc ml) []
    (C4Inv_init d M efc ml) hnra (fun i _ _ _ hi => List.not_mem_nil i hi)
  have hM : (runOps (HState.init d M efc ml) ops).M = M :=
    runOps_M ops (HState.init d M efc ml)
  have hnb : ∀ lv,
      ((runOps (HState.init d M efc ml) ops).neighbors lv x).length ≤
        (runOps (HState.init d M efc ml) ops).capAt lv := by
    intro lv
    unfold HState.neighbors
    cases hl0 : alookup ((runOps (HState.init d M efc ml) ops).adj lv) x
      with
    | none => simp
    | some row =>
      simp only [Option.getD_some]
      exact hrun.deg lv (x, row) (alookup_mem hl0)
  constructor
  · have h0 := hnb 0
    have hc : (runOps (HState.init d M efc ml) ops).capAt 0 = 2 * M := by
      unfold HState.capAt
      rw [if_pos rfl, hM]
    rwa [hc] at h0
  · intro lv hlv
    have h0 := hnb lv
    have hc : (runOps (HState.init d M efc ml) ops).capAt lv = M := by
      unfold HState.capAt
      rw [if_neg (by omega), hM]
    rwa [hc] at h0

/-- C4 witness: the two-add script respects the caps; in particular
node `a` ends with at most `2·16` neighbours at level 0. -/
theorem hnsw_degree_caps_of_no_readd_wit :
    ((runOps (HState.init 2 16 10 0)
      [.add "a" vA 0, .add "b" vM 0]).neighbors 0 "a").length ≤ 2 * 16 :=
  (hnsw_degree_caps_of_no_readd 2 16 10 0
    [.add "a" vA 0, .add "b" vM 0] trivial "a").1

/-! ### Bidirectionality under scripts with few adds (claim C2)

With at most `M+1` `add_item` calls the degree caps are never crossed,
so `connect` never prunes and every edge stays installed in both
directions.  The per-level graph invariant `GOk` carries: distinct
keys, duplicate-free rows, keys within the live node set, symmetry of
the edge relation, a length bound for self-loop rows (they miss at
least one live node, counted through `used`, the adds performed so
far), and a level bound for keys (a node only has rows up to its drawn
level, which lets `remove_item` clean every row of the removed id). -/

theorem length_ainsert_not_mem {β : Type} (l : List (String × β))
    (k : String) (v : β) (h : amem l k = false) :
    (ainsert l k v).length = l.length + 1 := by
  induction l with
  | nil => rfl
  | cons p rest ih =>
    simp only [amem, alookup] at h
    by_cases hk : p.1 = k
    · rw [if_pos hk] at h
      simp at h
    · rw [if_neg hk] at h
      simp only [ainsert]
      rw [if_neg hk]
      simp only [List.length_cons]
      rw [ih h]

theorem length_aerase_le {β : Type} (l : List (String × β)) (k : String) :
    (aerase l k).length ≤ l.length :=
  (aerase_sublist l k).length_le

theorem alookup_aerase_self {β : Type} {l : List (String × β)}
    {k : String} (hn : (akeys l).Nodup) : alookup (aerase l k) k = none := by
  induction l with
  | nil => rfl
  | cons p rest ih =>
    simp only [akeys, List.map_cons, List.nodup_cons] at hn
    rcases hn with ⟨hp1, hrest⟩
    simp only [aerase]
    by_cases hk : p.1 = k
    · rw [if_pos hk]
      cases hl : alookup rest k with
      | none => rfl
      | some v =>
        exfalso
        apply hp1
        rw [hk]
        exact List.mem_map_of_mem Prod.fst (alookup_mem hl)
    · rw [if_neg hk]
      simp only [alookup]
      rw [if_neg hk]
      exact ih hrest

theorem mem_akeys_of_amem {β : Type} {l : List (String × β)} {k : String}
    (h : amem l k = true) : k ∈ akeys l := by
  unfold amem at h
  cases hl : alookup l k with
  | none => rw [hl] at h; simp at h
  | some v => exact List.mem_map_of_mem Prod.fst (alookup_mem hl)

theorem amem_of_row_mem {g : List (String × List String)} {x y : String}
    (h : y ∈ (alookup g x).getD []) : amem g x = true := by
  cases hl : alookup g x with
  | none => rw [hl] at h; simp at h
  | some row => exact amem_of_alookup_eq_some hl

theorem length_setAdd_not_mem {s : List String} {x : String}
    (h : x ∉ s) : (setAdd s x).length = s.length + 1 := by
  unfold setAdd
  rw [if_neg h]
  simp

theorem row_plus_one {row : List String} {ns : List (String × List ℝ)}
    {a : String} (hnd : row.Nodup)
    (hsub : ∀ x ∈ row, amem ns x = true)
    (ha : amem ns a = true) (hna : a ∉ row) :
    row.length + 1 ≤ ns.length := by
  have h := nodup_subset_length
    (show (a :: row).Nodup from List.nodup_cons.mpr ⟨hna, hnd⟩)
    (show a :: row ⊆ akeys ns by
      intro x hx
      rcases List.mem_cons.mp hx with h | h
      · exact h ▸ mem_akeys_of_amem ha
      · exact mem_akeys_of_amem (hsub x h))
  simpa [akeys] using h

theorem row_plus_two {row : List String} {ns : List (String × List ℝ)}
    {a b : String} (hnd : row.Nodup)
    (hsub : ∀ x ∈ row, amem ns x = true)
    (ha : amem ns a = true) (hb : amem ns b = true)
    (hna : a ∉ row) (hnb : b ∉ row) (hab : a ≠ b) :
    row.length + 2 ≤ ns.length := by
  have h := nodup_subset_length
    (show (a :: b :: row).Nodup from List.nodup_cons.mpr ⟨by
      intro hmem
      rcases List.mem_cons.mp hmem with h | h
      · exact hab h
      · exact hna h, List.nodup_cons.mpr ⟨hnb, hnd⟩⟩)
    (show a :: b :: row ⊆ akeys ns by
      intro x hx
      rcases List.mem_cons.mp hx with h | h
      · exact h ▸ mem_akeys_of_amem ha
      · rcases List.mem_cons.mp h with h' | h'
        · exact h' ▸ mem_akeys_of_amem hb
        · exact mem_akeys_of_amem (hsub x h'))
  simpa [akeys] using h

theorem searchLoop_nil (st : HState) (q : List ℝ) (level ef : ℕ) :
    ∀ (fuel : ℕ) (results : List (ℝ × String)) (visited : List String),
      searchLoop st q level ef fuel [] results visited = results := by
  intro fuel results visited
  cases fuel with
  | zero => rfl
  | succ n => rfl

/-- `_search_layer` from an entry point with no neighbour row returns
just the scored entry point. -/
theorem searchLayer_isolated (st : HState) (q : List ℝ) (ep : String)
    (ef : ℕ) (lv : ℕ) (h : st.neighbors lv ep = []) :
    searchLayer st q ep ef lv = [(cosDistance q (st.vecOf ep), ep)] := by
  unfold searchLayer
  simp only []
  rw [searchLoop.eq_def]
  simp only [headFurthest, h, List.foldl_nil]
  rw [if_neg (by
    intro hand
    rcases hand with ⟨h1, _⟩
    unfold gtFurthest at h1
    simp at h1)]
  rw [searchLoop_nil]
  simp [List.insertionSort]

theorem insertAtLevel_adj_ne (id : String) (v : List ℝ) (st : HState)
    (ep : String) (lv l' : ℕ) (h : l' ≠ lv) :
    (insertAtLevel id v (st, ep) lv).1.adj l' = st.adj l' := by
  unfold insertAtLevel
  simp only []
  rw [connectFold_adj_ne id lv _ _ l' h]
  split
  · rfl
  · exact adj_setAdj_ne st lv l' _ h

theorem connectG_nodup (nodes : List (String × List ℝ)) (cap : ℕ)
    (id nId : String) (g : List (String × List String))
    (hn : (akeys g).Nodup) :
    (akeys (connectG nodes cap id nId g)).Nodup := by
  unfold connectG
  simp only []
  set g1 := ainsert g id (setAdd ((alookup g id).getD []) nId) with hg1
  have h1 : (akeys g1).Nodup := by
    rw [hg1]
    exact akeys_nodup_ainsert _ _ hn
  set g2 := if amem g1 nId = true then g1 else ainsert g1 nId [] with hg2
  have h2 : (akeys g2).Nodup := by
    rw [hg2]
    split
    · exact h1
    · exact akeys_nodup_ainsert _ _ h1
  set g3 := ainsert g2 nId (setAdd ((alookup g2 nId).getD []) id) with hg3
  have h3 : (akeys g3).Nodup := by
    rw [hg3]
    exact akeys_nodup_ainsert _ _ h2
  split
  · exact akeys_nodup_ainsert _ _ h3
  · exact h3

/-- Lookup characterization of one un-pruned `connect` update with
`nId ≠ id`: the two rows gain each other, nothing else changes. -/
theorem connectG_lookup (nodes : List (String × List ℝ)) (cap : ℕ)
    (id nId : String) (g : List (String × List String))
    (hnid : nId ≠ id)
    (hbound : (setAdd ((alookup g nId).getD []) id).length ≤ cap) :
    ∀ z, alookup (connectG nodes cap id nId g) z =
      if z = id then some (setAdd ((alookup g id).getD []) nId)
      else if z = nId then some (setAdd ((alookup g nId).getD []) id)
      else alookup g z := by
  intro z
  unfold connectG
  simp only []
  set g1 := ainsert g id (setAdd ((alookup g id).getD []) nId) with hg1
  have hg1nId : alookup g1 nId = alookup g nId := by
    rw [hg1, alookup_ainsert]
    rw [if_neg (fun he => hnid he.symm)]
  have hg1z : ∀ w, w ≠ id → alookup g1 w = alookup g w := by
    intro w hw
    rw [hg1, alookup_ainsert]
    rw [if_neg (fun he => hw he.symm)]
  set g2 := if amem g1 nId = true then g1 else ainsert g1 nId [] with hg2
  have hg2nId : alookup g2 nId = some ((alookup g nId).getD []) := by
    rw [hg2]
    split
    · rename_i hmem
      unfold amem at hmem
      rw [hg1nId] at hmem ⊢
      cases hl : alookup g nId with
      | none => rw [hl] at hmem; simp at hmem
      | some row => rfl
    · rename_i hmem
      unfold amem at hmem
      rw [hg1nId] at hmem
      rw [alookup_ainsert, if_pos rfl]
      cases hl : alookup g nId with
      | none => rfl
      | some row => rw [hl] at hmem; simp at hmem
  have hg2z : ∀ w, w ≠ nId → alookup g2 w = alookup g1 w := by
    intro w hw
    rw [hg2]
    split
    · rfl
    · rw [alookup_ainsert, if_neg (fun he => hw he.symm)]
  rw [hg2nId]
  simp only [Option.getD_some]
  set g3 := ainsert g2 nId (setAdd ((alookup g nId).getD []) id) with hg3
  have hg3nId : alookup g3 nId =
      some (setAdd ((alookup g nId).getD []) id) := by
    rw [hg3]
    exact alookup_ainsert_self _ _ _
  rw [hg3nId]
  simp only [Option.getD_some]
  rw [if_neg (by omega)]
  rw [hg3, alookup_ainsert]
  by_cases hz : z = id
  · rw [if_pos hz]
    rw [if_neg (by rw [hz]; exact hnid)]
    rw [hg2z z (by rw [hz]; exact fun he => hnid he.symm)]
    rw [hg1, alookup_ainsert, if_pos hz.symm]
  · rw [if_neg hz]
    by_cases hzn : z = nId
    · rw [if_pos hzn.symm, if_pos hzn]
    · rw [if_neg (fun he => hzn he.symm), if_neg hzn]
      rw [hg2z z hzn, hg1z z hz]

/-- Lookup characterization of the degenerate self-`connect` that the
`ep = id` levels perform on the new node's empty row. -/
theorem connectG_self_lookup (nodes : List (String × List ℝ)) (cap : ℕ)
    (id : String) (g : List (String × List String))
    (hrow : alookup g id = some []) (hcap : 1 ≤ cap) :
    ∀ z, alookup (connectG nodes cap id id g) z =
      if z = id then some [id] else alookup g z := by
  intro z
  unfold connectG
  simp only [hrow, Option.getD_some]
  have hsa : setAdd ([] : List String) id = [id] := rfl
  rw [hsa]
  have hmem : amem (ainsert g id [id]) id = true :=
    amem_of_alookup_eq_some (alookup_ainsert_self g id [id])
  rw [if_pos hmem]
  rw [alookup_ainsert_self g id [id]]
  simp only [Option.getD_some]
  have hsa2 : setAdd [id] id = [id] :=
    setAdd_of_mem (List.mem_singleton_self id)
  rw [hsa2]
  rw [alookup_ainsert_self (ainsert g id [id]) id [id]]
  simp only [Option.getD_some]
  rw [if_neg (by
    simp only [List.length_singleton]
    omega)]
  rw [alookup_ainsert]
  by_cases hz : z = id
  · rw [if_pos hz.symm, if_pos hz]
  · rw [if_neg (fun he => hz he.symm), if_neg hz]
    rw [alookup_ainsert, if_neg (fun he => hz he.symm)]

/-- The per-level graph invariant for claim C2. -/
structure GOk (g : List (String × List String)) (pN : String → Prop)
    (L : String → ℕ) (lv u : ℕ) : Prop where
  keysnd : (akeys g).Nodup
  rownd : ∀ p ∈ g, p.2.Nodup
  keysp : ∀ x, amem g x = true → pN x
  gbidir : ∀ x y, y ∈ (alookup g x).getD [] → x ∈ (alookup g y).getD []
  gswit : ∀ p ∈ g, p.1 ∈ p.2 → p.2.length + 1 ≤ u
  keyslvl : ∀ x, amem g x = true → lv ≤ L x

theorem GOk.valsp {g : List (String × List String)} {pN : String → Prop}
    {L : String → ℕ} {lv u : ℕ} (h : GOk g pN L lv u) :
    ∀ x y, y ∈ (alookup g x).getD [] → pN y :=
  fun x y hy => h.keysp y (amem_of_row_mem (h.gbidir x y hy))

theorem GOk.valslvl {g : List (String × List String)} {pN : String → Prop}
    {L : String → ℕ} {lv u : ℕ} (h : GOk g pN L lv u) :
    ∀ x y, y ∈ (alookup g x).getD [] → lv ≤ L y :=
  fun x y hy => h.keyslvl y (amem_of_row_mem (h.gbidir x y hy))

theorem GOk.rownd_lookup {g : List (String × List String)}
    {pN : String → Prop} {L : String → ℕ} {lv u : ℕ}
    (h : GOk g pN L lv u) (x : String) :
    ((alookup g x).getD []).Nodup := by
  cases hl : alookup g x with
  | none => simp
  | some row =>
    simp only [Option.getD_some]
    exact h.rownd (x, row) (alookup_mem hl)

theorem GOk.swit_lookup {g : List (String × List String)}
    {pN : String → Prop} {L : String → ℕ} {lv u : ℕ}
    (h : GOk g pN L lv u) (x : String)
    (hx : x ∈ (alookup g x).getD []) :
    ((alookup g x).getD []).length + 1 ≤ u := by
  cases hl : alookup g x with
  | none => rw [hl] at hx; simp at hx
  | some row =>
    rw [hl] at hx
    simp only [Option.getD_some]
    exact h.gswit (x, row) (alookup_mem hl) hx

theorem GOk.mono_u {g : List (String × List String)} {pN : String → Prop}
    {L : String → ℕ} {lv u u' : ℕ} (hu : u ≤ u') (h : GOk g pN L lv u) :
    GOk g pN L lv u' :=
  ⟨h.keysnd, h.rownd, h.keysp, h.gbidir,
    fun p hp hself => (h.gswit p hp hself).trans hu, h.keyslvl⟩

/-- Rebuilding the invariant after one bidirectional two-row update. -/
theorem GOk_update_two {g g' : List (String × List String)}
    {pN : String → Prop} {L : String → ℕ} {lv u : ℕ} {id n : String}
    (hg : GOk g pN L lv (u + 1))
    (hnd' : (akeys g').Nodup)
    (hLk : ∀ z, alookup g' z =
      if z = id then some (setAdd ((alookup g id).getD []) n)
      else if z = n then some (setAdd ((alookup g n).getD []) id)
      else alookup g z)
    (hnid : n ≠ id) (hpid : pN id) (hpn : pN n)
    (hlid : lv ≤ L id) (hln : lv ≤ L n)
    (hrow_id : id ∉ (alookup g id).getD [])
    (hswitn : n ∈ (alookup g n).getD [] → id ∉ (alookup g n).getD [] →
      ((alookup g n).getD []).length + 1 ≤ u) :
    GOk g' pN L lv (u + 1) := by
  have hrow' : ∀ p ∈ g', alookup g' p.1 = some p.2 :=
    fun p hp => alookup_eq_of_mem_nodup hnd' hp
  have hamem' : ∀ z, amem g' z = true →
      z = id ∨ z = n ∨ amem g z = true := by
    intro z hz
    unfold amem at hz
    rw [hLk z] at hz
    by_cases h1 : z = id
    · exact Or.inl h1
    · by_cases h2 : z = n
      · exact Or.inr (Or.inl h2)
      · rw [if_neg h1, if_neg h2] at hz
        exact Or.inr (Or.inr hz)
  refine ⟨hnd', ?_, ?_, ?_, ?_, ?_⟩
  · -- rows stay duplicate-free
    intro p hp
    have hl := hrow' p hp
    rw [hLk p.1] at hl
    by_cases h1 : p.1 = id
    · rw [if_pos h1] at hl
      have : p.2 = setAdd ((alookup g id).getD []) n :=
        (Option.some.inj hl).symm
      rw [this]
      exact setAdd_nodup (hg.rownd_lookup id) n
    · rw [if_neg h1] at hl
      by_cases h2 : p.1 = n
      · rw [if_pos h2] at hl
        have : p.2 = setAdd ((alookup g n).getD []) id :=
          (Option.some.inj hl).symm
        rw [this]
        exact setAdd_nodup (hg.rownd_lookup n) id
      · rw [if_neg h2] at hl
        exact hg.rownd (p.1, p.2) (alookup_mem hl)
  · intro x hx
    rcases hamem' x hx with h | h | h
    · exact h ▸ hpid
    · exact h ▸ hpn
    · exact hg.keysp x h
  · -- symmetry of the edge relation
    intro x y hy
    rw [hLk x] at hy
    rw [hLk y]
    by_cases hx1 : x = id
    · rw [if_pos hx1] at hy
      simp only [Option.getD_some] at hy
      rcases mem_setAdd.mp hy with h | h
      · -- y = n : the reverse edge was just installed
        rw [if_neg (by rw [h]; exact hnid), if_pos h]
        simp only [Option.getD_some]
        exact mem_setAdd.mpr (Or.inl hx1)
      · -- y ∈ the old row of id
        have hyid : y ≠ id := fun he => hrow_id (he ▸ h)
        have hold : x ∈ (alookup g y).getD [] := hx1 ▸ hg.gbidir id y h
        rw [if_neg hyid]
        by_cases hy2 : y = n
        · rw [if_pos hy2]
          simp only [Option.getD_some]
          exact mem_setAdd.mpr (Or.inr (hy2 ▸ hold))
        · rw [if_neg hy2]
          exact hold
    · rw [if_neg hx1] at hy
      by_cases hx2 : x = n
      · rw [if_pos hx2] at hy
        simp only [Option.getD_some] at hy
        rcases mem_setAdd.mp hy with h | h
        · rw [if_pos h]
          simp only [Option.getD_some]
          exact mem_setAdd.mpr (Or.inl hx2)
        · have hold : x ∈ (alookup g y).getD [] := hx2 ▸ hg.gbidir n y h
          by_cases hy1 : y = id
          · rw [if_pos hy1]
            simp only [Option.getD_some]
            exact mem_setAdd.mpr (Or.inr (hy1 ▸ hold))
          · rw [if_neg hy1]
            by_cases hy2 : y = n
            · rw [if_pos hy2]
              simp only [Option.getD_some]
              exact mem_setAdd.mpr (Or.inr (hy2 ▸ hold))
            · rw [if_neg hy2]
              exact hold
      · rw [if_neg hx2] at hy
        have hold : x ∈ (alookup g y).getD [] := hg.gbidir x y hy
        by_cases hy1 : y = id
        · rw [if_pos hy1]
          simp only [Option.getD_some]
          exact mem_setAdd.mpr (Or.inr (hy1 ▸ hold))
        · rw [if_neg hy1]
          by_cases hy2 : y = n
          · rw [if_pos hy2]
            simp only [Option.getD_some]
            exact mem_setAdd.mpr (Or.inr (hy2 ▸ hold))
          · rw [if_neg hy2]
            exact hold
  · -- self-loop rows stay short
    intro p hp hself
    have hl := hrow' p hp
    rw [hLk p.1] at hl
    by_cases h1 : p.1 = id
    · rw [if_pos h1] at hl
      have hp2 : p.2 = setAdd ((alookup g id).getD []) n :=
        (Option.some.inj hl).symm
      exfalso
      rw [hp2] at hself
      rcases mem_setAdd.mp (h1 ▸ hself) with h | h
      · exact hnid h.symm
      · exact hrow_id h
    · rw [if_neg h1] at hl
      by_cases h2 : p.1 = n
      · rw [if_pos h2] at hl
        have hp2 : p.2 = setAdd ((alookup g n).getD []) id :=
          (Option.some.inj hl).symm
        rw [hp2] at hself ⊢
        have hn_self : n ∈ (alookup g n).getD [] := by
          rcases mem_setAdd.mp (h2 ▸ hself) with h | h
          · exact absurd h hnid
          · exact h
        by_cases hidrow : id ∈ (alookup g n).getD []
        · rw [setAdd_of_mem hidrow]
          exact hg.swit_lookup n hn_self
        · rw [length_setAdd_not_mem hidrow]
          have := hswitn hn_self hidrow
          omega
      · rw [if_neg h2] at hl
        exact hg.gswit (p.1, p.2) (alookup_mem hl) hself
  · intro x hx
    rcases hamem' x hx with h | h | h
    · exact h ▸ hlid
    · exact h ▸ hln
    · exact hg.keyslvl x h

/-- The `connect` fold of one insertion level keeps the per-level
invariant: with the side bounds no prune ever fires and every edge is
installed both ways. -/
theorem connectFold_W2 (id : String) (lv : ℕ) (pN : String → Prop)
    (L : String → ℕ) (u : ℕ) :
    ∀ (nbrs : List String) (st : HState),
      lv < st.graphs.length →
      GOk (st.adj lv) pN L lv (u + 1) →
      id ∉ (alookup (st.adj lv) id).getD [] →
      pN id → lv ≤ L id →
      (∀ n ∈ nbrs, pN n ∧ lv ≤ L n ∧ n ≠ id) →
      (∀ n ∈ nbrs,
        (id ∉ (alookup (st.adj lv) n).getD [] ∧
          ((alookup (st.adj lv) n).getD []).length + 1 ≤ st.capAt lv ∧
          (n ∈ (alookup (st.adj lv) n).getD [] →
            ((alookup (st.adj lv) n).getD []).length + 1 ≤ u)) ∨
        (id ∈ (alookup (st.adj lv) n).getD [] ∧
          ((alookup (st.adj lv) n).getD []).length ≤ st.capAt lv)) →
      GOk ((nbrs.foldl (connect id lv) st).adj lv) pN L lv (u + 1) := by
  intro nbrs
  induction nbrs with
  | nil =>
    intro st _ hg _ _ _ _ _
    exact hg
  | cons n rest ih =>
    intro st hL hg hrow_id hpid hlid hns hside
    simp only [List.foldl_cons]
    rcases hns n (List.mem_cons_self n rest) with ⟨hpn, hln, hnid⟩
    rcases hside n (List.mem_cons_self n rest) with hcase | hcase
    all_goals {
      first
      | (rcases hcase with ⟨hfr, hbnd, hsw⟩
         have hbound : (setAdd ((alookup (st.adj lv) n).getD [])
             id).length ≤ st.capAt lv := by
           rw [length_setAdd_not_mem hfr]
           omega)
      | (rcases hcase with ⟨hfr, hbnd⟩
         have hbound : (setAdd ((alookup (st.adj lv) n).getD [])
             id).length ≤ st.capAt lv := by
           rw [setAdd_of_mem hfr]
           omega)
      have hadj := connect_adj_self st id lv n hL
      have hLk : ∀ z, alookup ((connect id lv st n).adj lv) z =
          if z = id then some (setAdd ((alookup (st.adj lv) id).getD []) n)
          else if z = n then
            some (setAdd ((alookup (st.adj lv) n).getD []) id)
          else alookup (st.adj lv) z := by
        intro z
        rw [hadj]
        exact connectG_lookup st.nodes (st.capAt lv) id n (st.adj lv)
          hnid hbound z
      have hnd' : (akeys ((connect id lv st n).adj lv)).Nodup := by
        rw [hadj]
        exact connectG_nodup _ _ _ _ _ hg.keysnd
      have hg' : GOk ((connect id lv st n).adj lv) pN L lv (u + 1) := by
        refine GOk_update_two hg hnd' hLk hnid hpid hpn hlid hln hrow_id ?_
        intro hself hnfr
        rcases hside n (List.mem_cons_self n rest) with h | h
        · exact h.2.2 hself
        · exact absurd h.1 hnfr
      have hL' : lv < (connect id lv st n).graphs.length := by
        rw [connect_graphs_length]
        exact hL
      have hcap' : (connect id lv st n).capAt lv = st.capAt lv :=
        capAt_eq_of_M (connect_M st id lv n) lv
      have hrow_id' : id ∉
          (alookup ((connect id lv st n).adj lv) id).getD [] := by
        rw [hLk id, if_pos rfl]
        simp only [Option.getD_some]
        intro hmem
        rcases mem_setAdd.mp hmem with h | h
        · exact hnid h.symm
        · exact hrow_id h
      refine ih (connect id lv st n) hL' hg' hrow_id' hpid hlid
        (fun m hm => hns m (List.mem_cons_of_mem n hm)) ?_
      intro m hm
      rcases hns m (List.mem_cons_of_mem n hm) with ⟨_, _, hmid⟩
      by_cases hmn : m = n
      · -- the row of `n` now contains `id` and respects the cap
        right
        rw [hmn, hLk n, if_neg hnid, if_pos rfl]
        simp only [Option.getD_some]
        constructor
        · exact mem_setAdd.mpr (Or.inl rfl)
        · rw [hcap']
          exact hbound
      · rw [hLk m, if_neg hmid, if_neg hmn, hcap']
        exact hside m (List.mem_cons_of_mem n hm)
    }

theorem capAt_ge_M (st : HState) (lv : ℕ) : st.M ≤ st.capAt lv := by
  unfold HState.capAt
  split
  · omega
  · exact Nat.le_refl _

/-- Rebuilding the invariant after the degenerate self-`connect`. -/
theorem GOk_self_update {g g' : List (String × List String)}
    {pN : String → Prop} {L : String → ℕ} {lv u : ℕ} {id : String}
    (hg : GOk g pN L lv (u + 1))
    (hnd' : (akeys g').Nodup)
    (hLk : ∀ z, alookup g' z = if z = id then some [id] else alookup g z)
    (hpid : pN id) (hlid : lv ≤ L id) (hu1 : 1 ≤ u)
    (hidvals : ∀ x, id ∉ (alookup g x).getD []) :
    GOk g' pN L lv (u + 1) := by
  have hrow' : ∀ p ∈ g', alookup g' p.1 = some p.2 :=
    fun p hp => alookup_eq_of_mem_nodup hnd' hp
  refine ⟨hnd', ?_, ?_, ?_, ?_, ?_⟩
  · intro p hp
    have hl := hrow' p hp
    rw [hLk p.1] at hl
    by_cases h1 : p.1 = id
    · rw [if_pos h1] at hl
      have : p.2 = [id] := (Option.some.inj hl).symm
      rw [this]
      exact List.nodup_singleton id
    · rw [if_neg h1] at hl
      exact hg.rownd (p.1, p.2) (alookup_mem hl)
  · intro x hx
    unfold amem at hx
    rw [hLk x] at hx
    by_cases h1 : x = id
    · exact h1 ▸ hpid
    · rw [if_neg h1] at hx
      exact hg.keysp x hx
  · intro x y hy
    rw [hLk x] at hy
    rw [hLk y]
    by_cases hx1 : x = id
    · rw [if_pos hx1] at hy
      simp only [Option.getD_some] at hy
      have hy1 : y = id := List.mem_singleton.mp hy
      rw [if_pos hy1]
      simp only [Option.getD_some]
      rw [hx1]
      exact List.mem_singleton_self id
    · rw [if_neg hx1] at hy
      have hyid : y ≠ id := fun he => hidvals x (he ▸ hy)
      rw [if_neg hyid]
      exact hg.gbidir x y hy
  · intro p hp hself
    have hl := hrow' p hp
    rw [hLk p.1] at hl
    by_cases h1 : p.1 = id
    · rw [if_pos h1] at hl
      have : p.2 = [id] := (Option.some.inj hl).symm
      rw [this]
      simp only [List.length_singleton]
      omega
    · rw [if_neg h1] at hl
      exact hg.gswit (p.1, p.2) (alookup_mem hl) hself
  · intro x hx
    unfold amem at hx
    rw [hLk x] at hx
    by_cases h1 : x = id
    · exact h1 ▸ hlid
    · rw [if_neg h1] at hx
      exact hg.keyslvl x hx

/-- One level of the insertion loop keeps the per-level invariant:
the new node's row is created empty, the selected neighbours all gain
the edge in both directions, and no prune fires because every involved
row is at least two short of the live node count. -/
theorem insertAtLevel_W2 (id : String) (v : List ℝ) (st : HState)
    (ep : String) (lv : ℕ) (ns : List (String × List ℝ))
    (lvs : List (String × ℕ)) (u : ℕ)
    (hfresh : amem (st.adj lv) id = false)
    (hg : GOk (st.adj lv) (fun x => amem ns x = true)
      (fun x => (alookup lvs x).getD 0) lv u)
    (hid_ns : amem ns id = true)
    (hlid : lv ≤ (alookup lvs id).getD 0)
    (hns_le : ns.length ≤ u + 1)
    (huM : u ≤ st.M)
    (hu1 : 1 ≤ u)
    (hep : (amem ns ep = true ∧ lv ≤ (alookup lvs ep).getD 0 ∧ ep ≠ id)
      ∨ ep = id) :
    GOk ((insertAtLevel id v (st, ep) lv).1.adj lv)
      (fun x => amem ns x = true) (fun x => (alookup lvs x).getD 0) lv
      (u + 1) := by
  have hidvals : ∀ x, id ∉ (alookup (st.adj lv) x).getD [] := by
    intro x hmem
    have := hg.gbidir x id hmem
    unfold amem at hfresh
    cases hl : alookup (st.adj lv) id with
    | none => rw [hl] at this; simp at this
    | some row => rw [hl] at hfresh; simp at hfresh
  unfold insertAtLevel
  simp only []
  rw [if_neg (by rw [hfresh]; exact Bool.false_ne_true)]
  by_cases hL : lv < st.graphs.length
  swap
  · rw [setAdj_out st lv _ hL]
    rw [connectFold_out id lv _ st hL]
    exact hg.mono_u (Nat.le_succ u)
  have hL1 : lv < (st.setAdj lv (ainsert (st.adj lv) id [])).graphs.length := by
    rw [setAdj_graphs_length]
    exact hL
  have hadj1 : (st.setAdj lv (ainsert (st.adj lv) id [])).adj lv =
      ainsert (st.adj lv) id [] := adj_setAdj_self st lv _ hL
  have hlk1 : ∀ z, alookup (ainsert (st.adj lv) id []) z =
      if z = id then some [] else alookup (st.adj lv) z := by
    intro z
    rw [alookup_ainsert]
    by_cases hz : z = id
    · rw [if_pos hz.symm, if_pos hz]
    · rw [if_neg (fun he => hz he.symm), if_neg hz]
  have hg1 : GOk (ainsert (st.adj lv) id [])
      (fun x => amem ns x = true) (fun x => (alookup lvs x).getD 0) lv
      (u + 1) := by
    have hnd1 : (akeys (ainsert (st.adj lv) id [])).Nodup :=
      akeys_nodup_ainsert _ _ hg.keysnd
    refine ⟨hnd1, ?_, ?_, ?_, ?_, ?_⟩
    · intro p hp
      rcases mem_ainsert_nodup hg.keysnd hp with h | h
      · rw [h]
        exact List.nodup_nil
      · exact hg.rownd p h.1
    · intro x hx
      unfold amem at hx
      rw [hlk1 x] at hx
      by_cases h1 : x = id
      · exact h1 ▸ hid_ns
      · rw [if_neg h1] at hx
        exact hg.keysp x hx
    · intro x y hy
      rw [hlk1 x] at hy
      rw [hlk1 y]
      by_cases hx1 : x = id
      · rw [if_pos hx1] at hy
        simp at hy
      · rw [if_neg hx1] at hy
        have hyid : y ≠ id := fun he => hidvals x (he ▸ hy)
        rw [if_neg hyid]
        exact hg.gbidir x y hy
    · intro p hp hself
      rcases mem_ainsert_nodup hg.keysnd hp with h | h
      · rw [h] at hself
        simp at hself
      · exact (hg.gswit p h.1 hself).trans (Nat.le_succ u)
    · intro x hx
      unfold amem at hx
      rw [hlk1 x] at hx
      by_cases h1 : x = id
      · exact h1 ▸ hlid
      · rw [if_neg h1] at hx
        exact hg.keyslvl x hx
  have hrow1_id : id ∉ (alookup
      ((st.setAdj lv (ainsert (st.adj lv) id [])).adj lv) id).getD [] := by
    rw [hadj1, hlk1 id, if_pos rfl]
    simp
  rcases hep with ⟨hepn, hepl, hepid⟩ | hepid
  · -- normal entry: the selected neighbours are old nodes
    have hWsub : ∀ p ∈ searchLayer st v ep st.efConstruction lv,
        amem ns p.2 = true ∧ lv ≤ (alookup lvs p.2).getD 0 ∧ p.2 ≠ id := by
      intro p hp
      refine searchLayer_subset st v ep st.efConstruction lv
        (fun x => amem ns x = true ∧ lv ≤ (alookup lvs x).getD 0 ∧ x ≠ id)
        ?_ ⟨hepn, hepl, hepid⟩ p hp
      intro x y _ hy
      have hy' : y ∈ (alookup (st.adj lv) x).getD [] := hy
      exact ⟨hg.valsp x y hy', hg.valslvl x y hy',
        fun he => hidvals x (he ▸ hy')⟩
    have hnsub : ∀ n ∈ selectNeighbors
        (searchLayer st v ep st.efConstruction lv) (st.capAt lv),
        amem ns n = true ∧ lv ≤ (alookup lvs n).getD 0 ∧ n ≠ id := by
      intro n hn
      rcases selectNeighbors_subset _ _ n hn with ⟨p, hp, hpn⟩
      exact hpn ▸ hWsub p hp
    refine connectFold_W2 id lv (fun x => amem ns x = true)
      (fun x => (alookup lvs x).getD 0) u _
      (st.setAdj lv (ainsert (st.adj lv) id [])) hL1
      (by rw [hadj1]; exact hg1)
      (by rw [hadj1, hlk1 id, if_pos rfl]; simp)
      hid_ns hlid hnsub ?_
    intro n hn
    rcases hnsub n hn with ⟨hnns, _, hnid⟩
    left
    rw [hadj1, hlk1 n, if_neg hnid]
    have hcapM : st.M ≤ (st.setAdj lv (ainsert (st.adj lv) id [])).capAt lv := by
      rw [setAdj_capAt]
      exact capAt_ge_M st lv
    refine ⟨hidvals n, ?_, ?_⟩
    · -- the no-prune cardinality bound
      by_cases hself : n ∈ (alookup (st.adj lv) n).getD []
      · have := hg.swit_lookup n hself
        omega
      · have hsub2 : ∀ x ∈ (alookup (st.adj lv) n).getD [],
            amem ns x = true := fun x hx => hg.valsp n x hx
        have := row_plus_two (hg.rownd_lookup n) hsub2 hid_ns hnns
          (hidvals n) hself (fun he => hnid he.symm)
        omega
    · intro hself
      have := hg.swit_lookup n hself
      omega
  · -- entry is the new node itself: the level gets a lone self-loop
    subst hepid
    have hnbiso : st.neighbors lv ep = [] := by
      unfold HState.neighbors amem at *
      cases hl : alookup (st.adj lv) ep with
      | none => rfl
      | some row => rw [hl] at hfresh; simp at hfresh
    rw [searchLayer_isolated st v ep st.efConstruction lv hnbiso]
    rcases hcap0 : st.capAt lv with _ | m
    · have hsel : selectNeighbors
          [(cosDistance v (st.vecOf ep), ep)] 0 = [] := by
        simp [selectNeighbors]
      rw [hsel]
      simp only [List.foldl_nil]
      rw [hadj1]
      exact hg1
    · have hsel : selectNeighbors
          [(cosDistance v (st.vecOf ep), ep)] (m + 1) = [ep] := by
        simp [selectNeighbors, List.insertionSort]
      rw [hsel]
      simp only [List.foldl_cons, List.foldl_nil]
      have hadjc := connect_adj_self
        (st.setAdj lv (ainsert (st.adj lv) ep [])) ep lv ep hL1
      rw [hadjc]
      have hrow : alookup ((st.setAdj lv
          (ainsert (st.adj lv) ep [])).adj lv) ep = some [] := by
        rw [hadj1, hlk1 ep, if_pos rfl]
      have hcapc : 1 ≤ (st.setAdj lv
          (ainsert (st.adj lv) ep [])).capAt lv := by
        rw [setAdj_capAt, hcap0]
        omega
      have hLk := connectG_self_lookup
        (st.setAdj lv (ainsert (st.adj lv) ep [])).nodes
        ((st.setAdj lv (ainsert (st.adj lv) ep [])).capAt lv)
        ep ((st.setAdj lv (ainsert (st.adj lv) ep [])).adj lv) hrow hcapc
      refine GOk_self_update (g := (st.setAdj lv
          (ainsert (st.adj lv) ep [])).adj lv) ?_ ?_ hLk hid_ns hlid hu1 ?_
      · rw [hadj1]
        exact hg1
      · exact connectG_nodup _ _ _ _ _ (by rw [hadj1]; exact akeys_nodup_ainsert _ _ hg.keysnd)
      · intro x
        rw [hadj1, hlk1 x]
        by_cases hx : x = ep
        · rw [if_pos hx]
          simp
        · rw [if_neg hx]
          exact hidvals x

theorem insertAtLevel_snd (id : String) (v : List ℝ) (st : HState)
    (ep : String) (lv : ℕ) : (insertAtLevel id v (st, ep) lv).2 = id := rfl

theorem GOk.transport {g : List (String × List String)}
    {pN pN' : String → Prop} {L L' : String → ℕ} {lv u : ℕ}
    (h : GOk g pN L lv u) (hP : ∀ x, pN x → pN' x)
    (hL : ∀ x, amem g x = true → L x ≤ L' x) :
    GOk g pN' L' lv u :=
  ⟨h.keysnd, h.rownd, fun x hx => hP x (h.keysp x hx), h.gbidir, h.gswit,
    fun x hx => (h.keyslvl x hx).trans (hL x hx)⟩

/-- Creating the new node's empty row keeps the per-level invariant. -/
theorem GOk_ensure {g : List (String × List String)} {pN : String → Prop}
    {L : String → ℕ} {lv u : ℕ} {id : String}
    (hg : GOk g pN L lv u)
    (hidvals : ∀ x, id ∉ (alookup g x).getD [])
    (hpid : pN id) (hlid : lv ≤ L id) :
    GOk (ainsert g id []) pN L lv u := by
  have hlk : ∀ z, alookup (ainsert g id []) z =
      if z = id then some [] else alookup g z := by
    intro z
    rw [alookup_ainsert]
    by_cases hz : z = id
    · rw [if_pos hz.symm, if_pos hz]
    · rw [if_neg (fun he => hz he.symm), if_neg hz]
  refine ⟨akeys_nodup_ainsert _ _ hg.keysnd, ?_, ?_, ?_, ?_, ?_⟩
  · intro p hp
    rcases mem_ainsert_nodup hg.keysnd hp with h | h
    · rw [h]
      exact List.nodup_nil
    · exact hg.rownd p h.1
  · intro x hx
    unfold amem at hx
    rw [hlk x] at hx
    by_cases h1 : x = id
    · exact h1 ▸ hpid
    · rw [if_neg h1] at hx
      exact hg.keysp x hx
  · intro x y hy
    rw [hlk x] at hy
    rw [hlk y]
    by_cases hx1 : x = id
    · rw [if_pos hx1] at hy
      simp at hy
    · rw [if_neg hx1] at hy
      have hyid : y ≠ id := fun he => hidvals x (he ▸ hy)
      rw [if_neg hyid]
      exact hg.gbidir x y hy
  · intro p hp hself
    rcases mem_ainsert_nodup hg.keysnd hp with h | h
    · rw [h] at hself
      simp at hself
    · exact hg.gswit p h.1 hself
  · intro x hx
    unfold amem at hx
    rw [hlk x] at hx
    by_cases h1 : x = id
    · exact h1 ▸ hlid
    · rw [if_neg h1] at hx
      exact hg.keyslvl x hx

theorem mem_downRange {a b x : ℕ} (h : x ∈ downRange a b) :
    b + 1 ≤ x ∧ x ≤ a := by
  unfold downRange at h
  rw [List.mem_reverse] at h
  rw [List.mem_range'_1] at h
  omega

/-- `greedyFold_P` restricted to the traversed levels. -/
theorem greedyFold_P_mem (st : HState) (q : List ℝ) (P : String → Prop) :
    ∀ (ls : List ℕ) (ep : String),
      (∀ lv ∈ ls, ∀ x y, P x → y ∈ st.neighbors lv x → P y) →
      P ep → P (ls.foldl (greedyStep st q) ep) := by
  intro ls
  induction ls with
  | nil => intro ep _ hep; exact hep
  | cons lv rest ih =>
    intro ep hcl hep
    simp only [List.foldl_cons]
    exact ih _ (fun l' hl' => hcl l' (List.mem_cons_of_mem _ hl'))
      (greedyStep_P st q ep lv P (hcl lv (List.mem_cons_self lv rest)) hep)

/-- The first-node branch keeps the per-level invariant: each level
just receives an empty row for the new node. -/
theorem ensureFold_W2 (id : String) (pN : String → Prop) (L : String → ℕ)
    (u : ℕ) (hpid : pN id) :
    ∀ (ls : List ℕ) (st : HState),
      ls.Nodup →
      (∀ lv ∈ ls, amem (st.adj lv) id = false) →
      (∀ lv ∈ ls, lv ≤ L id) →
      (∀ lv, GOk (st.adj lv) pN L lv u) →
      ∀ lv, GOk ((ls.foldl (fun s level =>
        s.setAdj level (ainsert (s.adj level) id [])) st).adj lv)
        pN L lv u := by
  intro ls
  induction ls with
  | nil => intro st _ _ _ hall lv; exact hall lv
  | cons lv0 rest ih =>
    intro st hnd hfr hlid hall
    simp only [List.foldl_cons]
    rcases List.nodup_cons.mp hnd with ⟨hlv0, hndrest⟩
    have hidvals : ∀ x, id ∉ (alookup (st.adj lv0) x).getD [] := by
      intro x hmem
      have := (hall lv0).gbidir x id hmem
      have hf := hfr lv0 (List.mem_cons_self lv0 rest)
      unfold amem at hf
      cases hl : alookup (st.adj lv0) id with
      | none => rw [hl] at this; simp at this
      | some row => rw [hl] at hf; simp at hf
    have hall' : ∀ lv, GOk ((st.setAdj lv0
        (ainsert (st.adj lv0) id [])).adj lv) pN L lv u := by
      intro lv
      by_cases hll : lv = lv0
      · subst hll
        rcases adj_setAdj_cases st lv _ lv with hc | hc
        · rw [hc]
          exact hall lv
        · rw [hc]
          exact GOk_ensure (hall lv) hidvals hpid
            (hlid lv (List.mem_cons_self lv rest))
      · rw [adj_setAdj_ne st lv0 lv _ hll]
        exact hall lv
    have hfr' : ∀ lv ∈ rest, amem ((st.setAdj lv0
        (ainsert (st.adj lv0) id [])).adj lv) id = false := by
      intro lv hlv
      have hne : lv ≠ lv0 := fun he => hlv0 (he ▸ hlv)
      rw [adj_setAdj_ne st lv0 lv _ hne]
      exact hfr lv (List.mem_cons_of_mem _ hlv)
    exact ih _ hndrest hfr'
      (fun lv hlv => hlid lv (List.mem_cons_of_mem _ hlv)) hall'

/-- The whole insertion loop keeps the per-level invariant at every
level. -/
theorem levelsFold_W2 (id : String) (v : List ℝ)
    (ns : List (String × List ℝ)) (lvs : List (String × ℕ)) (u : ℕ) :
    ∀ (ls : List ℕ) (st : HState) (ep : String),
      ls.Nodup →
      st.nodes = ns → st.node_levels = lvs → u ≤ st.M →
      (∀ lv ∈ ls, amem (st.adj lv) id = false) →
      (∀ lv ∈ ls, GOk (st.adj lv) (fun x => amem ns x = true)
        (fun x => (alookup lvs x).getD 0) lv u) →
      (∀ lv, GOk (st.adj lv) (fun x => amem ns x = true)
        (fun x => (alookup lvs x).getD 0) lv (u + 1)) →
      amem ns id = true →
      (∀ lv ∈ ls, lv ≤ (alookup lvs id).getD 0) →
      ns.length ≤ u + 1 → 1 ≤ u →
      ((amem ns ep = true ∧ (∀ lv ∈ ls, lv ≤ (alookup lvs ep).getD 0) ∧
        ep ≠ id) ∨ ep = id) →
      ∀ lv, GOk ((ls.foldl (insertAtLevel id v) (st, ep)).1.adj lv)
        (fun x => amem ns x = true) (fun x => (alookup lvs x).getD 0) lv
        (u + 1) := by
  intro ls
  induction ls with
  | nil =>
    intro st ep _ _ _ _ _ _ hall _ _ _ _ _ lv
    exact hall lv
  | cons lv0 rest ih =>
    intro st ep hnd hns hlvs hM hfr hcur hall hid hlid hle hu1 hep
    simp only [List.foldl_cons]
    rcases List.nodup_cons.mp hnd with ⟨hlv0, hndrest⟩
    have hstep := insertAtLevel_W2 id v st ep lv0 ns lvs u
      (hfr lv0 (List.mem_cons_self lv0 rest))
      (hcur lv0 (List.mem_cons_self lv0 rest))
      hid (hlid lv0 (List.mem_cons_self lv0 rest)) hle
      hM hu1
      (by
        rcases hep with ⟨h1, h2, h3⟩ | h1
        · exact Or.inl ⟨h1, h2 lv0 (List.mem_cons_self lv0 rest), h3⟩
        · exact Or.inr h1)
    have hsnd := insertAtLevel_snd id v st ep lv0
    rcases insertAtLevel_SubInv (P := fun _ => True) id v st ep lv0
      (SubInv_true st) trivial trivial with ⟨_, f1, f2, _, f4, _, _⟩
    have hadjne := fun l' (h : l' ≠ lv0) =>
      insertAtLevel_adj_ne id v st ep lv0 l' h
    rcases hres : insertAtLevel id v (st, ep) lv0 with ⟨st', ep'⟩
    rw [hres] at hstep hsnd f1 f2 f4 hadjne
    simp only [] at hstep hsnd f1 f2 f4 hadjne
    refine ih st' ep' hndrest (f1.trans hns) (f2.trans hlvs)
      (by rw [f4]; exact hM) ?_ ?_ ?_ hid
      (fun lv hlv => hlid lv (List.mem_cons_of_mem _ hlv)) hle hu1 ?_
    · intro lv hlv
      have hne : lv ≠ lv0 := fun he => hlv0 (he ▸ hlv)
      rw [hadjne lv hne]
      exact hfr lv (List.mem_cons_of_mem _ hlv)
    · intro lv hlv
      have hne : lv ≠ lv0 := fun he => hlv0 (he ▸ hlv)
      rw [hadjne lv hne]
      exact hcur lv (List.mem_cons_of_mem _ hlv)
    · intro lv
      by_cases hll : lv = lv0
      · subst hll
        exact hstep
      · rw [hadjne lv hll]
        exact hall lv
    · exact Or.inr hsnd

/-- The full C2 invariant: every level's graph satisfies `GOk` for
the live node table, the level table is consistent, and at most
`used` nodes are live (`used` counts the `add_item` calls so far). -/
structure W2Inv (st : HState) (used : ℕ) : Prop where
  gok : ∀ lv, GOk (st.adj lv) (fun x => amem st.nodes x = true)
    (fun x => (alookup st.node_levels x).getD 0) lv used
  lvl_nodes : ∀ x, amem st.node_levels x = true →
    amem st.nodes x = true
  lvl_nodup : (akeys st.node_levels).Nodup
  ep_nodes : ∀ e, st.ep = some e → amem st.nodes e = true
  nodes_le : st.nodes.length ≤ used

theorem amem_length_pos {β : Type} {l : List (String × β)} {k : String}
    (h : amem l k = true) : 1 ≤ l.length := by
  unfold amem at h
  cases hl : alookup l k with
  | none => rw [hl] at h; simp at h
  | some v =>
    have := alookup_mem hl
    cases l with
    | nil => simp at this
    | cons p rest => simp

/-- One `add_item` call preserves the C2 invariant when the budget of
`M + 1` adds is not yet exhausted. -/
theorem add_item_W2 (st : HState) (id : String) (v : List ℝ) (rnd : ℕ)
    (u : ℕ) (hw : W2Inv st u) (hM : u ≤ st.M) :
    W2Inv (st.add_item id v rnd) (u + 1) := by
  by_cases hmem : amem st.nodes id = true
  · -- the update branch changes only the stored vector
    have hnodes := add_item_nodes st id v rnd
    have hrest : (st.add_item id v rnd).node_levels = st.node_levels ∧
        (st.add_item id v rnd).graphs = st.graphs ∧
        (st.add_item id v rnd).ep = st.ep := by
      unfold HState.add_item
      rw [if_pos hmem]
      exact ⟨rfl, rfl, rfl⟩
    have hadj : ∀ lv, (st.add_item id v rnd).adj lv = st.adj lv := by
      intro lv
      unfold HState.adj
      rw [hrest.2.1]
    refine ⟨?_, ?_, ?_, ?_, ?_⟩
    · intro lv
      rw [hadj lv, hnodes, hrest.1]
      exact ((hw.gok lv).mono_u (Nat.le_succ u)).transport
        (fun x hx => (amem_ainsert _ _ _ _).mpr (Or.inr hx))
        (fun x _ => Nat.le_refl _)
    · intro x hx
      rw [hrest.1] at hx
      rw [hnodes]
      exact (amem_ainsert _ _ _ _).mpr (Or.inr (hw.lvl_nodes x hx))
    · rw [hrest.1]
      exact hw.lvl_nodup
    · intro e he
      rw [hrest.2.2] at he
      rw [hnodes]
      exact (amem_ainsert _ _ _ _).mpr (Or.inr (hw.ep_nodes e he))
    · rw [hnodes, length_ainsert_of_amem _ _ _ hmem]
      have := hw.nodes_le
      omega
  · -- the fresh branch
    have hmemf : amem st.nodes id = false := by
      cases hb : amem st.nodes id
      · rfl
      · exact absurd hb hmem
    have hfresh : ∀ lv, amem (st.adj lv) id = false := by
      intro lv
      cases hb : amem (st.adj lv) id
      · rfl
      · exact absurd ((hw.gok lv).keysp id hb) hmem
    have hid_ns : amem (ainsert st.nodes id v) id = true :=
      (amem_ainsert _ _ _ _).mpr (Or.inl rfl)
    have hidlvs : (alookup (ainsert st.node_levels id (min rnd st.ml))
        id).getD 0 = min rnd st.ml := by
      rw [alookup_ainsert_self]
      rfl
    have hlvs_ne : ∀ x, amem st.nodes x = true →
        alookup (ainsert st.node_levels id (min rnd st.ml)) x =
          alookup st.node_levels x := by
      intro x hx
      rw [alookup_ainsert]
      rw [if_neg (fun he => hmem (by rw [he]; exact hx))]
    have hg2 : ∀ lv, GOk (st.adj lv)
        (fun x => amem (ainsert st.nodes id v) x = true)
        (fun x => (alookup (ainsert st.node_levels id
          (min rnd st.ml)) x).getD 0) lv u := by
      intro lv
      refine (hw.gok lv).transport
        (fun x hx => (amem_ainsert _ _ _ _).mpr (Or.inr hx)) ?_
      intro x hx
      rw [hlvs_ne x ((hw.gok lv).keysp x hx)]
    have hns_le : (ainsert st.nodes id v).length ≤ u + 1 := by
      rw [length_ainsert_not_mem _ _ _ hmemf]
      have := hw.nodes_le
      omega
    have hlvl_nodes' : ∀ x, amem (ainsert st.node_levels id
        (min rnd st.ml)) x = true →
        amem (ainsert st.nodes id v) x = true := by
      intro x hx
      rcases (amem_ainsert _ _ _ _).mp hx with h | h
      · exact h ▸ hid_ns
      · exact (amem_ainsert _ _ _ _).mpr (Or.inr (hw.lvl_nodes x h))
    have hlvl_nodup' : (akeys (ainsert st.node_levels id
        (min rnd st.ml))).Nodup := akeys_nodup_ainsert _ _ hw.lvl_nodup
    unfold HState.add_item
    rw [if_neg hmem]
    simp only []
    cases hep0 : st.ep with
    | none =>
      simp only []
      have hgokf := ensureFold_W2 id
        (fun x => amem (ainsert st.nodes id v) x = true)
        (fun x => (alookup (ainsert st.node_levels id
          (min rnd st.ml)) x).getD 0) u hid_ns
        (List.range (min rnd st.ml + 1))
        ⟨st.dim, st.M, st.efConstruction, st.ml, ainsert st.nodes id v,
          ainsert st.node_levels id (min rnd st.ml), st.graphs, none⟩
        (List.nodup_range _)
        (fun lv _ => hfresh lv)
        (fun lv hlv => by
          show lv ≤ (alookup (ainsert st.node_levels id
            (min rnd st.ml)) id).getD 0
          rw [hidlvs]
          exact Nat.lt_succ_iff.mp (List.mem_range.mp hlv))
        (fun lv => hg2 lv)
      rcases ensureFold_SubInv (P := fun _ => True) id
        (List.range (min rnd st.ml + 1)) _ (SubInv_true _) trivial with
        ⟨_, f2, f3, _, _⟩
      refine ⟨?_, ?_, ?_, ?_, ?_⟩
      · intro lv
        rw [f2, f3]
        exact (hgokf lv).mono_u (Nat.le_succ u)
      · intro x hx
        rw [f3] at hx
        rw [f2]
        exact hlvl_nodes' x hx
      · rw [f3]
        exact hlvl_nodup'
      · intro e he
        simp only [] at he
        cases he
        rw [f2]
        exact hid_ns
      · rw [f2]
        exact hns_le
    | some ep0 =>
      simp only []
      have hep0n : amem st.nodes ep0 = true := hw.ep_nodes ep0 hep0
      have hep0id : ep0 ≠ id := fun he => hmem (he ▸ hep0n)
      have hu1 : 1 ≤ u := (amem_length_pos hep0n).trans hw.nodes_le
      set st2 : HState := ⟨st.dim, st.M, st.efConstruction, st.ml,
        ainsert st.nodes id v,
        ainsert st.node_levels id (min rnd st.ml), st.graphs,
        some ep0⟩ with hst2
      have hepL : st2.levelOf ep0 =
          (alookup st.node_levels ep0).getD 0 := by
        unfold HState.levelOf
        rw [hst2]
        simp only []
        rw [hlvs_ne ep0 hep0n]
      have hQ : amem st.nodes
          ((downRange (min (st2.levelOf ep0) st2.ml) (min rnd st.ml)).foldl
            (greedyStep st2 v) ep0) = true ∧
          min (min rnd st.ml) (st2.levelOf ep0) ≤
            (alookup st.node_levels
              ((downRange (min (st2.levelOf ep0) st2.ml)
                (min rnd st.ml)).foldl (greedyStep st2 v) ep0)).getD 0 := by
        refine greedyFold_P_mem st2 v
          (fun x => amem st.nodes x = true ∧
            min (min rnd st.ml) (st2.levelOf ep0) ≤
              (alookup st.node_levels x).getD 0) _ ep0 ?_ ?_
        · intro lv' hlv' x y hx hy
          rcases mem_downRange hlv' with ⟨h1, _⟩
          have hy' : y ∈ (alookup (st.adj lv') x).getD [] := hy
          refine ⟨(hw.gok lv').valsp x y hy', ?_⟩
          have := (hw.gok lv').valslvl x y hy'
          omega
        · refine ⟨hep0n, ?_⟩
          rw [hepL]
          exact le_trans (min_le_right _ _) (Nat.le_refl _)
      have hls_lid : ∀ lv ∈ (List.range
          (min (min rnd st.ml) (st2.levelOf ep0) + 1)).reverse,
          lv ≤ min (min rnd st.ml) (st2.levelOf ep0) := by
        intro lv hlv
        rw [List.mem_reverse] at hlv
        exact Nat.lt_succ_iff.mp (List.mem_range.mp hlv)
      have hgokf := levelsFold_W2 id v (ainsert st.nodes id v)
        (ainsert st.node_levels id (min rnd st.ml)) u
        ((List.range (min (min rnd st.ml) (st2.levelOf ep0) + 1)).reverse)
        st2 _
        (List.nodup_reverse.mpr (List.nodup_range _))
        rfl rfl hM
        (fun lv _ => hfresh lv)
        (fun lv _ => hg2 lv)
        (fun lv => (hg2 lv).mono_u (Nat.le_succ u))
        hid_ns
        (fun lv hlv => by
          rw [hidlvs]
          exact le_trans (hls_lid lv hlv) (min_le_left _ _))
        hns_le hu1
        (Or.inl ⟨(amem_ainsert _ _ _ _).mpr (Or.inr hQ.1), by
          intro lv hlv
          have h1 := hls_lid lv hlv
          have h2 := hQ.2
          rw [hlvs_ne _ hQ.1]
          omega, fun he => hmem (he ▸ hQ.1)⟩)
      rcases levelsFold_SubInv (P := fun _ => True) id v
        ((List.range (min (min rnd st.ml) (st2.levelOf ep0) + 1)).reverse)
        st2 _ (SubInv_true _) trivial trivial with ⟨_, f2, f3, f4, _, _⟩
      split
      · refine ⟨?_, ?_, ?_, ?_, ?_⟩
        · intro lv
          rw [f2, f3]
          exact hgokf lv
        · intro x hx
          rw [f3] at hx
          rw [f2]
          exact hlvl_nodes' x hx
        · rw [f3]
          exact hlvl_nodup'
        · intro e he
          simp only [] at he
          cases he
          rw [f2]
          exact hid_ns
        · rw [f2]
          exact hns_le
      · refine ⟨?_, ?_, ?_, ?_, ?_⟩
        · intro lv
          rw [f2, f3]
          exact hgokf lv
        · intro x hx
          rw [f3] at hx
          rw [f2]
          exact hlvl_nodes' x hx
        · rw [f3]
          exact hlvl_nodup'
        · intro e he
          rw [f4] at he
          rw [hst2] at he
          simp only [] at he
          cases he
          rw [f2]
          exact (amem_ainsert _ _ _ _).mpr (Or.inr hep0n)
        · rw [f2]
          exact hns_le

theorem setDiscard_idem (s : List String) (x : String) :
    setDiscard (setDiscard s x) x = setDiscard s x := by
  induction s with
  | nil => rfl
  | cons a rest ih =>
    simp only [setDiscard, List.filter_cons]
    by_cases hax : a ≠ x
    · rw [if_pos (by simpa using hax)]
      simp only [List.filter_cons]
      rw [if_pos (by simpa using hax)]
      unfold setDiscard at ih
      rw [ih]
    · rw [if_neg (by simpa using hax)]
      unfold setDiscard at ih
      exact ih

theorem amem_adj_in_range {st : HState} {level : ℕ} {x : String}
    (h : amem (st.adj level) x = true) : level < st.graphs.length := by
  by_contra hL
  rw [adj_out st level hL] at h
  simp [amem, alookup] at h

theorem GOk.transport_keys {g : List (String × List String)}
    {pN pN' : String → Prop} {L L' : String → ℕ} {lv u : ℕ}
    (h : GOk g pN L lv u)
    (hP : ∀ x, amem g x = true → pN x → pN' x)
    (hL : ∀ x, amem g x = true → L x ≤ L' x) :
    GOk g pN' L' lv u :=
  ⟨h.keysnd, h.rownd, fun x hx => hP x hx (h.keysp x hx), h.gbidir,
    h.gswit, fun x hx => (h.keyslvl x hx).trans (hL x hx)⟩

/-- Lookup characterization of the neighbour-cleanup fold of
`removeAtLevel`. -/
theorem discardFold_char (level : ℕ) (r : String) :
    ∀ (nbrs : List String) (st : HState),
      (∀ lv, (akeys (st.adj lv)).Nodup) →
      (∀ lv, (akeys ((nbrs.foldl (fun s n =>
        if amem (s.adj level) n then
          s.setAdj level (ainsert (s.adj level) n
            (setDiscard ((alookup (s.adj level) n).getD []) r))
        else s) st).adj lv)).Nodup) ∧
      (∀ z, alookup ((nbrs.foldl (fun s n =>
        if amem (s.adj level) n then
          s.setAdj level (ainsert (s.adj level) n
            (setDiscard ((alookup (s.adj level) n).getD []) r))
        else s) st).adj level) z =
        if z ∈ nbrs
        then (alookup (st.adj level) z).map (fun row => setDiscard row r)
        else alookup (st.adj level) z) ∧
      (∀ lv, lv ≠ level → (nbrs.foldl (fun s n =>
        if amem (s.adj level) n then
          s.setAdj level (ainsert (s.adj level) n
            (setDiscard ((alookup (s.adj level) n).getD []) r))
        else s) st).adj lv = st.adj lv) := by
  intro nbrs
  induction nbrs with
  | nil =>
    intro st hnd
    refine ⟨hnd, ?_, fun lv _ => rfl⟩
    intro z
    rw [if_neg (List.not_mem_nil z)]
    rfl
  | cons n rest ih =>
    intro st hnd
    simp only [List.foldl_cons]
    have hstep_nd : ∀ lv, (akeys ((if amem (st.adj level) n then
        st.setAdj level (ainsert (st.adj level) n
          (setDiscard ((alookup (st.adj level) n).getD []) r))
      else st).adj lv)).Nodup := by
      intro lv
      by_cases hmem : amem (st.adj level) n = true
      · rw [if_pos hmem]
        rcases adj_setAdj_cases st level _ lv with hc | hc
        · rw [hc]
          exact hnd lv
        · rw [hc]
          exact akeys_nodup_ainsert _ _ (hnd level)
      · rw [if_neg hmem]
        exact hnd lv
    have hstep_lk : ∀ w, alookup ((if amem (st.adj level) n then
        st.setAdj level (ainsert (st.adj level) n
          (setDiscard ((alookup (st.adj level) n).getD []) r))
      else st).adj level) w =
        if w = n then (alookup (st.adj level) n).map
          (fun row => setDiscard row r)
        else alookup (st.adj level) w := by
      intro w
      by_cases hmem : amem (st.adj level) n = true
      · rw [if_pos hmem]
        rw [adj_setAdj_self st level _ (amem_adj_in_range hmem)]
        rw [alookup_ainsert]
        unfold amem at hmem
        cases hl : alookup (st.adj level) n with
        | none => rw [hl] at hmem; simp at hmem
        | some row =>
          simp only [Option.getD_some, Option.map_some']
          by_cases hw : w = n
          · rw [if_pos hw.symm, if_pos hw]
          · rw [if_neg (fun he => hw he.symm), if_neg hw]
      · rw [if_neg hmem]
        by_cases hw : w = n
        · rw [if_pos hw]
          unfold amem at hmem
          cases hl : alookup (st.adj level) n with
          | none =>
            rw [hw, hl]
            rfl
          | some row => rw [hl] at hmem; simp at hmem
        · rw [if_neg hw]
    have hstep_ne : ∀ lv, lv ≠ level → ((if amem (st.adj level) n then
        st.setAdj level (ainsert (st.adj level) n
          (setDiscard ((alookup (st.adj level) n).getD []) r))
      else st).adj lv) = st.adj lv := by
      intro lv hlv
      by_cases hmem : amem (st.adj level) n = true
      · rw [if_pos hmem]
        exact adj_setAdj_ne st level lv _ hlv
      · rw [if_neg hmem]
    rcases ih _ hstep_nd with ⟨m1, m2, m3⟩
    refine ⟨m1, ?_, fun lv hlv => (m3 lv hlv).trans (hstep_ne lv hlv)⟩
    intro z
    rw [m2 z]
    by_cases hz : z ∈ rest
    · rw [if_pos hz, if_pos (List.mem_cons_of_mem n hz), hstep_lk z]
      by_cases hzn : z = n
      · subst hzn
        rw [if_pos rfl]
        cases hl : alookup (st.adj level) z with
        | none => rfl
        | some row =>
          simp only [Option.map_some']
          rw [setDiscard_idem]
      · rw [if_neg hzn]
    · rw [if_neg hz, hstep_lk z]
      by_cases hzn : z = n
      · rw [if_pos hzn, if_pos (by rw [hzn]; exact List.mem_cons_self n rest),
          hzn]
      · rw [if_neg hzn, if_neg (by
          intro hmem
          rcases List.mem_cons.mp hmem with h | h
          · exact hzn h
          · exact hz h)]

/-- Lookup characterization of one whole `removeAtLevel`. -/
theorem removeAtLevel_char (r : String) (st : HState) (level : ℕ)
    (hnd : ∀ lv, (akeys (st.adj lv)).Nodup) :
    (∀ lv, (akeys ((removeAtLevel r st level).adj lv)).Nodup) ∧
    (∀ z, z ≠ r →
      alookup ((removeAtLevel r st level).adj level) z =
        if z ∈ st.neighbors level r
        then (alookup (st.adj level) z).map (fun row => setDiscard row r)
        else alookup (st.adj level) z) ∧
    alookup ((removeAtLevel r st level).adj level) r = none ∧
    (∀ lv, lv ≠ level → (removeAtLevel r st level).adj lv = st.adj lv) := by
  unfold removeAtLevel
  simp only []
  rcases discardFold_char level r (st.neighbors level r) st hnd with
    ⟨m1, m2, m3⟩
  split
  · rename_i hmem
    have hL1 := amem_adj_in_range hmem
    constructor
    · intro lv
      rcases adj_setAdj_cases _ level _ lv with hc | hc
      · rw [hc]
        exact m1 lv
      · rw [hc]
        exact akeys_nodup_aerase _ (m1 level)
    refine ⟨?_, ?_, ?_⟩
    · intro z hz
      rw [adj_setAdj_self _ level _ hL1]
      rw [alookup_aerase_ne _ _ _ hz]
      exact m2 z
    · rw [adj_setAdj_self _ level _ hL1]
      exact alookup_aerase_self (m1 level)
    · intro lv hlv
      rw [adj_setAdj_ne _ level lv _ hlv]
      exact m3 lv hlv
  · rename_i hmem
    refine ⟨m1, fun z hz => m2 z, ?_, m3⟩
    cases hl : alookup ((List.foldl (fun s n =>
        if amem (s.adj level) n then
          s.setAdj level (ainsert (s.adj level) n
            (setDiscard ((alookup (s.adj level) n).getD []) r))
        else s) st (st.neighbors level r)).adj level) r with
    | none => rfl
    | some row => exact absurd (amem_of_alookup_eq_some hl) hmem

/-- Lookup characterization of the whole per-level cleanup loop of
`remove_item`. -/
theorem removeLevelsFold_char (r : String) :
    ∀ (ls : List ℕ) (st : HState),
      ls.Nodup →
      (∀ lv, (akeys (st.adj lv)).Nodup) →
      (∀ lv, (akeys ((ls.foldl (fun s lv => removeAtLevel r s lv)
        st).adj lv)).Nodup) ∧
      (∀ lv ∈ ls,
        (∀ z, z ≠ r →
          alookup ((ls.foldl (fun s lv => removeAtLevel r s lv)
            st).adj lv) z =
            if z ∈ st.neighbors lv r
            then (alookup (st.adj lv) z).map
              (fun row => setDiscard row r)
            else alookup (st.adj lv) z) ∧
        alookup ((ls.foldl (fun s lv => removeAtLevel r s lv)
          st).adj lv) r = none) ∧
      (∀ lv, lv ∉ ls → (ls.foldl (fun s lv => removeAtLevel r s lv)
        st).adj lv = st.adj lv) := by
  intro ls
  induction ls with
  | nil =>
    intro st _ hnd
    exact ⟨hnd, fun lv hlv => absurd hlv (List.not_mem_nil lv),
      fun lv _ => rfl⟩
  | cons lv0 rest ih =>
    intro st hndl hnd
    simp only [List.foldl_cons]
    rcases List.nodup_cons.mp hndl with ⟨hlv0, hndrest⟩
    rcases removeAtLevel_char r st lv0 hnd with ⟨s1, s2, s3, s4⟩
    rcases ih (removeAtLevel r st lv0) hndrest s1 with ⟨m1, m2, m3⟩
    refine ⟨m1, ?_, ?_⟩
    · intro lv hlv
      rcases List.mem_cons.mp hlv with h | h
      · subst h
        have hnotin : lv ∉ rest := hlv0
        rw [m3 lv hnotin]
        exact ⟨s2, s3⟩
      · have hne : lv ≠ lv0 := fun he => hlv0 (he ▸ h)
        rcases m2 lv h with ⟨c1, c2⟩
        constructor
        · intro z hz
          rw [c1 z hz, s4 lv hne]
          have : (removeAtLevel r st lv0).neighbors lv r =
              st.neighbors lv r := by
            unfold HState.neighbors
            rw [s4 lv hne]
          rw [this]
        · exact c2
    · intro lv hlv
      have h1 : lv ∉ rest := fun h => hlv (List.mem_cons_of_mem _ h)
      have h2 : lv ≠ lv0 := fun he => hlv (he ▸ List.mem_cons_self lv0 rest)
      rw [m3 lv h1]
      exact s4 lv h2

/-- What a successful `remove_item` does to the entry point. -/
theorem remove_item_ep (st : HState) (r : String) (st' : HState)
    (h : st.remove_item r = .ok st') :
    st'.ep = none ∨
    (∃ e, st'.ep = some e ∧
      amem (aerase st.node_levels r) e = true) ∨
    (st'.ep = st.ep ∧ st.ep ≠ some r) := by
  unfold HState.remove_item at h
  by_cases hmem : amem st.nodes r = true
  swap
  · rw [if_pos (by simpa using hmem)] at h
    cases h
  rw [if_neg (by simpa using hmem)] at h
  simp only [] at h
  rcases removeLevelsFold_SubInv (P := fun _ => True) r
    (List.range (st.levelOf r + 1)) st (SubInv_true st) with
    ⟨_, _, f2, f3, _, _⟩
  split at h
  · rename_i hep
    split at h
    · cases h
      exact Or.inl rfl
    · cases h
      cases harg : argmaxLevel (aerase (((List.range (st.levelOf r + 1)).foldl
          (fun s lv => removeAtLevel r s lv) st)).node_levels r) with
      | none =>
        left
        rfl
      | some e =>
        right
        left
        refine ⟨e, rfl, ?_⟩
        rw [f2] at harg
        exact argmaxLevel_amem harg
  · rename_i hep
    cases h
    right
    right
    constructor
    · exact f3
    · intro he
      apply hep
      show (_ : HState).ep = some r
      rw [f3]
      exact he

/-- One-sided removal of `r` from every row (plus deletion of `r`'s own
row) preserves the per-level invariant at the same budget. -/
theorem GOk_discard {g g' : List (String × List String)}
    {pN : String → Prop} {L : String → ℕ} {lv u : ℕ} {r : String}
    (hg : GOk g pN L lv u)
    (hnd' : (akeys g').Nodup)
    (hchar : ∀ z, z ≠ r → alookup g' z =
      if z ∈ (alookup g r).getD []
      then (alookup g z).map (fun row => setDiscard row r)
      else alookup g z)
    (hr : alookup g' r = none) :
    GOk g' pN L lv u := by
  have hlk : ∀ x row', alookup g' x = some row' →
      x ≠ r ∧ ∃ row, alookup g x = some row ∧
        ((x ∈ (alookup g r).getD [] ∧ row' = setDiscard row r) ∨
         (x ∉ (alookup g r).getD [] ∧ row' = row)) := by
    intro x row' hx
    have hxr : x ≠ r := by
      intro he
      rw [he, hr] at hx
      cases hx
    refine ⟨hxr, ?_⟩
    have hc := hchar x hxr
    rw [hx] at hc
    by_cases hmem : x ∈ (alookup g r).getD []
    · rw [if_pos hmem] at hc
      cases hg2 : alookup g x with
      | none => rw [hg2] at hc; cases hc
      | some row =>
        rw [hg2] at hc
        simp only [Option.map_some'] at hc
        exact ⟨row, rfl, Or.inl ⟨hmem, Option.some.inj hc⟩⟩
    · rw [if_neg hmem] at hc
      exact ⟨row', hc.symm, Or.inr ⟨hmem, rfl⟩⟩
  have hmemlk : ∀ x y, y ∈ (alookup g' x).getD [] →
      x ≠ r ∧ y ≠ r ∧ y ∈ (alookup g x).getD [] := by
    intro x y hy
    cases hx : alookup g' x with
    | none => rw [hx] at hy; simp at hy
    | some row' =>
      rw [hx] at hy
      simp only [Option.getD_some] at hy
      rcases hlk x row' hx with ⟨hxr, row, hgrow, hcase⟩
      rcases hcase with ⟨_, he⟩ | ⟨hnin, he⟩
      · rw [he] at hy
        rcases mem_setDiscard.mp hy with ⟨hyrow, hyr⟩
        refine ⟨hxr, hyr, ?_⟩
        rw [hgrow]
        exact hyrow
      · rw [he] at hy
        have hyr : y ≠ r := by
          intro hey
          apply hnin
          apply hg.gbidir x r
          rw [hgrow]
          simp only [Option.getD_some]
          rw [hey] at hy
          exact hy
        refine ⟨hxr, hyr, ?_⟩
        rw [hgrow]
        exact hy
  refine ⟨hnd', ?_, ?_, ?_, ?_, ?_⟩
  · intro p hp
    have hl' := alookup_eq_of_mem_nodup hnd' hp
    rcases hlk p.1 p.2 hl' with ⟨hpr, row, hgrow, hcase⟩
    have hrownd : row.Nodup := hg.rownd (p.1, row) (alookup_mem hgrow)
    rcases hcase with ⟨_, he⟩ | ⟨_, he⟩
    · rw [he]
      exact setDiscard_nodup hrownd r
    · rw [he]
      exact hrownd
  · intro x hx
    cases hl' : alookup g' x with
    | none =>
      unfold amem at hx
      rw [hl'] at hx
      simp at hx
    | some row' =>
      rcases hlk x row' hl' with ⟨_, row, hgrow, _⟩
      exact hg.keysp x (amem_of_alookup_eq_some hgrow)
  · intro x y hy
    rcases hmemlk x y hy with ⟨hxr, hyr, hyg⟩
    have hxy := hg.gbidir x y hyg
    have hcy := hchar y hyr
    by_cases hmem : y ∈ (alookup g r).getD []
    · rw [if_pos hmem] at hcy
      rw [hcy]
      cases hgy : alookup g y with
      | none => rw [hgy] at hxy; simp at hxy
      | some rowy =>
        rw [hgy] at hxy
        simp only [Option.getD_some] at hxy
        simp only [Option.map_some', Option.getD_some]
        exact mem_setDiscard.mpr ⟨hxy, hxr⟩
    · rw [if_neg hmem] at hcy
      rw [hcy]
      exact hxy
  · intro p hp hself
    have hl' := alookup_eq_of_mem_nodup hnd' hp
    rcases hlk p.1 p.2 hl' with ⟨hpr, row, hgrow, hcase⟩
    have hsw := hg.gswit (p.1, row) (alookup_mem hgrow)
    rcases hcase with ⟨_, he⟩ | ⟨_, he⟩
    · rw [he] at hself
      have hmem1 : p.1 ∈ row := (mem_setDiscard.mp hself).1
      have h1 : row.length + 1 ≤ u := hsw hmem1
      have h2 := length_setDiscard_le row r
      rw [he]
      omega
    · rw [he] at hself
      rw [he]
      exact hsw hself
  · intro x hx
    cases hl' : alookup g' x with
    | none =>
      unfold amem at hx
      rw [hl'] at hx
      simp at hx
    | some row' =>
      rcases hlk x row' hl' with ⟨_, row, hgrow, _⟩
      exact hg.keyslvl x (amem_of_alookup_eq_some hgrow)

theorem amem_false_of_alookup_none {β : Type} {l : List (String × β)}
    {k : String} (h : alookup l k = none) : amem l k = true → False := by
  intro hx
  unfold amem at hx
  rw [h] at hx
  simp at hx

/-- `remove_item` (through `applyOp`) preserves the whole invariant at
the same budget. -/
theorem remove_item_W2 (st : HState) (r : String) (u : ℕ)
    (hw : W2Inv st u) : W2Inv (applyOp st (.remove r)) u := by
  unfold applyOp
  simp only []
  cases hrem : st.remove_item r with
  | error e => exact hw
  | ok st' =>
  rcases remove_item_parts st r st' hrem with ⟨hns, hlvs, hadj⟩
  rcases removeLevelsFold_char r (List.range (st.levelOf r + 1)) st
    (List.nodup_range _) (fun lv => (hw.gok lv).keysnd) with ⟨m1, m2, m3⟩
  have hkey_ne : ∀ lv x, amem (st'.adj lv) x = true → x ≠ r := by
    intro lv x hx hxr
    rw [hxr] at hx
    by_cases hin : lv ∈ List.range (st.levelOf r + 1)
    · rcases m2 lv hin with ⟨_, c2⟩
      rw [hadj lv] at hx
      exact amem_false_of_alookup_none c2 hx
    · rw [hadj lv, m3 lv hin] at hx
      have hlvl : lv ≤ (alookup st.node_levels r).getD 0 :=
        (hw.gok lv).keyslvl r hx
      rw [List.mem_range] at hin
      unfold HState.levelOf at hin
      omega
  refine ⟨?_, ?_, ?_, ?_, ?_⟩
  · intro lv
    have hbase : GOk (st'.adj lv)
        (fun x => amem st.nodes x = true)
        (fun x => (alookup st.node_levels x).getD 0) lv u := by
      by_cases hin : lv ∈ List.range (st.levelOf r + 1)
      · rcases m2 lv hin with ⟨c1, c2⟩
        rw [hadj lv]
        refine GOk_discard (hw.gok lv) (m1 lv) ?_ c2
        intro z hz
        exact c1 z hz
      · rw [hadj lv, m3 lv hin]
        exact hw.gok lv
    refine hbase.transport_keys ?_ ?_
    · intro x hx hmem
      have hxr : x ≠ r := by
        apply hkey_ne lv x
        rw [hadj lv] at hx ⊢
        exact hx
      rw [hns, amem_aerase_ne _ _ _ hxr]
      exact hmem
    · intro x hx
      have hxr : x ≠ r := by
        apply hkey_ne lv x
        rw [hadj lv] at hx ⊢
        exact hx
      rw [hlvs, alookup_aerase_ne _ _ _ hxr]
  · intro x hx
    rw [hlvs] at hx
    by_cases hxr : x = r
    · subst hxr
      exfalso
      exact amem_false_of_alookup_none
        (alookup_aerase_self hw.lvl_nodup) hx
    · rw [amem_aerase_ne _ _ _ hxr] at hx
      rw [hns, amem_aerase_ne _ _ _ hxr]
      exact hw.lvl_nodes x hx
  · rw [hlvs]
    exact akeys_nodup_aerase r hw.lvl_nodup
  · intro e he
    rcases remove_item_ep st r st' hrem with hn | ⟨e0, hep, hh⟩ | ⟨heq, hne⟩
    · rw [hn] at he
      cases he
    · rw [hep] at he
      have he0 : e = e0 := (Option.some.inj he).symm
      subst he0
      have her : e ≠ r := by
        intro hre
        subst hre
        exact amem_false_of_alookup_none
          (alookup_aerase_self hw.lvl_nodup) hh
      rw [amem_aerase_ne _ _ _ her] at hh
      rw [hns, amem_aerase_ne _ _ _ her]
      exact hw.lvl_nodes e hh
    · rw [heq] at he
      have her : e ≠ r := by
        intro hre
        rw [hre] at he
        exact hne he
      rw [hns, amem_aerase_ne _ _ _ her]
      exact hw.ep_nodes e he
  · rw [hns]
    exact (length_aerase_le _ _).trans hw.nodes_le

/-- C4 (counterexample): before the final re-add, `c` is absent from
the node table yet still owns the level-1 ghost row `{e}` — left there
because the second removal cleaned only levels `0..node_levels[c] = 0`;
after re-adding `c` at level 1, `c` is a stored node whose inherited
level-1 row holds `3` neighbours, exceeding the cap `M = 2` for levels
`≥ 1`.  Every vector lookup in the trace hits a live id, so the Python
program reaches these states. -/
theorem hnsw_degree_cap_exceeded :
    (alookup hU8.nodes "c" = none ∧ hU8.neighbors 1 "c" = ["e"]) ∧
    amem hU9.nodes "c" = true ∧ hU9.M = 2 ∧
    (hU9.neighbors 1 "c").length = 3 := by
  rw [hU8_eq, hU9_eq]
  refine ⟨⟨?_, ?_⟩, ?_, rfl, ?_⟩ <;>
    simp [HState.neighbors, HState.adj, amem, alookup, str_ac, str_bc,
      str_dc, str_ec, str_ca, str_cb, str_cd, str_ce, str_ab, str_ba,
      str_ad, str_da, str_ae, str_ea, str_bd, str_db, str_be, str_eb,
      str_de, str_ed]

/-- C9: `add_item` on an id already present overwrites only the stored
vector: the node table keeps its size, the level table, every level's
neighbour sets and the entry point are untouched, and the node is not
reinserted. -/
theorem add_item_existing_frame (st : HState) (id : String) (v : List ℝ)
    (rnd : ℕ) (h : amem st.nodes id = true) :
    (st.add_item id v rnd).nodes = ainsert st.nodes id v ∧
    alookup (st.add_item id v rnd).nodes id = some v ∧
    (st.add_item id v rnd).nodes.length = st.nodes.length ∧
    (st.add_item id v rnd).node_levels = st.node_levels ∧
    (st.add_item id v rnd).graphs = st.graphs ∧
    (st.add_item id v rnd).ep = st.ep := by
  unfold HState.add_item
  rw [if_pos h]
  exact ⟨rfl, alookup_ainsert_self _ _ _,
    length_ainsert_of_amem _ _ _ h, rfl, rfl, rfl⟩

/-- Witness for `add_item_existing_frame` at a concrete state. -/
theorem add_item_existing_frame_wit :
    amem hC1a.nodes "a" = true ∧
    ((hC1a.add_item "a" vM 0).nodes = ainsert hC1a.nodes "a" vM ∧
      alookup (hC1a.add_item "a" vM 0).nodes "a" = some vM ∧
      (hC1a.add_item "a" vM 0).nodes.length = hC1a.nodes.length ∧
      (hC1a.add_item "a" vM 0).node_levels = hC1a.node_levels ∧
      (hC1a.add_item "a" vM 0).graphs = hC1a.graphs ∧
      (hC1a.add_item "a" vM 0).ep = hC1a.ep) := by
  have h : amem hC1a.nodes "a" = true := by
    rw [hC1a_eq]
    simp [amem, alookup]
  exact ⟨h, add_item_existing_frame hC1a "a" vM 0 h⟩

/-- A length-3 vector, mismatching the dimension-2 stores. -/
noncomputable def vBad : List ℝ := [1, 2, 3]

/-- C8 (counterexample): the index `hC1a` was built with `dim = 2` and
its dimension was fixed by inserting the length-2 vector `a = [1,0]`;
re-inserting `a` with a length-3 vector nevertheless succeeds —
`HNSWIndex.add_item` performs no dimension check at all (it raises
nothing; the mismatched vector is simply stored). -/
theorem hnsw_add_item_accepts_mismatched_dim :
    alookup ((hC1a.add_item "a" vBad 0)).nodes "a" = some vBad ∧
    vBad.length ≠ hC1a.dim ∧
    (alookup hC1a.nodes "a").map List.length = some hC1a.dim := by
  rw [hC1a_eq]
  refine ⟨?_, by simp [vBad, hC1a_eq], by simp [alookup, vA]⟩
  simp [HState.add_item, amem, alookup, ainsert]

/-- C8 (amended): the dimension check lives only in
`VectorStore.add_vector`, which rejects a mismatched vector with an
`InvalidDimension` error once the dimension is fixed, while
`HNSWIndex.add_item` validates nothing: re-adding an existing id with
a vector of any length succeeds and stores it. -/
theorem dimension_check_only_in_store (s : VStore) (id : String)
    (v : List ℝ) (d : ℕ) (hd : s.dimension = some d) (hv : v.length ≠ d)
    (st : HState) (id' : String) (w : List ℝ) (rnd : ℕ)
    (h : amem st.nodes id' = true) :
    s.add_vector id v = .error "InvalidDimension" ∧
    alookup (st.add_item id' w rnd).nodes id' = some w := by
  constructor
  · unfold VStore.add_vector
    rw [hd]
    exact if_pos hv
  · exact (add_item_existing_frame st id' w rnd h).2.1

/-- Witness for `dimension_check_only_in_store`. -/
theorem dimension_check_only_in_store_wit :
    wStore.dimension = some 2 ∧ vBad.length ≠ 2 ∧
    amem hC1.nodes "b" = true ∧
    (wStore.add_vector "z" vBad = .error "InvalidDimension" ∧
      alookup (hC1.add_item "b" vBad 0).nodes "b" = some vBad) := by
  have h1 : wStore.dimension = some 2 := rfl
  have h2 : vBad.length ≠ 2 := by simp [vBad]
  have h3 : amem hC1.nodes "b" = true := by
    rw [hC1_eq]
    simp [amem, alookup, str_ab]
  exact ⟨h1, h2, h3,
    dimension_check_only_in_store wStore "z" vBad 2 h1 h2 hC1 "b" vBad 0 h3⟩

/-! ## `BinaryVectorStore` (`vecstream/binary_store.py`)

The disk writes (`_save_store`) are I/O only; the in-memory state is
the inherited `VectorStore` fields plus the `metadata` dict. -/

/-- In-memory state of a `BinaryVectorStore`. -/
structure BStore where
  vectors : List (String × List ℝ)
  dimension : Option ℕ
  metadata : List (String × JObj)

/-- Python truthiness of the optional `metadata` argument:
`None` and `{}` are falsy. -/
def mdTruthy : Option JObj → Bool
  | none => false
  | some m => m.nonempty

/-- `BinaryVectorStore.add_vector`: the inherited add (with its
dimension check), then `if metadata: self.metadata[id] = metadata`. -/
def BStore.add_vector (s : BStore) (id : String) (v : List ℝ)
    (md : Option JObj) : Except String BStore :=
  let newMeta := if mdTruthy md then ainsert s.metadata id (md.getD .nil)
                 else s.metadata
  match s.dimension with
  | none => .ok ⟨ainsert s.vectors id v, some v.length, newMeta⟩
  | some d =>
    if v.length ≠ d then .error "InvalidDimension"
    else .ok ⟨ainsert s.vectors id v, some d, newMeta⟩

/-- Inherited `VectorStore.get_vector`. -/
def BStore.get_vector (s : BStore) (id : String) :
    Except String (List ℝ) :=
  match alookup s.vectors id with
  | some v => .ok v
  | none => .error "KeyError"

/-- `BinaryVectorStore.get_vector_with_metadata`:
`(self.get_vector(id), self.metadata.get(id))`. -/
def BStore.get_vector_with_metadata (s : BStore) (id : String) :
    Except String (List ℝ × Option JObj) :=
  match s.get_vector id with
  | .ok v => .ok (v, alookup s.metadata id)
  | .error e => .error e

/-- C10: adding with `None` or `{}` metadata stores no metadata entry
— the metadata dict is unchanged — and a successful re-add therefore
pairs the new vector with the previously stored metadata in
`get_vector_with_metadata`. -/
theorem add_vector_empty_metadata_frame (s : BStore) (id : String)
    (v : List ℝ) (md : Option JObj) (hmd : mdTruthy md = false)
    (s' : BStore) (h : s.add_vector id v md = .ok s') :
    s'.metadata = s.metadata ∧
    s'.get_vector_with_metadata id = .ok (v, alookup s.metadata id) := by
  unfold BStore.add_vector at h
  rw [if_neg (by rw [hmd]; exact Bool.false_ne_true)] at h
  have hs' : s' = ⟨ainsert s.vectors id v, s'.dimension, s.metadata⟩ := by
    cases hdim : s.dimension with
    | none =>
      rw [hdim] at h
      cases h
      rfl
    | some d =>
      rw [hdim] at h
      simp only [] at h
      by_cases hl : v.length ≠ d
      · rw [if_pos hl] at h
        cases h
      · rw [if_neg hl] at h
        cases h
        rfl
  constructor
  · rw [hs']
  · rw [hs']
    unfold BStore.get_vector_with_metadata BStore.get_vector
    simp [alookup_ainsert_self]

/-- Concrete store for the C10 witness: one vector `"x" ↦ [1]` with a
non-empty metadata record. -/
noncomputable def bW : BStore :=
  ⟨[("x", [(1 : ℝ)])], some 1, [("x", JObj.cons "k" (.str "v") .nil)]⟩

/-- The state the C10 witness expects after the re-add. -/
noncomputable def bW2 : BStore := ⟨[("x", [(2 : ℝ)])], some 1, bW.metadata⟩

/-- Witness for `add_vector_empty_metadata_frame`: re-adding `"x"`
without metadata keeps its old metadata and returns the new vector. -/
theorem add_vector_empty_metadata_frame_wit :
    mdTruthy none = false ∧
    bW.add_vector "x" [2] none = .ok bW2 ∧
    (bW2.metadata = bW.metadata ∧
      bW2.get_vector_with_metadata "x" = .ok ([2], alookup bW.metadata "x")) := by
  have h1 : mdTruthy none = false := rfl
  have h2 : bW.add_vector "x" [2] none = .ok bW2 := by
    simp [bW, bW2, BStore.add_vector, mdTruthy, ainsert]
  exact ⟨h1, h2, add_vector_empty_metadata_frame bW "x" [2] none h1 bW2 h2⟩

/-! ## `IndexManager` (`vecstream/index_manager.py`) -/

/-- State of an `IndexManager`: the owned store, the `use_hnsw` flag,
the `hnsw_params` (`M`, `ef_construction`, `ml`), the flat normalized
matrix with its id column, and the optional HNSW index. -/
structure IMState where
  store : BStore
  useHnsw : Bool
  pM : ℕ
  pEf : ℕ
  pMl : ℕ
  index : Option (List (List ℝ))
  hnsw : Option HState
  indexedIds : List String

/-- One row of the flat index: `vectors_array / norms` with zero norms
replaced by `1` (so zero vectors stay zero). -/
noncomputable def normalizeRow (v : List ℝ) : List ℝ :=
  if norm v = 0 then v else v.map (· / norm v)

/-- `IndexManager._create_hnsw_index` followed by the adds: build a
fresh `HNSWIndex` over the store's dimension and insert every stored
vector (the random level draws are the `levels` oracle, consumed
positionally). -/
noncomputable def createHnsw (s : BStore) (pM pEf pMl : ℕ)
    (levels : List ℕ) : HState :=
  ((s.vectors.zip levels).foldl
    (fun h p => h.add_item p.1.1 p.1.2 p.2)
    (HState.init (s.dimension.getD 0) pM pEf pMl))

/-- `IndexManager.create_index`: an empty store is a no-op; otherwise
record the id column, normalize the matrix, and rebuild the HNSW index
when enabled and the dimension is known. -/
noncomputable def createIndex (st : IMState) (levels : List ℕ) : IMState :=
  if st.store.vectors.isEmpty then st
  else
    let ids := st.store.vectors.map Prod.fst
    let mat := st.store.vectors.map (fun p => normalizeRow p.2)
    let hn := if st.useHnsw ∧ st.store.dimension.isSome then
        some (createHnsw st.store st.pM st.pEf st.pMl levels)
      else st.hnsw
    ⟨st.store, st.useHnsw, st.pM, st.pEf, st.pMl, some mat, hn, ids⟩

/-- `set(xs) == set(ys)` on id lists. -/
def sameIdSet (xs ys : List String) : Bool :=
  xs.all (fun x => x ∈ ys) && ys.all (fun y => y ∈ xs)

/-- `IndexManager.update_index`. -/
noncomputable def updateIndex (st : IMState) (levels : List ℕ) : IMState :=
  if st.index.isNone then createIndex st levels
  else if sameIdSet (st.store.vectors.map Prod.fst) st.indexedIds then st
  else createIndex st levels

/-- `IndexManager._search_standard`: normalized dot products against
the flat matrix, threshold filter, stable descending sort, first `k`. -/
noncomputable def searchStandard (st : IMState) (q : List ℝ) (k : ℕ)
    (threshold : ℝ) : List (String × ℝ) :=
  let qn := normalize q
  let sims := (st.index.getD []).map (fun r => dot r qn)
  let results := (st.indexedIds.zip sims).filter
    (fun p => threshold ≤ p.2)
  (List.insertionSort simGE results).take k

/-- `IndexManager.search`: no index or nothing indexed gives `[]`;
the HNSW path filters by `threshold` only when it is positive;
otherwise fall back to the flat path. -/
noncomputable def imSearch (st : IMState) (q : List ℝ) (k : ℕ)
    (threshold : ℝ) (efSearch : Option ℕ) : List (String × ℝ) :=
  if (st.index.isNone ∧ st.hnsw.isNone) ∨ st.indexedIds.isEmpty then []
  else if st.useHnsw ∧ st.hnsw.isSome then
    let results := ((st.hnsw.getD (HState.init 0 0 0 0)).search q k efSearch)
    if 0 < threshold then results.filter (fun p => threshold ≤ p.2)
    else results
  else searchStandard st q k threshold

/-! ## `QueryEngine.search` (`vecstream/query_engine.py`) -/

/-- `if metadata and self._matches_filter(metadata, filter_metadata)`
for one candidate id: the stored metadata must be present, non-empty
(Python truthiness) and satisfy the filter.  (When the id is absent
from the store the Python code would raise inside
`get_vector_with_metadata`; candidates come from the index over the
same store.) -/
def entryPassesFilter (s : BStore) (f : JObj) (id : String) : Bool :=
  match alookup s.metadata id with
  | some m => m.nonempty && matchesFilter m f
  | none => false

/-- The predicate `entryPassesFilter` reduces to for the empty filter:
the entry merely has to carry non-empty metadata. -/
def hasNonemptyMeta (s : BStore) (id : String) : Bool :=
  match alookup s.metadata id with
  | some m => m.nonempty
  | none => false

/-- `QueryEngine.search`: refresh the index; with no filter delegate
directly; with a filter pull an inflated pool of
`min(max(4k, 100), N)` candidates above the threshold and keep the
first `k` that pass the metadata filter (the loop's early `break` at
`k` admitted entries is `take k` of the filtered pool). -/
noncomputable def qeSearch (st : IMState) (q : List ℝ) (k : ℕ)
    (threshold : ℝ) (levels : List ℕ) (filter : Option JObj) :
    List (String × ℝ) :=
  let st' := updateIndex st levels
  match filter with
  | none => imSearch st' q k threshold none
  | some f =>
    let cnt := min (max (k * 4) 100) st'.store.vectors.length
    let results := imSearch st' q cnt threshold none
    (results.filter (fun p => entryPassesFilter st'.store f p.1)).take k

theorem norm_vA : norm vA = 1 := by
  unfold norm
  rw [normSq_vA, Real.sqrt_one]

theorem norm_vE : norm vE = 1 := by
  unfold norm
  rw [normSq_vE, Real.sqrt_one]

theorem normalizeRow_vA : normalizeRow vA = vA := by
  unfold normalizeRow
  rw [norm_vA, if_neg (by norm_num)]
  norm_num [vA]

theorem normalizeRow_vE : normalizeRow vE = vE := by
  unfold normalizeRow
  rw [norm_vE, if_neg (by norm_num)]
  norm_num [vE]

/-- `IndexManager` over the one-vector store `a = [−1, 0]` with HNSW
enabled, index built with the level oracle `[0]`. -/
noncomputable def imC6 : IMState :=
  createIndex ⟨⟨[("a", vE)], some 2, []⟩, true, 16, 10, 0, none, none, []⟩ [0]

theorem imC6_eq : imC6 =
    ⟨⟨[("a", vE)], some 2, []⟩, true, 16, 10, 0,
      some [vE],
      some ⟨2, 16, 10, 0, [("a", vE)], [("a", 0)], [[("a", [])]],
        some "a"⟩,
      ["a"]⟩ := by
  norm_num [imC6, createIndex, createHnsw, normalizeRow_vE,
    HState.init, HState.add_item, amem, alookup, ainsert, HState.adj,
    HState.setAdj, List.range_succ]

/-- C6 (counterexample): with `threshold = 0.0` the HNSW dispatch path
of `IndexManager.search` does not filter at all (`if threshold > 0`),
and returns the pair `("a", −1)` whose similarity is below the
threshold. -/
theorem im_search_threshold_zero_violated :
    imSearch imC6 vA 5 0 none = [("a", -1)] ∧ ¬ ((0 : ℝ) ≤ -1) := by
  refine ⟨?_, by norm_num⟩
  rw [imC6_eq]
  norm_num [imSearch, HState.search, HState.vecOf, HState.neighbors,
    HState.levelOf, amem, alookup, HState.adj, searchLayer, searchLoop, headFurthest,
    expandNeighbor, greedyStep, downRange, ltFurthest, gtFurthest, tupLE,
    dAE]

/-- C6 (amended): every returned pair's similarity is at least the
threshold whenever the threshold is positive (on both dispatch paths),
and on the flat path for every threshold including `0`; only the HNSW
path with `threshold = 0` skips the filter. -/
theorem im_search_threshold_filter (st : IMState) (q : List ℝ) (k : ℕ)
    (t : ℝ) (ef : Option ℕ) :
    (0 < t → ∀ p ∈ imSearch st q k t ef, t ≤ p.2) ∧
    (∀ p ∈ searchStandard st q k t, t ≤ p.2) := by
  have hstd : ∀ p ∈ searchStandard st q k t, t ≤ p.2 := by
    intro p hp
    unfold searchStandard at hp
    have hp1 : p ∈ List.insertionSort simGE
        ((st.indexedIds.zip ((st.index.getD []).map
          (fun r => dot r (normalize q)))).filter
          (fun p => t ≤ p.2)) := List.mem_of_mem_take hp
    have hp2 := (List.mem_insertionSort simGE).mp hp1
    have := List.of_mem_filter hp2
    simpa using this
  refine ⟨?_, hstd⟩
  intro ht p hp
  unfold imSearch at hp
  by_cases h0 : (st.index.isNone ∧ st.hnsw.isNone) ∨ st.indexedIds.isEmpty
  · rw [if_pos h0] at hp
    simp at hp
  · rw [if_neg h0] at hp
    by_cases h1 : st.useHnsw ∧ st.hnsw.isSome
    · rw [if_pos h1] at hp
      rw [if_pos ht] at hp
      have := List.of_mem_filter hp
      simpa using this
    · rw [if_neg h1] at hp
      exact hstd p hp

/-- Witness for `im_search_threshold_filter` at the concrete state
`imC6`, threshold `1/2`. -/
theorem im_search_threshold_filter_wit :
    (∀ p ∈ imSearch imC6 vA 5 (1/2) none, (1/2 : ℝ) ≤ p.2) ∧
    (∀ p ∈ searchStandard imC6 vA 5 (1/2), (1/2 : ℝ) ≤ p.2) :=
  ⟨(im_search_threshold_filter imC6 vA 5 (1/2) none).1 (by norm_num),
    (im_search_threshold_filter imC6 vA 5 (1/2) none).2⟩

/-- `IndexManager` over the one-vector store `a = [1, 0]` carrying no
metadata, HNSW enabled, index not yet built. -/
noncomputable def imC7 : IMState :=
  ⟨⟨[("a", vA)], some 2, []⟩, true, 16, 10, 0, none, none, []⟩

/-- C7 (counterexample): on a store whose only entry has no metadata,
`QueryEngine.search` with the empty filter `{}` returns `[]` — the
`if metadata and …` truthiness test drops entries without (or with
empty) metadata — while the unfiltered search returns the entry. -/
theorem qe_empty_filter_drops_metadata_less :
    qeSearch imC7 vA 1 0 [0] (some .nil) = [] ∧
    qeSearch imC7 vA 1 0 [0] none = [("a", 1)] := by
  constructor <;>
  norm_num [qeSearch, updateIndex, imC7, createIndex, createHnsw,
    normalizeRow_vA, HState.init, HState.add_item, amem,
    alookup, ainsert, HState.adj, HState.setAdj, List.range_succ,
    sameIdSet, imSearch, HState.search, HState.vecOf, HState.neighbors,
    HState.levelOf, searchLayer, searchLoop, headFurthest, expandNeighbor, greedyStep,
    downRange, ltFurthest, gtFurthest, tupLE, dAA, entryPassesFilter]

/-- With the empty filter the per-entry test degenerates to "has
non-empty metadata". -/
theorem entryPassesFilter_nil (s : BStore) (id : String) :
    entryPassesFilter s .nil id = hasNonemptyMeta s id := by
  unfold entryPassesFilter hasNonemptyMeta
  cases alookup s.metadata id with
  | none => rfl
  | some m => simp [matchesFilter]

/-- A record satisfies a filter iff every filter key resolves, by
dotted descent, to exactly the filter's value. -/
theorem matchesFilter_iff (m : JObj) :
    ∀ f : JObj, matchesFilter m f = true ↔
      ∀ kv ∈ f.toList, resolvePath m (splitDots kv.1) = some kv.2
  | .nil => by simp [matchesFilter, JObj.toList]
  | .cons key v rest => by
    simp only [matchesFilter, JObj.toList, Bool.and_eq_true,
      List.mem_cons]
    constructor
    · rintro ⟨hk, hrest⟩ kv hkv
      rcases hkv with hkv | hkv
      · subst hkv
        exact (matchesKey_iff_resolvePath m key v).mp hk
      · exact (matchesFilter_iff m rest).mp hrest kv hkv
    · intro h
      refine ⟨(matchesKey_iff_resolvePath m key v).mpr
        (h (key, v) (Or.inl rfl)), (matchesFilter_iff m rest).mpr ?_⟩
      intro kv hkv
      exact h kv (Or.inr hkv)

/-- C7 (amended): a metadata record satisfies a filter iff every
filter key resolves by dotted object descent to exactly the filter's
value (logical AND); the empty filter matches every record; but
`QueryEngine.search` with the empty filter object returns the entries
of the inflated-pool search that carry *non-empty* metadata (capped at
`k`), dropping entries with absent or empty metadata rather than
coinciding with the unfiltered search. -/
theorem matchesFilter_spec (m : JObj) (f : JObj) (st : IMState)
    (q : List ℝ) (k : ℕ) (t : ℝ) (lvls : List ℕ) :
    (matchesFilter m f = true ↔
      ∀ kv ∈ f.toList, resolvePath m (splitDots kv.1) = some kv.2) ∧
    matchesFilter m JObj.nil = true ∧
    qeSearch st q k t lvls (some .nil) =
      ((imSearch (updateIndex st lvls) q
          (min (max (k * 4) 100)
            (updateIndex st lvls).store.vectors.length) t none).filter
        (fun p => hasNonemptyMeta (updateIndex st lvls).store p.1)).take
        k := by
  refine ⟨matchesFilter_iff m f, rfl, ?_⟩
  · unfold qeSearch
    simp only []
    congr 1
    apply List.filter_congr
    intro p _
    exact entryPassesFilter_nil (updateIndex st lvls).store p.1

/-- The empty index satisfies the full bidirectionality invariant with
a zero budget. -/
theorem W2Inv_init (d M efc ml : ℕ) : W2Inv (HState.init d M efc ml) 0 := by
  refine ⟨?_, ?_, ?_, ?_, ?_⟩
  · intro lv
    rw [init_adj]
    refine ⟨List.nodup_nil, ?_, ?_, ?_, ?_, ?_⟩
    · intro p hp
      exact absurd hp (List.not_mem_nil p)
    · intro x hx
      simp [amem, alookup] at hx
    · intro x y hy
      simp [alookup] at hy
    · intro p hp
      exact absurd hp (List.not_mem_nil p)
    · intro x hx
      simp [amem, alookup] at hx
  · intro x hx
    simp [HState.init, amem, alookup] at hx
  · simp [HState.init, akeys]
  · intro e he
    simp [HState.init] at he
  · simp [HState.init]

/-- The number of `add_item` calls in a script. -/
def addCount : List HOp → ℕ
  | [] => 0
  | HOp.add _ _ _ :: rest => addCount rest + 1
  | HOp.remove _ :: rest => addCount rest

/-- Master induction: running a script whose adds fit in the remaining
budget preserves the invariant, with the budget advanced by the number
of adds. -/
theorem runOps_W2 : ∀ (ops : List HOp) (st : HState) (u : ℕ),
    W2Inv st u → u + addCount ops ≤ st.M + 1 →
    W2Inv (runOps st ops) (u + addCount ops) := by
  intro ops
  induction ops with
  | nil =>
    intro st u hw _
    exact hw
  | cons op rest ih =>
    intro st u hw hb
    rw [runOps_cons]
    cases op with
    | add id v rnd =>
      have hcnt : addCount (HOp.add id v rnd :: rest) = addCount rest + 1 :=
        rfl
      have hM : u ≤ st.M := by omega
      have hw1 : W2Inv (applyOp st (.add id v rnd)) (u + 1) :=
        add_item_W2 st id v rnd u hw hM
      have hM1 : (applyOp st (.add id v rnd)).M = st.M := applyOp_M st _
      have hb1 : (u + 1) + addCount rest ≤
          (applyOp st (.add id v rnd)).M + 1 := by
        rw [hM1]
        omega
      have hrun := ih (applyOp st (.add id v rnd)) (u + 1) hw1 hb1
      have heq : u + addCount (HOp.add id v rnd :: rest) =
          (u + 1) + addCount rest := by omega
      rw [heq]
      exact hrun
    | remove r =>
      have hcnt : addCount (HOp.remove r :: rest) = addCount rest := rfl
      have hw1 : W2Inv (applyOp st (.remove r)) u := remove_item_W2 st r u hw
      have hM1 : (applyOp st (.remove r)).M = st.M := applyOp_M st _
      have hb1 : u + addCount rest ≤ (applyOp st (.remove r)).M + 1 := by
        rw [hM1]
        omega
      have hrun := ih (applyOp st (.remove r)) u hw1 hb1
      rw [hcnt]
      exact hrun

/-- C2 (amended): edges are installed bidirectionally, but degree-cap
pruning removes edges one-sidedly; after every script of `add_item`
and `remove_item` calls containing at most `M + 1` adds (so the caps
are never exceeded and no pruning fires), neighbour edges at every
level are bidirectional. -/
theorem hnsw_bidirectional_of_few_adds (d M efc ml : ℕ) (ops : List HOp)
    (hcount : addCount ops ≤ M + 1) (lv : ℕ) (x y : String) :
    (y ∈ (runOps (HState.init d M efc ml) ops).neighbors lv x ↔
     x ∈ (runOps (HState.init d M efc ml) ops).neighbors lv y) := by
  have hM : (HState.init d M efc ml).M = M := rfl
  have hw := runOps_W2 ops (HState.init d M efc ml) 0
    (W2Inv_init d M efc ml) (by rw [hM]; omega)
  constructor
  · intro h
    exact (hw.gok lv).gbidir x y h
  · intro h
    exact (hw.gok lv).gbidir y x h

/-- Witness for C2 on a concrete two-add script: the edge between `a`
and `b` at level 0 is reported symmetrically, and the script's add
count is within the budget. -/
theorem hnsw_bidirectional_of_few_adds_wit :
    addCount [HOp.add "a" vA 0, HOp.add "b" vM 0] ≤ 16 + 1 ∧
    ("b" ∈ (runOps (HState.init 2 16 10 0)
        [HOp.add "a" vA 0, HOp.add "b" vM 0]).neighbors 0 "a" ↔
     "a" ∈ (runOps (HState.init 2 16 10 0)
        [HOp.add "a" vA 0, HOp.add "b" vM 0]).neighbors 0 "b") :=
  ⟨by simp only [addCount]; omega,
   hnsw_bidirectional_of_few_adds 2 16 10 0
     [HOp.add "a" vA 0, HOp.add "b" vM 0]
     (by simp only [addCount]; omega) 0 "a" "b"⟩

end VecStream
